import Mathlib

/-!
Verification of the vtrie core (`src/trie.c`) against its specification.

The embedding mirrors the C data structures directly:

* `TrieNode` is the C `struct TrieNode`: a first-child / next-sibling
  linked structure.  The constructor `nil` stands for the NULL pointer,
  so `child`/`sibling` fields are plain `TrieNode`s exactly as in C.
  The `parent` back pointer is not stored: the C code uses it only to
  walk back up a path it just walked down (`trie_del_item`), which the
  recursive embedding expresses directly.
* `TrieItem.key` is `Option Key`: `none` is the NULL key pointer,
  `some l` is an owned NUL-terminated buffer holding the bytes `l`.
  The separate C field `keylen` always equals the length of the buffer
  (it is written only together with `key`), so it is represented by
  `(key.getD []).length`.
* Machine integers: `size_t` counters are `Nat`; `memsize` arithmetic,
  which mixes `+=` and `-=`, is carried out modulo `2 ^ 64` by `msAdd` /
  `msSub` to match `size_t` wrap-around.  `state_id` (a C `long long`
  that is only ever incremented) is a `Nat`.
* Values (`TRIEVALUE *`) are `Nat`, with `0` standing for NULL; the
  deallocation callback is modelled by a `Bool` (provided or not) and
  every operation returns the list of values actually passed to it.
* Pointers into the trie held by iterators are modelled as root paths
  (`Key`); on the stores the claims quantify over (children of a node
  carry pairwise distinct `ch`, as `trie_set_item` guarantees) a path
  identifies a node uniquely, exactly as a pointer does.
-/

namespace VTrie

/-- `TRIECHAR` is C `char`; keys are NUL-terminated byte strings, so a key
is a list of bytes (the terminator is a representation artifact). -/
abbrev TRIECHAR := Nat

abbrev Key := List TRIECHAR

/-- `TRIEVALUE *` : an opaque pointer, `0` = NULL. -/
abbrev Value := Nat

/-- C `struct TrieItem`.  `key = none` models a NULL key pointer.  The C
field `keylen` is represented by the buffer length (the code writes it
only together with `key`, always as the buffer's length). -/
structure TrieItem where
  key : Option Key
  value : Value
  deriving Repr, DecidableEq

/-- C `struct TrieNode`, first-child / next-sibling representation.
`nil` is the NULL pointer. -/
inductive TrieNode where
  | nil : TrieNode
  | mk (item : TrieItem) (child : TrieNode) (sibling : TrieNode)
       (ch : TRIECHAR) (flags : Nat) : TrieNode
  deriving Repr, DecidableEq

namespace TrieNode

/-- Field access; on `nil` the defaults are never reached by the modelled
code (C would fault on a NULL dereference) and merely totalize. -/
def item : TrieNode → TrieItem
  | .nil => ⟨none, 0⟩
  | .mk i _ _ _ _ => i

def child : TrieNode → TrieNode
  | .nil => .nil
  | .mk _ c _ _ _ => c

def sibling : TrieNode → TrieNode
  | .nil => .nil
  | .mk _ _ s _ _ => s

def ch : TrieNode → TRIECHAR
  | .nil => 0
  | .mk _ _ _ c _ => c

def flags : TrieNode → Nat
  | .nil => 0
  | .mk _ _ _ _ f => f

end TrieNode

/-- `TRIE_EXPLORED` test: `(flags & TRIE_EXPLORED) == TRIE_EXPLORED` with
`TRIE_EXPLORED = 0x1`. -/
def explored (n : TrieNode) : Bool := n.flags &&& 1 = 1

/-- `trienode_get_child`: linear scan of the sibling list for the first
child whose `ch` matches; NULL (`nil`) if absent. -/
def chainFind : TrieNode → TRIECHAR → TrieNode
  | .nil, _ => .nil
  | .mk i c s cc f, t => if cc = t then .mk i c s cc f else chainFind s t

def trienode_get_child (n : TrieNode) (t : TRIECHAR) : TrieNode :=
  chainFind n.child t

/-- In-place update of the first `ch`-matching node of a sibling chain
(the C code mutates the node `trienode_get_child` found; the replacement
node built by the caller keeps that node's `sibling`). -/
def chainSubst : TrieNode → TRIECHAR → TrieNode → TrieNode
  | .nil, _, _ => .nil
  | .mk i c s cc f, t, n' => if cc = t then n' else .mk i c (chainSubst s t n') cc f

/-- Unlink the first `ch`-matching node from a sibling chain
(`trienode_remove_child`'s list surgery). -/
def chainRemove : TrieNode → TRIECHAR → TrieNode
  | .nil, _ => .nil
  | .mk i c s cc f, t => if cc = t then s else .mk i c (chainRemove s t) cc f

/-- `trie_get_node`: walk from a node along the key.  NULL propagates:
`chainFind nil.child = nil`, matching the C loop's `node != NULL` test. -/
def trie_get_node : TrieNode → Key → TrieNode
  | n, [] => n
  | n, c :: k => trie_get_node (trienode_get_child n c) k

/-- Set the `EXPLORED` bit of the node at a given root path
(`node->flags |= TRIE_EXPLORED` on the node a stored pointer designates;
paths model the pointers).  A dangling path leaves the trie unchanged. -/
def trie_mark : TrieNode → Key → TrieNode
  | .nil, _ => .nil
  | .mk i c s cc f, [] => .mk i c s cc (f ||| 1)
  | .mk i c s cc f, t :: p =>
      match chainFind c t with
      | .nil => .mk i c s cc f
      | found => .mk i (chainSubst c t (trie_mark found p)) s cc f

/-- `trie_reset`: clear the flags of a node and everything below it
(recursing through `child` and `sibling` exactly as the C code). -/
def trie_reset : TrieNode → TrieNode
  | .nil => .nil
  | .mk i c s cc _ => .mk i (trie_reset c) (trie_reset s) cc 0

/-- Every reachable node has zero flags. -/
def flagsClear : TrieNode → Bool
  | .nil => true
  | .mk _ c s _ f => f = 0 && flagsClear c && flagsClear s

/-- Number of nodes in a sibling chain together with all their
descendants. -/
def listSize : TrieNode → Nat
  | .nil => 0
  | .mk _ c s _ _ => 1 + listSize c + listSize s

/-- Height of a sibling chain: greatest number of nodes on a downward
path starting at one of its members. -/
def listHeight : TrieNode → Nat
  | .nil => 0
  | .mk _ c s _ _ => max (1 + listHeight c) (listHeight s)

/-- Number of nodes in a sibling chain (children of one parent). -/
def chainLength : TrieNode → Nat
  | .nil => 0
  | .mk _ _ s _ _ => 1 + chainLength s

/- ------------------------------------------------------------------ -/
/- The store (struct TrieRoot) and its operations                      -/
/- ------------------------------------------------------------------ -/

/-- Arbitrary but fixed object sizes standing for the C `sizeof`s
(platform dependent in C; only their combinations matter to the spec). -/
def sizeof_TrieNode : Nat := 48
def sizeof_TRIECHAR : Nat := 1
def sizeof_TrieRoot : Nat := 88

def M64 : Nat := 2 ^ 64

/-- `size_t` addition (used for `memsize += ...`). -/
def msAdd (m x : Nat) : Nat := (m + x) % M64

/-- `size_t` subtraction (used for `memsize -= ...`). -/
def msSub (m x : Nat) : Nat := (m + (M64 - x % M64)) % M64

/-- C `struct TrieRoot`.  `node` is the embedded `TrieNode` (the C code
casts `TrieRoot *` to `TrieNode *`); `dirty_iter` holds the identity of
the registered dirty iterator, `none` for NULL. -/
structure TrieRoot where
  node : TrieNode
  num_nodes : Nat
  num_items : Nat
  memsize : Nat
  state_id : Nat
  dirty_iter : Option Nat
  deriving Repr, DecidableEq

/-- `trie_new`. -/
def trie_new : TrieRoot :=
  { node := .mk ⟨none, 0⟩ .nil .nil 0 0
    num_nodes := 0
    num_items := 0
    memsize := sizeof_TrieRoot
    state_id := 0
    dirty_iter := none }

/-- `trie_get_item`. -/
def trie_get_item (root : TrieRoot) (k : Key) : Option TrieItem :=
  let n := trie_get_node root.node k
  match n.item.key with
  | none => none
  | some _ => some n.item

/-- `trie_has_key`. -/
def trie_has_key (root : TrieRoot) (k : Key) : Bool :=
  (trie_get_node root.node k).item.key ≠ none

/-- `trie_has_node`. -/
def trie_has_node (root : TrieRoot) (k : Key) : Bool :=
  trie_get_node root.node k ≠ .nil

/-- The walk of `trie_set_item`: descend along the key, creating (and
prepending, `sibling := node->child`) a fresh node whenever the child is
missing; at the terminal node install the item.

Returns the updated node, the number of nodes created, whether the
terminal node was previously non-item-bearing, and — when it was
item-bearing — its old `(keylen, value)` (freed by `trieitem_free`).
`full` is the complete key: the C code writes
`node->item.key = duplicate_string(key, keylen + 1)` with the original
`key` argument. -/
def trie_set_go (n : TrieNode) (full : Key) (suffix : Key) (v : Value) :
    TrieNode × Nat × Bool × Option (Nat × Value) :=
  match suffix, n with
  | [], .nil => (.nil, 0, true, none)   -- unreachable: the walk never stands on NULL
  | [], .mk i c s cc f =>
      match i.key with
      | none => (.mk ⟨some full, v⟩ c s cc f, 0, true, none)
      | some old => (.mk ⟨some full, v⟩ c s cc f, 0, false, some (old.length, i.value))
  | t :: rest, n =>
      match trienode_get_child n t with
      | .nil =>
          let fresh : TrieNode := .mk ⟨none, 0⟩ .nil n.child t 0
          let r := trie_set_go fresh full rest v
          match n with
          | .nil => (.nil, 0, true, none)  -- unreachable (NULL dereference in C)
          | .mk i _ s cc f => (.mk i r.1 s cc f, r.2.1 + 1, r.2.2)
      | found =>
          let r := trie_set_go found full rest v
          match n with
          | .nil => (.nil, 0, true, none)
          | .mk i c s cc f => (.mk i (chainSubst c t r.1) s cc f, r.2.1, r.2.2)

/-- `trie_set_item`.  Returns the new store, the values passed to the
deallocation callback (`dealloc = false` models passing NULL), and the C
return code.  In the model `root` and `key` always exist, so the
`root == NULL || key == NULL` failure path is not representable. -/
def trie_set_item (root : TrieRoot) (k : Key) (v : Value) (dealloc : Bool) :
    TrieRoot × List Value × Int :=
  let r := trie_set_go root.node k k v
  let node' := r.1
  let created := r.2.1
  let wasAbsent := r.2.2.1
  let old := r.2.2.2
  let ms₀ := msAdd root.memsize (created * sizeof_TrieNode)
  let calls : List Value :=
    match old with
    | some (_, ov) => if dealloc ∧ ov ≠ 0 then [ov] else []
    | none => []
  let ms₁ :=
    match old with
    | some (olen, _) => msSub ms₀ (sizeof_TRIECHAR * (olen + 1))
    | none => ms₀
  let ms₂ := msAdd ms₁ (sizeof_TRIECHAR * (k.length + 1))
  (⟨node', root.num_nodes + created,
    (if wasAbsent then root.num_items + 1 else root.num_items), ms₂,
    (if wasAbsent then root.state_id + 1 else root.state_id),
    root.dirty_iter⟩, calls, 0)

/-- `trieitem_free` on the target item of `trie_del_item`: the key buffer
is freed, and the value is passed to the deallocator only when it is
non-NULL and a deallocator was provided (otherwise it is left in place —
the C code only NULLs `item->value` after calling `dealloc`). -/
def itemAfterFree (i : TrieItem) (dealloc : Bool) : TrieItem × List Value :=
  if dealloc ∧ i.value ≠ 0 then (⟨none, 0⟩, [i.value]) else (⟨none, i.value⟩, [])

/-- The walk of `trie_del_item`: locate the item-bearing node, free its
item, then — returning — prune each node that is childless and
non-item-bearing (the C upward `while` loop with
`trienode_remove_child`; a pruned node's `trienode_free` passes its
value, if any survived an earlier deallocator-less delete, to the
deallocator).

Returns `none` when the key names no item (`-1` in C, no mutation);
otherwise the updated node, the number of nodes removed, the freed
key's length, and the values deallocated, in C call order. -/
def trie_del_go (n : TrieNode) (k : Key) (dealloc : Bool) :
    Option (TrieNode × Nat × Nat × List Value) :=
  match k, n with
  | _, .nil => none
  | [], .mk i c s cc f =>
      match i.key with
      | none => none
      | some old =>
          let r := itemAfterFree i dealloc
          some (.mk r.1 c s cc f, 0, old.length, r.2)
  | t :: rest, n =>
      match trienode_get_child n t with
      | .nil => none
      | found =>
          match trie_del_go found rest dealloc with
          | none => none
          | some (found', rc, olen, calls) =>
              match n with
              | .nil => none
              | .mk i c s cc f =>
                  if found'.child = .nil ∧ found'.item.key = none then
                    let r := itemAfterFree found'.item dealloc
                    some (.mk i (chainRemove c t) s cc f, rc + 1, olen, calls ++ r.2)
                  else
                    some (.mk i (chainSubst c t found') s cc f, rc, olen, calls)

/-- `trie_del_item`.  Returns the new store, the deallocated values and
the C return code (`0` success / `-1` key absent, in which case the
store is unchanged). -/
def trie_del_item (root : TrieRoot) (k : Key) (dealloc : Bool) :
    TrieRoot × List Value × Int :=
  match trie_del_go root.node k dealloc with
  | none => (root, [], -1)
  | some (node', removed, olen, calls) =>
      (⟨node', root.num_nodes - removed, root.num_items - 1,
        msSub (msSub root.memsize (sizeof_TRIECHAR * (olen + 1)))
          (removed * sizeof_TrieNode),
        root.state_id + 1, root.dirty_iter⟩, calls, 0)

/- ------------------------------------------------------------------ -/
/- Shape preservation: `trie_reset` erases exactly the flags, so a     -/
/- function that commutes with it preserves the tree's shape.          -/
/- ------------------------------------------------------------------ -/

@[simp] theorem trie_get_node_nil (p : Key) : trie_get_node .nil p = .nil := by
  induction p with
  | nil => rfl
  | cons c k ih => simp [trie_get_node, trienode_get_child, TrieNode.child, chainFind, ih]

@[simp] theorem listSize_reset (n : TrieNode) : listSize (trie_reset n) = listSize n := by
  induction n with
  | nil => rfl
  | mk i c s cc f ihc ihs => simp [trie_reset, listSize, ihc, ihs]

@[simp] theorem listHeight_reset (n : TrieNode) : listHeight (trie_reset n) = listHeight n := by
  induction n with
  | nil => rfl
  | mk i c s cc f ihc ihs => simp [trie_reset, listHeight, ihc, ihs]

@[simp] theorem chainLength_reset (n : TrieNode) : chainLength (trie_reset n) = chainLength n := by
  induction n with
  | nil => rfl
  | mk i c s cc f ihc ihs => simp [trie_reset, chainLength, ihs]

@[simp] theorem child_reset (n : TrieNode) : (trie_reset n).child = trie_reset n.child := by
  cases n <;> rfl

@[simp] theorem item_reset (n : TrieNode) : (trie_reset n).item = n.item := by
  cases n <;> rfl

@[simp] theorem ch_reset (n : TrieNode) : (trie_reset n).ch = n.ch := by
  cases n <;> rfl

theorem chainFind_reset (c : TrieNode) (t : TRIECHAR) :
    chainFind (trie_reset c) t = trie_reset (chainFind c t) := by
  induction c with
  | nil => rfl
  | mk i ch s cc f ihc ihs =>
      simp only [trie_reset, chainFind]
      split <;> simp [trie_reset, ihs]

theorem get_node_reset (g : TrieNode) (p : Key) :
    trie_get_node (trie_reset g) p = trie_reset (trie_get_node g p) := by
  induction p generalizing g with
  | nil => rfl
  | cons c k ih =>
      simp [trie_get_node, trienode_get_child, child_reset, chainFind_reset, ih]

theorem chainSubst_reset (c : TrieNode) (t : TRIECHAR) (n' : TrieNode)
    (h : trie_reset n' = trie_reset (chainFind c t)) :
    trie_reset (chainSubst c t n') = trie_reset c := by
  induction c with
  | nil => rfl
  | mk i ch s cc f ihc ihs =>
      by_cases heq : cc = t
      · rw [chainSubst, if_pos heq, h, chainFind, if_pos heq]
      · rw [chainFind, if_neg heq] at h
        rw [chainSubst, if_neg heq]
        show TrieNode.mk i (trie_reset ch) (trie_reset (chainSubst s t n')) cc 0 =
          TrieNode.mk i (trie_reset ch) (trie_reset s) cc 0
        rw [ihs h]

theorem reset_mark (n : TrieNode) (p : Key) :
    trie_reset (trie_mark n p) = trie_reset n := by
  induction p generalizing n with
  | nil => cases n <;> rfl
  | cons t rest ih =>
      cases n with
      | nil => rfl
      | mk i c s cc f =>
          simp only [trie_mark]
          split
          · rfl
          · show TrieNode.mk i (trie_reset (chainSubst c t (trie_mark (chainFind c t) rest)))
                (trie_reset s) cc 0 = TrieNode.mk i (trie_reset c) (trie_reset s) cc 0
            rw [chainSubst_reset c t _ (ih _)]

theorem listSize_mark (g : TrieNode) (p : Key) : listSize (trie_mark g p) = listSize g := by
  rw [← listSize_reset (trie_mark g p), reset_mark, listSize_reset]

theorem listHeight_mark_child (g : TrieNode) (p : Key) :
    listHeight (trie_mark g p).child = listHeight g.child := by
  rw [← listHeight_reset (trie_mark g p).child, ← child_reset, reset_mark, child_reset,
    listHeight_reset]

/- ------------------------------------------------------------------ -/
/- Iterator frames and the termination measure                         -/
/- ------------------------------------------------------------------ -/

/-- C `struct TrieSearchResult`; `query`/`target` are the designated
items (read through the pointers at emission time). -/
structure TrieSearchResult where
  query : TrieItem
  target : TrieItem
  hd : Nat
  deriving Repr, DecidableEq

/-- C `struct TrieIterState`.  The `node` and `query` pointers are
modelled as root paths. -/
structure Frame where
  node : Key
  query : Key
  hd : Nat
  depth : Nat
  deriving Repr, DecidableEq

/-- Termination weight of a frame: deeper frames weigh geometrically
less; the base exceeds any node's number of children. -/
def frameWeight (g : TrieNode) (f : Frame) : Nat :=
  (listSize g + 1) ^ (listHeight g.child + 1 - f.node.length)

def stackMeasure (g : TrieNode) (s : List Frame) : Nat :=
  (s.map (frameWeight g)).sum

theorem frameWeight_pos (g : TrieNode) (f : Frame) : 0 < frameWeight g f :=
  Nat.pos_pow_of_pos _ (Nat.succ_le_succ (Nat.zero_le _))

@[simp] theorem stackMeasure_nil (g : TrieNode) : stackMeasure g [] = 0 := rfl

theorem stackMeasure_cons (g : TrieNode) (f : Frame) (s : List Frame) :
    stackMeasure g (f :: s) = frameWeight g f + stackMeasure g s := by
  simp [stackMeasure]

theorem stackMeasure_append (g : TrieNode) (a b : List Frame) :
    stackMeasure g (a ++ b) = stackMeasure g a + stackMeasure g b := by
  simp [stackMeasure]

theorem stackMeasure_reverse (g : TrieNode) (a : List Frame) :
    stackMeasure g a.reverse = stackMeasure g a := by
  simp only [stackMeasure, List.map_reverse]
  exact List.sum_reverse _

theorem stackMeasure_mark (g : TrieNode) (p : Key) (s : List Frame) :
    stackMeasure (trie_mark g p) s = stackMeasure g s := by
  unfold stackMeasure frameWeight
  rw [listSize_mark, listHeight_mark_child]

theorem stackMeasure_tail_lt (g : TrieNode) (f : Frame) (s : List Frame) :
    stackMeasure g s < stackMeasure g (f :: s) := by
  rw [stackMeasure_cons]
  exact Nat.lt_add_of_pos_left (frameWeight_pos g f)

theorem chainFind_height (c : TrieNode) (t : TRIECHAR) {i' : TrieItem} {c' s' : TrieNode}
    {cc' : TRIECHAR} {f' : Nat} (h : chainFind c t = .mk i' c' s' cc' f') :
    1 + listHeight c' ≤ listHeight c := by
  induction c with
  | nil => exact absurd h (by rw [chainFind]; intro hx; cases hx)
  | mk i ch s cc f ihc ihs =>
      rw [chainFind] at h
      split at h
      · cases h
        rw [listHeight]
        exact le_max_left _ _
      · exact le_trans (ihs h) (by rw [listHeight]; exact le_max_right _ _)

theorem chainFind_size (c : TrieNode) (t : TRIECHAR) :
    listSize (chainFind c t) ≤ listSize c := by
  induction c with
  | nil => exact le_rfl
  | mk i ch s cc f ihc ihs =>
      rw [chainFind]
      split
      · exact le_rfl
      · refine le_trans ihs ?_
        rw [listSize]
        omega

theorem listSize_child_le (n : TrieNode) : listSize n.child ≤ listSize n := by
  cases n with
  | nil => exact le_rfl
  | mk i c s cc f =>
      show listSize c ≤ listSize (TrieNode.mk i c s cc f)
      rw [listSize]
      omega

theorem get_node_size (g : TrieNode) (p : Key) :
    listSize (trie_get_node g p) ≤ listSize g := by
  induction p generalizing g with
  | nil => exact le_rfl
  | cons t rest ih =>
      calc listSize (trie_get_node g (t :: rest))
          = listSize (trie_get_node (trienode_get_child g t) rest) := rfl
        _ ≤ listSize (trienode_get_child g t) := ih _
        _ ≤ listSize g.child := chainFind_size _ _
        _ ≤ listSize g := listSize_child_le g

theorem get_node_height (p : Key) (g : TrieNode) {i : TrieItem} {c s : TrieNode}
    {cc : TRIECHAR} {f : Nat} (h : trie_get_node g p = .mk i c s cc f) :
    p.length + listHeight c ≤ listHeight g.child := by
  induction p generalizing g with
  | nil =>
      have hg : g = .mk i c s cc f := h
      subst hg
      show 0 + listHeight c ≤ listHeight c
      omega
  | cons t rest ih =>
      rw [show trie_get_node g (t :: rest) = trie_get_node (trienode_get_child g t) rest
          from rfl] at h
      rcases hfd : trienode_get_child g t with _ | ⟨i', c', s', cc', f'⟩
      · rw [hfd, trie_get_node_nil] at h; cases h
      · rw [hfd] at h
        have h₁ := ih _ h
        have h₂ : 1 + listHeight c' ≤ listHeight g.child :=
          chainFind_height g.child t hfd
        have h₃ : listHeight (TrieNode.mk i' c' s' cc' f').child = listHeight c' := rfl
        rw [h₃] at h₁
        rw [List.length_cons]
        omega

theorem chainLength_le_listSize (c : TrieNode) : chainLength c ≤ listSize c := by
  induction c with
  | nil => exact le_rfl
  | mk i ch s cc f ihc ihs =>
      rw [chainLength, listSize]
      omega

theorem listHeight_pos (c : TrieNode) (h : c ≠ .nil) : 1 ≤ listHeight c := by
  cases c with
  | nil => exact absurd rfl h
  | mk i ch s cc f =>
      rw [listHeight]
      omega

theorem sum_map_const {α : Type _} (l : List α) (f : α → Nat) (k : Nat)
    (hf : ∀ x ∈ l, f x = k) : (l.map f).sum = l.length * k := by
  induction l with
  | nil => simp
  | cons a l ih =>
      rw [List.map_cons, List.sum_cons, List.length_cons, hf a (by simp),
        ih (fun x hx => hf x (by simp [hx]))]
      ring

/-- Expanding a frame into (some of) its node's children strictly
decreases the measure. -/
theorem expand_lt (g : TrieNode) (f : Frame) (rest pushes : List Frame)
    (hlen : ∀ f' ∈ pushes, f'.node.length = f.node.length + 1)
    (hcnt : pushes.length ≤ chainLength (trie_get_node g f.node).child) :
    stackMeasure g (pushes ++ rest) < stackMeasure g (f :: rest) := by
  by_cases hpe : pushes = []
  · subst hpe
    simpa using stackMeasure_tail_lt g f rest
  · have hne : 0 < pushes.length := List.length_pos.mpr hpe
    have hchain : (trie_get_node g f.node).child ≠ .nil := by
      intro hc
      rw [hc] at hcnt
      rw [chainLength] at hcnt
      omega
    rcases hn : trie_get_node g f.node with _ | ⟨i, c, s, cc, fl⟩
    · rw [hn] at hchain; exact absurd rfl hchain
    · rw [hn] at hchain hcnt
      have hcne : c ≠ .nil := hchain
      have hh : f.node.length + listHeight c ≤ listHeight g.child :=
        get_node_height _ _ hn
      have hc1 : 1 ≤ listHeight c := listHeight_pos c hcne
      have hdepth : f.node.length + 1 ≤ listHeight g.child := by omega
      have he2 : 2 ≤ listHeight g.child + 1 - f.node.length := by omega
      have hwf : frameWeight g f =
          (listSize g + 1) ^ (listHeight g.child + 1 - f.node.length) := rfl
      have hpush_w : ∀ f' ∈ pushes, frameWeight g f' =
          (listSize g + 1) ^ (listHeight g.child + 1 - f.node.length - 1) := by
        intro f' hf'
        unfold frameWeight
        rw [hlen f' hf']
        congr 1
      have hsum : stackMeasure g pushes =
          pushes.length * (listSize g + 1) ^ (listHeight g.child + 1 - f.node.length - 1) :=
        sum_map_const pushes _ _ hpush_w
      have hsize : listSize c ≤ listSize g := by
        have h₁ : listSize (TrieNode.mk i c s cc fl) ≤ listSize g := by
          rw [← hn]; exact get_node_size g f.node
        rw [listSize] at h₁
        omega
      have hcnt' : pushes.length ≤ listSize g := by
        have hx : chainLength (TrieNode.mk i c s cc fl).child = chainLength c := rfl
        rw [hx] at hcnt
        exact le_trans hcnt (le_trans (chainLength_le_listSize c) hsize)
      have hWpos : 0 <
          (listSize g + 1) ^ (listHeight g.child + 1 - f.node.length - 1) :=
        Nat.pos_pow_of_pos _ (by omega)
      have hlt : stackMeasure g pushes < frameWeight g f := by
        rw [hsum, hwf]
        have h₁ : pushes.length *
            (listSize g + 1) ^ (listHeight g.child + 1 - f.node.length - 1) ≤
            listSize g * (listSize g + 1) ^ (listHeight g.child + 1 - f.node.length - 1) :=
          Nat.mul_le_mul_right _ hcnt'
        have h₃ : (listSize g + 1) *
            (listSize g + 1) ^ (listHeight g.child + 1 - f.node.length - 1) =
            (listSize g + 1) ^ (listHeight g.child + 1 - f.node.length) := by
          rw [← pow_succ']
          congr 1
          omega
        have h₂ : listSize g *
            (listSize g + 1) ^ (listHeight g.child + 1 - f.node.length - 1) <
            (listSize g + 1) *
            (listSize g + 1) ^ (listHeight g.child + 1 - f.node.length - 1) :=
          (Nat.mul_lt_mul_right hWpos).mpr (by omega)
        omega
      rw [stackMeasure_append, stackMeasure_cons]
      omega

/- ------------------------------------------------------------------ -/
/- The three iterator advance functions                                -/
/- ------------------------------------------------------------------ -/

/-- The `for (child = node->child; ...) trieiter_push_state(...)` loop of
`trieiter_suffixes_next`, as the list of pushed states in push order
(the stack segment it leaves is this list reversed). -/
def chainFramesS (chain : TrieNode) (base query : Key) (depth : Nat) : List Frame :=
  match chain with
  | .nil => []
  | .mk _ _ s cc _ => ⟨base ++ [cc], query, 0, depth + 1⟩ :: chainFramesS s base query depth

theorem chainFramesS_length (c : TrieNode) (b q : Key) (d : Nat) :
    (chainFramesS c b q d).length = chainLength c := by
  induction c with
  | nil => rfl
  | mk i ch s cc f ihc ihs =>
      rw [chainFramesS, List.length_cons, ihs, chainLength]
      omega

theorem chainFramesS_node (c : TrieNode) (b q : Key) (d : Nat) :
    ∀ f' ∈ chainFramesS c b q d, f'.node.length = b.length + 1 := by
  induction c with
  | nil => intro f' hf'; cases hf'
  | mk i ch s cc f ihc ihs =>
      intro f' hf'
      rw [chainFramesS] at hf'
      rcases List.mem_cons.mp hf' with rfl | hf'
      · simp
      · exact ihs f' hf'

/-- The child loop of `trieiter_neighbors_next`: push on a character
match keeping `hd`, push with `hd+1` on a mismatch while `hd < maxhd`,
otherwise prune. -/
def chainFramesN (chain : TrieNode) (base query qk : Key) (hd depth maxhd : Nat) :
    List Frame :=
  match chain with
  | .nil => []
  | .mk _ _ s cc _ =>
      if cc = qk.getD depth 0 then
        ⟨base ++ [cc], query, hd, depth + 1⟩ :: chainFramesN s base query qk hd depth maxhd
      else if hd < maxhd then
        ⟨base ++ [cc], query, hd + 1, depth + 1⟩ :: chainFramesN s base query qk hd depth maxhd
      else chainFramesN s base query qk hd depth maxhd

theorem chainFramesN_length (c : TrieNode) (b q qk : Key) (hd d maxhd : Nat) :
    (chainFramesN c b q qk hd d maxhd).length ≤ chainLength c := by
  induction c with
  | nil => exact le_rfl
  | mk i ch s cc f ihc ihs =>
      rw [chainFramesN, chainLength]
      split
      · rw [List.length_cons]; omega
      · split
        · rw [List.length_cons]; omega
        · omega

theorem chainFramesN_node (c : TrieNode) (b q qk : Key) (hd d maxhd : Nat) :
    ∀ f' ∈ chainFramesN c b q qk hd d maxhd, f'.node.length = b.length + 1 := by
  induction c with
  | nil => intro f' hf'; cases hf'
  | mk i ch s cc f ihc ihs =>
      intro f' hf'
      rw [chainFramesN] at hf'
      split at hf'
      · rcases List.mem_cons.mp hf' with rfl | hf'
        · simp
        · exact ihs f' hf'
      · split at hf'
        · rcases List.mem_cons.mp hf' with rfl | hf'
          · simp
          · exact ihs f' hf'
        · exact ihs f' hf'

/-- The child loop of `trieiter_hammingpairs_next`: children whose
`EXPLORED` flag is set are skipped (and counted); the rest follow the
neighbor rule.  Returns the pushed states in push order, together with
`n_children` and `n_explored`. -/
def chainFramesH (chain : TrieNode) (base query qk : Key) (hd depth maxhd : Nat) :
    List Frame × Nat × Nat :=
  match chain with
  | .nil => ([], 0, 0)
  | .mk _ _ s cc fl =>
      let r := chainFramesH s base query qk hd depth maxhd
      if fl &&& 1 = 1 then (r.1, r.2.1 + 1, r.2.2 + 1)
      else if cc = qk.getD depth 0 then
        (⟨base ++ [cc], query, hd, depth + 1⟩ :: r.1, r.2.1 + 1, r.2.2)
      else if hd < maxhd then
        (⟨base ++ [cc], query, hd + 1, depth + 1⟩ :: r.1, r.2.1 + 1, r.2.2)
      else (r.1, r.2.1 + 1, r.2.2)

theorem chainFramesH_length (c : TrieNode) (b q qk : Key) (hd d maxhd : Nat) :
    (chainFramesH c b q qk hd d maxhd).1.length ≤ chainLength c := by
  induction c with
  | nil => exact le_rfl
  | mk i ch s cc f ihc ihs =>
      simp only [chainFramesH, chainLength]
      split
      · exact le_trans ihs (by omega)
      · split
        · simp only [List.length_cons]
          omega
        · split
          · simp only [List.length_cons]
            omega
          · exact le_trans ihs (by omega)

theorem chainFramesH_node (c : TrieNode) (b q qk : Key) (hd d maxhd : Nat) :
    ∀ f' ∈ (chainFramesH c b q qk hd d maxhd).1, f'.node.length = b.length + 1 := by
  induction c with
  | nil => intro f' hf'; cases hf'
  | mk i ch s cc f ihc ihs =>
      intro f' hf'
      simp only [chainFramesH] at hf'
      split at hf'
      · exact ihs f' hf'
      · split at hf'
        · rcases List.mem_cons.mp hf' with rfl | hf'
          · simp
          · exact ihs f' hf'
        · split at hf'
          · rcases List.mem_cons.mp hf' with rfl | hf'
            · simp
            · exact ihs f' hf'
          · exact ihs f' hf'

/-- `trieiter_suffixes_next`: pop a state; if its node is item-bearing,
build a result; push all children; return the result or keep looping. -/
def trieiter_suffixes_next (g : TrieNode) (stack : List Frame) :
    Option TrieSearchResult × List Frame :=
  match stack with
  | [] => (none, [])
  | f :: rest =>
      let n := trie_get_node g f.node
      let stack' := (chainFramesS n.child f.node f.query f.depth).reverse ++ rest
      match n.item.key with
      | some _ => (some ⟨(trie_get_node g f.query).item, n.item, 0⟩, stack')
      | none => trieiter_suffixes_next g stack'
termination_by stackMeasure g stack
decreasing_by
  exact expand_lt g f rest _
    (fun f' hf' => chainFramesS_node _ _ _ _ f' (List.mem_reverse.mp hf'))
    (le_of_eq (by rw [List.length_reverse, chainFramesS_length]))

/-- `trieiter_neighbors_next`. -/
def trieiter_neighbors_next (g : TrieNode) (maxhd target_depth : Nat)
    (stack : List Frame) : Option TrieSearchResult × List Frame :=
  match stack with
  | [] => (none, [])
  | f :: rest =>
      if f.depth = target_depth then
        let n := trie_get_node g f.node
        if n.item.key = none ∨ f.hd = 0 then
          trieiter_neighbors_next g maxhd target_depth rest
        else
          (some ⟨(trie_get_node g f.query).item, n.item, f.hd⟩, rest)
      else
        let n := trie_get_node g f.node
        let qk : Key := (trie_get_node g f.query).item.key.getD []
        trieiter_neighbors_next g maxhd target_depth
          ((chainFramesN n.child f.node f.query qk f.hd f.depth maxhd).reverse ++ rest)
termination_by stackMeasure g stack
decreasing_by
  · exact stackMeasure_tail_lt g f rest
  · exact expand_lt g f rest _
      (fun f' hf' => chainFramesN_node _ _ _ _ _ _ _ f' (List.mem_reverse.mp hf'))
      (by rw [List.length_reverse]; exact chainFramesN_length _ _ _ _ _ _ _)

/-- `trieiter_hammingpairs_next`: when the traversal stack is empty, pop
the next query from the target stack, mark it `EXPLORED` and seed the
traversal with the root; at the target depth emit item-bearing nodes and
mark non-item ones; otherwise expand the unexplored children, marking
the node when every child was explored. -/
def trieiter_hammingpairs_next (maxhd target_depth : Nat) (g : TrieNode)
    (stack : List Frame) (targets : List Key) :
    Option TrieSearchResult × TrieNode × List Frame × List Key :=
  match stack, targets with
  | [], [] => (none, g, [], [])
  | [], q :: ts =>
      trieiter_hammingpairs_next maxhd target_depth (trie_mark g q) [⟨[], q, 0, 0⟩] ts
  | f :: rest, ts =>
      if f.depth = target_depth then
        let n := trie_get_node g f.node
        match n.item.key with
        | none =>
            trieiter_hammingpairs_next maxhd target_depth (trie_mark g f.node) rest ts
        | some _ => (some ⟨(trie_get_node g f.query).item, n.item, f.hd⟩, g, rest, ts)
      else
        let n := trie_get_node g f.node
        let qk : Key := (trie_get_node g f.query).item.key.getD []
        let r := chainFramesH n.child f.node f.query qk f.hd f.depth maxhd
        trieiter_hammingpairs_next maxhd target_depth
          (if r.2.1 = r.2.2 then trie_mark g f.node else g) (r.1.reverse ++ rest) ts
termination_by (targets.length, stackMeasure g stack)
decreasing_by
  · exact Prod.Lex.left _ _ (by simp)
  · apply Prod.Lex.right
    rw [stackMeasure_mark]
    exact stackMeasure_tail_lt g f rest
  · apply Prod.Lex.right
    have hgoal := expand_lt g f rest
      ((chainFramesH (trie_get_node g f.node).child f.node f.query
        ((trie_get_node g f.query).item.key.getD []) f.hd f.depth maxhd).1.reverse)
      (fun f' hf' => chainFramesH_node _ _ _ _ _ _ _ f' (List.mem_reverse.mp hf'))
      (by rw [List.length_reverse]; exact chainFramesH_length _ _ _ _ _ _ _)
    split
    · rw [stackMeasure_mark]
      exact hgoal
    · exact hgoal

/- ------------------------------------------------------------------ -/
/- Iterator objects and the public iterator API                        -/
/- ------------------------------------------------------------------ -/

mutual
/-- `trie_find_all_strings`: push (prepend to the accumulator) every
item-bearing node at the given depth, scanning children in sibling
order. -/
def trie_find_all_strings (n : TrieNode) (base : Key) (depth : Nat)
    (acc : List Key) : List Key :=
  match depth with
  | 0 =>
      match n.item.key with
      | some _ => base :: acc
      | none => acc
  | d + 1 => findAllChain n.child base d acc
termination_by (depth, 0)

/-- The `for (node = node->child; ...)` loop of `trie_find_all_strings`. -/
def findAllChain (chain : TrieNode) (base : Key) (d : Nat) (acc : List Key) :
    List Key :=
  match chain with
  | .nil => acc
  | .mk i c s cc f =>
      findAllChain s base d (trie_find_all_strings (.mk i c s cc f) (base ++ [cc]) d acc)
termination_by (d, 1 + sizeOf chain)
end

/-- The `next` function pointer of a `TrieIter`. -/
inductive IterKind where
  | suffixes
  | neighbors
  | hammingpairs
  deriving Repr, DecidableEq

/-- C `struct TrieIter`.  `id` models the iterator's address (the store's
`dirty_iter` field and the `it == root->dirty_iter` test compare it);
the growable state array is the list `stack` (its capacity `num_states`
is a memory detail that the model drops); `targets` is the `it->stack`
list of pending queries. -/
structure TrieIter where
  id : Nat
  kind : IterKind
  maxhd : Nat
  target_depth : Nat
  len_query : Nat
  is_dirty : Bool
  trie_state_id : Nat
  errcode : Int
  stack : List Frame
  targets : List Key
  deriving Repr, DecidableEq

/-- `trieiter_new` (the `num_states < 1 || maxhd < 0 || target_depth < 0`
guard cannot fire for the arguments the three factories pass, which are
the only call sites).  If a dirty iterator registers while another is
registered, the trie's flags are reset; a dirty iterator installs itself
as `root->dirty_iter`. -/
def trieiter_new (root : TrieRoot) (maxhd target_depth len_query : Nat)
    (targets : List Key) (kind : IterKind) (is_dirty : Bool) (id : Nat) :
    TrieIter × TrieRoot :=
  let it : TrieIter :=
    ⟨id, kind, maxhd, target_depth, len_query, is_dirty, root.state_id, 0, [], targets⟩
  if is_dirty then
    let root' :=
      if root.dirty_iter ≠ none then { root with node := trie_reset root.node } else root
    (it, { root' with dirty_iter := some id })
  else
    (it, root)

/-- `trieiter_suffixes`. -/
def trieiter_suffixes (root : TrieRoot) (k : Key) (id : Nat) :
    Option (TrieIter × TrieRoot) :=
  match trie_get_node root.node k with
  | .nil => none
  | _ =>
      let r := trieiter_new root 0 0 k.length [] .suffixes false id
      some ({ r.1 with stack := [⟨k, k, 0, 0⟩] }, r.2)

/-- `trieiter_neighbors` (requires `maxhd ≥ 1` and an item-bearing query
node; `target_depth` and `len_query` are the query item's `keylen`). -/
def trieiter_neighbors (root : TrieRoot) (k : Key) (maxhd : Nat) (id : Nat) :
    Option (TrieIter × TrieRoot) :=
  if maxhd < 1 then none
  else
    match (trie_get_node root.node k).item.key with
    | none => none
    | some qk =>
        let r := trieiter_new root maxhd qk.length qk.length [] .neighbors false id
        some ({ r.1 with stack := [⟨[], k, 0, 0⟩] }, r.2)

/-- `trieiter_hammingpairs` (requires `keylen > 0`; collects all
item-bearing nodes at depth `keylen` as the target stack; dirty). -/
def trieiter_hammingpairs (root : TrieRoot) (keylen maxhd : Nat) (id : Nat) :
    Option (TrieIter × TrieRoot) :=
  if keylen = 0 then none
  else
    let targets := trie_find_all_strings root.node [] keylen []
    some (trieiter_new root maxhd keylen keylen targets .hammingpairs true id)

/-- `trieiter_next`: the safety gate (out-of-sync, then replaced), then
dispatch through the iterator's `next` function pointer. -/
def trieiter_next (root : TrieRoot) (it : TrieIter) :
    Option TrieSearchResult × TrieRoot × TrieIter :=
  if it.trie_state_id ≠ root.state_id then
    (none, root, { it with errcode := -1 })
  else if it.is_dirty ∧ root.dirty_iter ≠ some it.id then
    (none, root, { it with errcode := -2 })
  else
    match it.kind with
    | .suffixes =>
        let r := trieiter_suffixes_next root.node it.stack
        (r.1, root, { it with stack := r.2 })
    | .neighbors =>
        let r := trieiter_neighbors_next root.node it.maxhd it.target_depth it.stack
        (r.1, root, { it with stack := r.2 })
    | .hammingpairs =>
        let r := trieiter_hammingpairs_next it.maxhd it.target_depth root.node
          it.stack it.targets
        (r.1, { root with node := r.2.1 }, { it with stack := r.2.2.1, targets := r.2.2.2 })

theorem suffixes_expand_lt (g : TrieNode) (f : Frame) (rest : List Frame) :
    stackMeasure g
      ((chainFramesS (trie_get_node g f.node).child f.node f.query f.depth).reverse ++ rest) <
    stackMeasure g (f :: rest) :=
  expand_lt g f rest _
    (fun f' hf' => chainFramesS_node _ _ _ _ f' (List.mem_reverse.mp hf'))
    (le_of_eq (by rw [List.length_reverse, chainFramesS_length]))

theorem trieiter_suffixes_next_lt (g : TrieNode) (stack : List Frame) :
    ∀ r s', trieiter_suffixes_next g stack = (some r, s') →
      stackMeasure g s' < stackMeasure g stack := by
  induction stack using trieiter_suffixes_next.induct g with
  | case1 =>
      intro r s' h
      rw [trieiter_suffixes_next] at h
      cases h
  | case2 f rest n val hval =>
      intro r s' h
      rw [trieiter_suffixes_next] at h
      simp only [hval] at h
      cases h
      exact suffixes_expand_lt g f rest
  | case3 f rest n stack' hval ih =>
      intro r s' h
      rw [trieiter_suffixes_next] at h
      simp only [hval] at h
      exact lt_trans (ih r s' h) (suffixes_expand_lt g f rest)

theorem neighbors_expand_lt (g : TrieNode) (f : Frame) (rest : List Frame)
    (maxhd : Nat) :
    stackMeasure g
      ((chainFramesN (trie_get_node g f.node).child f.node f.query
        ((trie_get_node g f.query).item.key.getD []) f.hd f.depth maxhd).reverse ++ rest) <
    stackMeasure g (f :: rest) :=
  expand_lt g f rest _
    (fun f' hf' => chainFramesN_node _ _ _ _ _ _ _ f' (List.mem_reverse.mp hf'))
    (by rw [List.length_reverse]; exact chainFramesN_length _ _ _ _ _ _ _)

theorem trieiter_neighbors_next_lt (g : TrieNode) (maxhd target_depth : Nat)
    (stack : List Frame) :
    ∀ r s', trieiter_neighbors_next g maxhd target_depth stack = (some r, s') →
      stackMeasure g s' < stackMeasure g stack := by
  induction stack using trieiter_neighbors_next.induct g maxhd target_depth with
  | case1 =>
      intro r s' h
      rw [trieiter_neighbors_next] at h
      cases h
  | case2 f rest hdep n hskip ih =>
      intro r s' h
      rw [trieiter_neighbors_next] at h
      rw [if_pos hdep] at h
      rw [if_pos hskip] at h
      exact lt_trans (ih r s' h) (stackMeasure_tail_lt g f rest)
  | case3 f rest hdep n hskip =>
      intro r s' h
      rw [trieiter_neighbors_next] at h
      rw [if_pos hdep] at h
      rw [if_neg hskip] at h
      cases h
      exact stackMeasure_tail_lt g f rest
  | case4 f rest hdep n qk ih =>
      intro r s' h
      rw [trieiter_neighbors_next] at h
      rw [if_neg hdep] at h
      exact lt_trans (ih r s' h) (neighbors_expand_lt g f rest maxhd)

/-- Strict decrease in the iterator's (pending queries, stack) measure. -/
def measLt (a b : Nat × Nat) : Prop :=
  a.1 < b.1 ∨ (a.1 = b.1 ∧ a.2 < b.2)

theorem hammingpairs_expand_lt (g : TrieNode) (f : Frame) (rest : List Frame)
    (maxhd : Nat) :
    stackMeasure g
      ((chainFramesH (trie_get_node g f.node).child f.node f.query
        ((trie_get_node g f.query).item.key.getD []) f.hd f.depth maxhd).1.reverse ++ rest) <
    stackMeasure g (f :: rest) :=
  expand_lt g f rest _
    (fun f' hf' => chainFramesH_node _ _ _ _ _ _ _ f' (List.mem_reverse.mp hf'))
    (by rw [List.length_reverse]; exact chainFramesH_length _ _ _ _ _ _ _)

theorem trieiter_hammingpairs_next_lt (maxhd target_depth : Nat) (g : TrieNode)
    (stack : List Frame) (targets : List Key) :
    ∀ r g' s' ts',
      trieiter_hammingpairs_next maxhd target_depth g stack targets = (some r, g', s', ts') →
      measLt (ts'.length, stackMeasure g' s') (targets.length, stackMeasure g stack) := by
  induction g, stack, targets using trieiter_hammingpairs_next.induct maxhd target_depth with
  | case1 g =>
      intro r g' s' ts' h
      rw [trieiter_hammingpairs_next] at h
      cases h
  | case2 g q ts ih =>
      intro r g' s' ts' h
      rw [trieiter_hammingpairs_next] at h
      have hih := ih r g' s' ts' h
      left
      rcases hih with h1 | ⟨h1, _⟩
      · simp only [List.length_cons]
        omega
      · simp only [List.length_cons]
        omega
  | case3 g f rest ts hdep n hkey ih =>
      intro r g' s' ts' h
      rw [trieiter_hammingpairs_next] at h
      rw [if_pos hdep] at h
      simp only [hkey] at h
      have hih := ih r g' s' ts' h
      rw [stackMeasure_mark] at hih
      rcases hih with h1 | ⟨h1, h2⟩
      · exact Or.inl h1
      · exact Or.inr ⟨h1, lt_trans h2 (stackMeasure_tail_lt g f rest)⟩
  | case4 g f rest ts hdep n val hkey =>
      intro r g' s' ts' h
      rw [trieiter_hammingpairs_next] at h
      rw [if_pos hdep] at h
      simp only [hkey] at h
      cases h
      exact Or.inr ⟨rfl, stackMeasure_tail_lt g f rest⟩
  | case5 g f rest ts hdep n qk r0 ih =>
      intro r g' s' ts' h
      rw [trieiter_hammingpairs_next] at h
      rw [if_neg hdep] at h
      have hih := ih r g' s' ts' h
      have hexp := hammingpairs_expand_lt g f rest maxhd
      rcases hih with h1 | ⟨h1, h2⟩
      · exact Or.inl h1
      · refine Or.inr ⟨h1, ?_⟩
        by_cases hc : (chainFramesH (trie_get_node g f.node).child f.node f.query
            ((trie_get_node g f.query).item.key.getD []) f.hd f.depth maxhd).2.1 =
            (chainFramesH (trie_get_node g f.node).child f.node f.query
            ((trie_get_node g f.query).item.key.getD []) f.hd f.depth maxhd).2.2
        · rw [dif_pos hc, stackMeasure_mark] at h2
          exact lt_trans h2 hexp
        · rw [dif_neg hc] at h2
          exact lt_trans h2 hexp

theorem trieiter_next_lt (root : TrieRoot) (it : TrieIter)
    (res : TrieSearchResult) (root' : TrieRoot) (it' : TrieIter)
    (h : trieiter_next root it = (some res, root', it')) :
    measLt (it'.targets.length, stackMeasure root'.node it'.stack)
      (it.targets.length, stackMeasure root.node it.stack) := by
  unfold trieiter_next at h
  split at h
  · cases h
  · split at h
    · cases h
    · rcases hkind : it.kind with _ | _ | _ <;> rw [hkind] at h
      · rcases hr : trieiter_suffixes_next root.node it.stack with ⟨r1, r2⟩
        rw [hr] at h
        simp only [Prod.mk.injEq] at h
        obtain ⟨h1, h2, h3⟩ := h
        subst h2
        subst h3
        subst h1
        exact Or.inr ⟨rfl, trieiter_suffixes_next_lt _ _ _ _ hr⟩
      · rcases hr : trieiter_neighbors_next root.node it.maxhd it.target_depth it.stack
          with ⟨r1, r2⟩
        rw [hr] at h
        simp only [Prod.mk.injEq] at h
        obtain ⟨h1, h2, h3⟩ := h
        subst h2
        subst h3
        subst h1
        exact Or.inr ⟨rfl, trieiter_neighbors_next_lt _ _ _ _ _ _ hr⟩
      · rcases hr : trieiter_hammingpairs_next it.maxhd it.target_depth root.node
            it.stack it.targets with ⟨r1, g', s', ts'⟩
        rw [hr] at h
        simp only [Prod.mk.injEq] at h
        obtain ⟨h1, h2, h3⟩ := h
        subst h2
        subst h3
        subst h1
        exact trieiter_hammingpairs_next_lt _ _ _ _ _ _ _ _ _ hr

/-- Run an iterator to its end through repeated `trieiter_next` calls
(what "exhausting the iterator" means), collecting the emitted results
and the final store and iterator. -/
def trieiter_exhaust (root : TrieRoot) (it : TrieIter) :
    List TrieSearchResult × TrieRoot × TrieIter :=
  match h : trieiter_next root it with
  | (none, root', it') => ([], root', it')
  | (some res, root', it') =>
      let e := trieiter_exhaust root' it'
      (res :: e.1, e.2)
termination_by (it.targets.length, stackMeasure root.node it.stack)
decreasing_by
  rcases trieiter_next_lt root it res root' it' h with h1 | ⟨h1, h2⟩
  · exact Prod.Lex.left _ _ h1
  · have h1' : it'.targets.length = it.targets.length := h1
    have h2' : stackMeasure root'.node it'.stack < stackMeasure root.node it.stack := h2
    rw [h1']
    exact Prod.Lex.right _ h2'

/-- `trieiter_errcode`. -/
def trieiter_errcode (it : TrieIter) : Int := it.errcode

/-- `trieiter_len_query`. -/
def trieiter_len_query (it : TrieIter) : Nat := it.len_query

/-- `trieiter_free`: tearing down the registered dirty iterator resets
the trie's flags and clears the slot; all other teardown only releases
memory. -/
def trieiter_free (root : TrieRoot) (it : TrieIter) : TrieRoot :=
  if root.dirty_iter = some it.id then
    { root with node := trie_reset root.node, dirty_iter := none }
  else root

/- ------------------------------------------------------------------ -/
/- Basic lemmas about the walk of trie_set_item                        -/
/- ------------------------------------------------------------------ -/

theorem set_go_ne_nil (n : TrieNode) (full suffix : Key) (v : Value)
    (hn : n ≠ .nil) : (trie_set_go n full suffix v).1 ≠ .nil := by
  cases suffix with
  | nil =>
      cases n with
      | nil => exact absurd rfl hn
      | mk i c s cc f =>
          rw [trie_set_go]
          split <;> intro hx <;> cases hx
  | cons t rest =>
      cases n with
      | nil => exact absurd rfl hn
      | mk i c s cc f =>
          rw [trie_set_go]
          split <;> intro hx <;> cases hx

theorem set_go_ch (n : TrieNode) (full suffix : Key) (v : Value) :
    (trie_set_go n full suffix v).1.ch = n.ch := by
  cases suffix with
  | nil =>
      cases n with
      | nil => rfl
      | mk i c s cc f => rw [trie_set_go]; split <;> rfl
  | cons t rest =>
      cases n with
      | nil => rfl
      | mk i c s cc f => rw [trie_set_go]; split <;> rfl

theorem set_go_sibling (n : TrieNode) (full suffix : Key) (v : Value) :
    (trie_set_go n full suffix v).1.sibling = n.sibling := by
  cases suffix with
  | nil =>
      cases n with
      | nil => rfl
      | mk i c s cc f => rw [trie_set_go]; split <;> rfl
  | cons t rest =>
      cases n with
      | nil => rfl
      | mk i c s cc f => rw [trie_set_go]; split <;> rfl

theorem chainFind_ch (c : TrieNode) (t : TRIECHAR) {i' : TrieItem} {c' s' : TrieNode}
    {cc' : TRIECHAR} {f' : Nat} (h : chainFind c t = .mk i' c' s' cc' f') : cc' = t := by
  induction c with
  | nil => rw [chainFind] at h; cases h
  | mk i ch s cc f ihc ihs =>
      rw [chainFind] at h
      split at h
      · cases h; assumption
      · exact ihs h

theorem chainFind_chainSubst (c : TrieNode) (t : TRIECHAR) (n' : TrieNode)
    (hch : n'.ch = t) (hne : chainFind c t ≠ .nil) :
    chainFind (chainSubst c t n') t = n' := by
  induction c with
  | nil => exact absurd rfl hne
  | mk i ch s cc f ihc ihs =>
      by_cases heq : cc = t
      · rw [chainSubst, if_pos heq]
        cases n' with
        | nil => rfl
        | mk i2 c2 s2 cc2 f2 =>
            have : cc2 = t := hch
            rw [chainFind, if_pos this]
      · rw [chainSubst, if_neg heq, chainFind, if_neg heq]
        rw [chainFind, if_neg heq] at hne
        exact ihs hne

/-- A freshly created chain of nodes carries no items anywhere. -/
theorem get_fresh_item (rest : Key) (c : TrieNode) (t : TRIECHAR) :
    (trie_get_node (.mk ⟨none, 0⟩ .nil c t 0) rest).item.key = none := by
  cases rest with
  | nil => rfl
  | cons x xs =>
      have h : trienode_get_child (.mk ⟨none, 0⟩ .nil c t 0) x = .nil := rfl
      rw [show trie_get_node (.mk ⟨none, 0⟩ .nil c t 0) (x :: xs) =
        trie_get_node (trienode_get_child (.mk ⟨none, 0⟩ .nil c t 0) x) xs from rfl, h,
        trie_get_node_nil]
      rfl

/-- After the walk of `trie_set_item`, the terminal node holds exactly
the new item. -/
theorem get_set_go (suffix : Key) (n : TrieNode) (full : Key) (v : Value)
    (hn : n ≠ .nil) :
    (trie_get_node (trie_set_go n full suffix v).1 suffix).item = ⟨some full, v⟩ := by
  induction suffix generalizing n with
  | nil =>
      cases n with
      | nil => exact absurd rfl hn
      | mk i c s cc f =>
          rw [trie_set_go]
          split <;> rfl
  | cons t rest ih =>
      cases n with
      | nil => exact absurd rfl hn
      | mk i c s cc f =>
          have hstep : ∀ m : TrieNode,
              trie_get_node m (t :: rest) = trie_get_node (trienode_get_child m t) rest :=
            fun m => rfl
          rcases hfd : trienode_get_child (.mk i c s cc f) t with _ | ⟨i1, c1, s1, cc1, f1⟩
          · have hunf : (trie_set_go (.mk i c s cc f) full (t :: rest) v).1 =
                .mk i (trie_set_go (.mk ⟨none, 0⟩ .nil c t 0) full rest v).1 s cc f := by
              simp only [trie_set_go, hfd, TrieNode.child]
            rw [hunf, hstep]
            have hne2 : (trie_set_go (.mk ⟨none, 0⟩ .nil c t 0) full rest v).1 ≠ .nil :=
              set_go_ne_nil _ _ _ _ (by intro hx; cases hx)
            have hfind : trienode_get_child
                (TrieNode.mk i (trie_set_go (.mk ⟨none, 0⟩ .nil c t 0) full rest v).1 s cc f) t =
                (trie_set_go (.mk ⟨none, 0⟩ .nil c t 0) full rest v).1 := by
              unfold trienode_get_child
              show chainFind (trie_set_go (.mk ⟨none, 0⟩ .nil c t 0) full rest v).1 t = _
              rcases hx : (trie_set_go (.mk ⟨none, 0⟩ .nil c t 0) full rest v).1
                with _ | ⟨i2, c2, s2, cc2, f2⟩
              · exact absurd hx hne2
              · have hc2 : cc2 = t := by
                  have hc := set_go_ch (.mk ⟨none, 0⟩ .nil c t 0) full rest v
                  rw [hx] at hc
                  exact hc
                rw [chainFind, if_pos hc2, ← hx]
            rw [hfind]
            exact ih _ (by intro hx; cases hx)
          · have hfd' : chainFind c t = .mk i1 c1 s1 cc1 f1 := hfd
            have hcc1 : cc1 = t := chainFind_ch c t hfd'
            have hunf : (trie_set_go (.mk i c s cc f) full (t :: rest) v).1 =
                .mk i (chainSubst c t (trie_set_go (.mk i1 c1 s1 cc1 f1) full rest v).1)
                  s cc f := by
              simp only [trie_set_go, hfd, TrieNode.child]
            rw [hunf, hstep]
            have hch : (trie_set_go (.mk i1 c1 s1 cc1 f1) full rest v).1.ch = t := by
              rw [set_go_ch]
              exact hcc1
            have hfind : trienode_get_child
                (TrieNode.mk i
                  (chainSubst c t (trie_set_go (.mk i1 c1 s1 cc1 f1) full rest v).1) s cc f) t =
                (trie_set_go (.mk i1 c1 s1 cc1 f1) full rest v).1 := by
              unfold trienode_get_child
              show chainFind
                (chainSubst c t (trie_set_go (.mk i1 c1 s1 cc1 f1) full rest v).1) t = _
              exact chainFind_chainSubst c t _ hch (by rw [hfd']; intro hx; cases hx)
            rw [hfind]
            exact ih _ (by intro hx; cases hx)

/-- What the walk reports about the terminal node's previous state: the
`wasAbsent` flag and the freed `(keylen, value)` reproduce the item the
lookup sees. -/
theorem set_go_old (suffix : Key) (n : TrieNode) (full : Key) (v : Value)
    (hn : n ≠ .nil) :
    (trie_set_go n full suffix v).2.2 =
      match (trie_get_node n suffix).item.key with
      | none => (true, none)
      | some k0 => (false, some (k0.length, (trie_get_node n suffix).item.value)) := by
  induction suffix generalizing n with
  | nil =>
      cases n with
      | nil => exact absurd rfl hn
      | mk i c s cc f =>
          rw [trie_set_go]
          simp only [trie_get_node, TrieNode.item]
          rcases hkey : i.key with _ | k0 <;> rfl
  | cons t rest ih =>
      cases n with
      | nil => exact absurd rfl hn
      | mk i c s cc f =>
          have hstep : ∀ m : TrieNode,
              trie_get_node m (t :: rest) = trie_get_node (trienode_get_child m t) rest :=
            fun m => rfl
          rw [hstep]
          rcases hfd : trienode_get_child (.mk i c s cc f) t with _ | ⟨i1, c1, s1, cc1, f1⟩
          · have hunf : (trie_set_go (.mk i c s cc f) full (t :: rest) v).2.2 =
                (trie_set_go (.mk ⟨none, 0⟩ .nil c t 0) full rest v).2.2 := by
              simp only [trie_set_go, hfd, TrieNode.child]
            rw [hunf, trie_get_node_nil]
            have hfr := ih (TrieNode.mk ⟨none, 0⟩ .nil c t 0) (by intro hx; cases hx)
            rw [get_fresh_item] at hfr
            exact hfr
          · have hunf : (trie_set_go (.mk i c s cc f) full (t :: rest) v).2.2 =
                (trie_set_go (.mk i1 c1 s1 cc1 f1) full rest v).2.2 := by
              simp only [trie_set_go, hfd, TrieNode.child]
            rw [hunf]
            exact ih (.mk i1 c1 s1 cc1 f1) (by intro hx; cases hx)

/-- The store after `trie_set_item` holds the walk's updated root node. -/
theorem trie_set_item_node (root : TrieRoot) (k : Key) (v : Value) (d : Bool) :
    (trie_set_item root k v d).1.node = (trie_set_go root.node k k v).1 := rfl

/-- The values `trie_set_item` passes to the deallocator come from the
overwritten item. -/
theorem trie_set_item_calls (root : TrieRoot) (k : Key) (v : Value) (d : Bool) :
    (trie_set_item root k v d).2.1 =
      match (trie_set_go root.node k k v).2.2.2 with
      | some (_, ov) => if d ∧ ov ≠ 0 then [ov] else []
      | none => [] := rfl

/-- `get_item` after `set` sees the item just written. -/
theorem trie_set_item_get (root : TrieRoot) (k : Key) (v : Value) (d : Bool)
    (hn : root.node ≠ .nil) :
    trie_get_item (trie_set_item root k v d).1 k = some ⟨some k, v⟩ := by
  have h := get_set_go k root.node k v hn
  have hnode : (trie_set_item root k v d).1.node = (trie_set_go root.node k k v).1 := rfl
  rw [trie_get_item, hnode, h]

theorem trie_set_item_node_ne_nil (root : TrieRoot) (k : Key) (v : Value) (d : Bool)
    (hn : root.node ≠ .nil) : (trie_set_item root k v d).1.node ≠ .nil := by
  rw [trie_set_item_node]
  exact set_go_ne_nil _ _ _ _ hn

/-- C4, counterexample to the claim as stated: insert key "a" (byte 97)
with the NULL value `v1 = 0` and a deallocator, then overwrite it with
value 5.  The round trip holds, but across both calls the deallocator is
never invoked on `v1` (the C code guards `item->value != NULL`), so it is
not invoked "exactly once". -/
theorem C4_counterexample :
    ((trie_set_item trie_new [97] 0 true).2.1 ++
        (trie_set_item (trie_set_item trie_new [97] 0 true).1 [97] 5 true).2.1).count 0 = 0 ∧
    trie_get_item (trie_set_item (trie_set_item trie_new [97] 0 true).1 [97] 5 true).1 [97] =
      some ⟨some [97], 5⟩ := by
  constructor
  · rfl
  · rfl

/-- C4 (amended): for every store (with its root allocated) and key `k`,
after `set(k, v)` succeeds, `get_item(k)` returns an item whose value is
`v` and whose key equals `k`; and after `set(k, v1, dealloc)` followed by
`set(k, v2, dealloc)`, `get_item(k)` returns value `v2`, and the second
`set` invokes the deallocator exactly once, on `v1` — provided `v1` is
not the NULL value, which is never passed to the deallocator. -/
theorem C4_set_get_roundtrip (root : TrieRoot) (k : Key) (v1 v2 : Value)
    (hn : root.node ≠ .nil) :
    trie_get_item (trie_set_item root k v1 true).1 k = some ⟨some k, v1⟩ ∧
    trie_get_item
      (trie_set_item (trie_set_item root k v1 true).1 k v2 true).1 k = some ⟨some k, v2⟩ ∧
    (trie_set_item (trie_set_item root k v1 true).1 k v2 true).2.1 =
      (if v1 = 0 then [] else [v1]) := by
  refine ⟨trie_set_item_get root k v1 true hn, ?_, ?_⟩
  · exact trie_set_item_get _ k v2 true (trie_set_item_node_ne_nil root k v1 true hn)
  · set root1 := (trie_set_item root k v1 true).1 with hr1
    have hn1 : root1.node ≠ .nil := trie_set_item_node_ne_nil root k v1 true hn
    have hitem : (trie_get_node root1.node k).item = ⟨some k, v1⟩ := by
      rw [hr1, trie_set_item_node]
      exact get_set_go k root.node k v1 hn
    have hold := set_go_old k root1.node k v2 hn1
    rw [hitem] at hold
    rw [trie_set_item_calls, hold]
    by_cases hv : v1 = 0
    · subst hv
      simp
    · simp [hv]

/-- C4 witness: the amended round trip at the empty store, `k = "a"`,
`v1 = 7`, `v2 = 9`. -/
theorem C4_set_get_roundtrip_witness :
    trie_get_item (trie_set_item trie_new [97] 7 true).1 [97] = some ⟨some [97], 7⟩ ∧
    trie_get_item
      (trie_set_item (trie_set_item trie_new [97] 7 true).1 [97] 9 true).1 [97] =
        some ⟨some [97], 9⟩ ∧
    (trie_set_item (trie_set_item trie_new [97] 7 true).1 [97] 9 true).2.1 =
      (if (7 : Value) = 0 then [] else [7]) :=
  C4_set_get_roundtrip trie_new [97] 7 9 (by intro hx; cases hx)

/- ------------------------------------------------------------------ -/
/- state_id (claim C6)                                                 -/
/- ------------------------------------------------------------------ -/

/-- `trie_del_item` fails exactly when the lookup finds no item. -/
theorem del_go_none_iff (k : Key) (n : TrieNode) (d : Bool) :
    trie_del_go n k d = none ↔ (trie_get_node n k).item.key = none := by
  induction k generalizing n with
  | nil =>
      cases n with
      | nil => simp [trie_del_go, trie_get_node, TrieNode.item]
      | mk i c s cc f =>
          rw [trie_del_go]
          rcases hkey : i.key with _ | k0
          · simp [trie_get_node, TrieNode.item, hkey]
          · simp [trie_get_node, TrieNode.item, hkey]
  | cons t rest ih =>
      cases n with
      | nil =>
          simp only [trie_del_go]
          rw [trie_get_node_nil (t :: rest)]
          simp [TrieNode.item]
      | mk i c s cc f =>
          have hstep : trie_get_node (.mk i c s cc f) (t :: rest) =
              trie_get_node (trienode_get_child (.mk i c s cc f) t) rest := rfl
          rw [hstep]
          rcases hfd : trienode_get_child (.mk i c s cc f) t with _ | ⟨i1, c1, s1, cc1, f1⟩
          · have hunf : trie_del_go (.mk i c s cc f) (t :: rest) d = none := by
              simp only [trie_del_go, hfd]
            rw [hunf, trie_get_node_nil]
            simp [TrieNode.item]
          · have hih := ih (.mk i1 c1 s1 cc1 f1)
            constructor
            · intro h
              rw [← hih]
              rcases hdel : trie_del_go (.mk i1 c1 s1 cc1 f1) rest d
                with _ | ⟨found', rc, olen, calls⟩
              · rfl
              · exfalso
                have hunf : trie_del_go (.mk i c s cc f) (t :: rest) d =
                    (if found'.child = .nil ∧ found'.item.key = none then
                      some (.mk i (chainRemove c t) s cc f, rc + 1, olen,
                        calls ++ (itemAfterFree found'.item d).2)
                    else
                      some (.mk i (chainSubst c t found') s cc f, rc, olen, calls)) := by
                  simp only [trie_del_go, hfd, hdel]
                rw [hunf] at h
                split at h <;> cases h
            · intro h
              rw [← hih] at h
              have hunf : trie_del_go (.mk i c s cc f) (t :: rest) d = none := by
                simp only [trie_del_go, hfd, h]
              exact hunf

/-- A walk that created nodes ended at a fresh, non-item-bearing node. -/
theorem set_go_created_absent (suffix : Key) (n : TrieNode) (full : Key) (v : Value)
    (hn : n ≠ .nil) (h : 0 < (trie_set_go n full suffix v).2.1) :
    (trie_set_go n full suffix v).2.2.1 = true := by
  induction suffix generalizing n with
  | nil =>
      cases n with
      | nil => exact absurd rfl hn
      | mk i c s cc f =>
          exfalso
          rw [trie_set_go] at h
          rcases hkey : i.key with _ | k0 <;> rw [hkey] at h <;> simp at h
  | cons t rest ih =>
      cases n with
      | nil => exact absurd rfl hn
      | mk i c s cc f =>
          rcases hfd : trienode_get_child (.mk i c s cc f) t with _ | ⟨i1, c1, s1, cc1, f1⟩
          · have hunf : (trie_set_go (.mk i c s cc f) full (t :: rest) v).2.2 =
                (trie_set_go (.mk ⟨none, 0⟩ .nil c t 0) full rest v).2.2 := by
              simp only [trie_set_go, hfd, TrieNode.child]
            rw [hunf]
            have hfr := set_go_old rest (.mk ⟨none, 0⟩ .nil c t 0) full v
              (by intro hx; cases hx)
            rw [get_fresh_item] at hfr
            rw [hfr]
          · have hunf : (trie_set_go (.mk i c s cc f) full (t :: rest) v).2 =
                ((trie_set_go (.mk i1 c1 s1 cc1 f1) full rest v).2.1,
                  (trie_set_go (.mk i1 c1 s1 cc1 f1) full rest v).2.2) := by
              simp only [trie_set_go, hfd, TrieNode.child]
            rw [hunf] at h ⊢
            exact ih (.mk i1 c1 s1 cc1 f1) (by intro hx; cases hx) h

theorem trie_set_item_state_id (root : TrieRoot) (k : Key) (v : Value) (d : Bool)
    (hn : root.node ≠ .nil) :
    (trie_set_item root k v d).1.state_id =
      if trie_has_key root k then root.state_id else root.state_id + 1 := by
  have hold := set_go_old k root.node k v hn
  have hs : (trie_set_item root k v d).1.state_id =
      if (trie_set_go root.node k k v).2.2.1 = true then root.state_id + 1
      else root.state_id := by
    show (if (trie_set_go root.node k k v).2.2.1 then root.state_id + 1
      else root.state_id) = _
    rcases (trie_set_go root.node k k v).2.2.1 <;> simp
  rw [hs]
  unfold trie_has_key
  rcases hkey : (trie_get_node root.node k).item.key with _ | k0 <;> rw [hkey] at hold
  · rw [hold]
    simp
  · rw [hold]
    simp

theorem trie_del_item_state_id (root : TrieRoot) (k : Key) (d : Bool) :
    (trie_del_item root k d).1.state_id =
      if trie_has_key root k then root.state_id + 1 else root.state_id := by
  unfold trie_del_item trie_has_key
  rcases hdel : trie_del_go root.node k d with _ | ⟨node', removed, olen, calls⟩
  · have := (del_go_none_iff k root.node d).mp hdel
    rw [this]
    simp
  · have : ¬ ((trie_get_node root.node k).item.key = none) := by
      intro hx
      rw [(del_go_none_iff k root.node d).mpr hx] at hdel
      cases hdel
    rcases hkey : (trie_get_node root.node k).item.key with _ | k0
    · exact absurd hkey this
    · simp

theorem trie_set_item_num_nodes (root : TrieRoot) (k : Key) (v : Value) (d : Bool) :
    (trie_set_item root k v d).1.num_nodes =
      root.num_nodes + (trie_set_go root.node k k v).2.1 := rfl

/-- C6 (amended): `state_id` strictly increases (by one) exactly when the
operation changes the set of stored keys — a `set` of a previously
absent key, or a successful `del` — and is unchanged otherwise; in
particular a value-overwriting `set` leaves it unchanged, and it never
decreases.  Any operation that changes `num_nodes` does increase
`state_id`, but the converse direction of the original claim fails:
`state_id` can also increase when no node is added or removed. -/
theorem C6_state_id (root : TrieRoot) (k : Key) (v : Value) (d : Bool)
    (hn : root.node ≠ .nil) :
    ((trie_set_item root k v d).1.state_id =
        if trie_has_key root k then root.state_id else root.state_id + 1) ∧
    ((trie_del_item root k d).1.state_id =
        if trie_has_key root k then root.state_id + 1 else root.state_id) ∧
    root.state_id ≤ (trie_set_item root k v d).1.state_id ∧
    root.state_id ≤ (trie_del_item root k d).1.state_id ∧
    ((trie_set_item root k v d).1.num_nodes ≠ root.num_nodes →
        (trie_set_item root k v d).1.state_id = root.state_id + 1) ∧
    ((trie_del_item root k d).1.num_nodes ≠ root.num_nodes →
        (trie_del_item root k d).1.state_id = root.state_id + 1) := by
  refine ⟨trie_set_item_state_id root k v d hn, trie_del_item_state_id root k d, ?_, ?_, ?_, ?_⟩
  · rw [trie_set_item_state_id root k v d hn]
    split <;> omega
  · rw [trie_del_item_state_id root k d]
    split <;> omega
  · intro hnn
    have hc : 0 < (trie_set_go root.node k k v).2.1 := by
      rw [trie_set_item_num_nodes] at hnn
      omega
    have habs := set_go_created_absent k root.node k v hn hc
    have hs : (trie_set_item root k v d).1.state_id =
        if (trie_set_go root.node k k v).2.2.1 = true then root.state_id + 1
        else root.state_id := by
      show (if (trie_set_go root.node k k v).2.2.1 then root.state_id + 1
        else root.state_id) = _
      rcases (trie_set_go root.node k k v).2.2.1 <;> simp
    rw [hs, if_pos habs]
  · intro hnn
    rw [trie_del_item_state_id root k d]
    rcases hdel : trie_del_go root.node k d with _ | ⟨node', removed, olen, calls⟩
    · exfalso
      apply hnn
      unfold trie_del_item
      rw [hdel]
    · have : ¬ ((trie_get_node root.node k).item.key = none) := by
        intro hx
        rw [(del_go_none_iff k root.node d).mpr hx] at hdel
        cases hdel
      rw [if_pos ?_]
      unfold trie_has_key
      simpa using this

/-- C6 witness for the amended characterization: the store holding only
"ab", the key "a" (which overwrites nothing and adds no node), value 2. -/
theorem C6_state_id_witness :
    let root := (trie_set_item trie_new [97, 98] 1 true).1
    ((trie_set_item root [97] 2 true).1.state_id =
        if trie_has_key root [97] then root.state_id else root.state_id + 1) ∧
    ((trie_del_item root [97] true).1.state_id =
        if trie_has_key root [97] then root.state_id + 1 else root.state_id) ∧
    root.state_id ≤ (trie_set_item root [97] 2 true).1.state_id ∧
    root.state_id ≤ (trie_del_item root [97] true).1.state_id ∧
    ((trie_set_item root [97] 2 true).1.num_nodes ≠ root.num_nodes →
        (trie_set_item root [97] 2 true).1.state_id = root.state_id + 1) ∧
    ((trie_del_item root [97] true).1.num_nodes ≠ root.num_nodes →
        (trie_del_item root [97] true).1.state_id = root.state_id + 1) :=
  C6_state_id (trie_set_item trie_new [97, 98] 1 true).1 [97] 2 true
    (by intro hx; cases hx)

/-- C6, counterexample to the claim as stated: on the store holding only
"ab", `set("a", 2)` adds no node and removes none (`num_nodes` and the
node count of the tree are unchanged), yet `state_id` increases. -/
theorem C6_counterexample :
    (trie_set_item (trie_set_item trie_new [97, 98] 1 true).1 [97] 2 true).1.num_nodes =
      (trie_set_item trie_new [97, 98] 1 true).1.num_nodes ∧
    listSize (trie_set_item (trie_set_item trie_new [97, 98] 1 true).1 [97] 2 true).1.node =
      listSize (trie_set_item trie_new [97, 98] 1 true).1.node ∧
    (trie_set_item (trie_set_item trie_new [97, 98] 1 true).1 [97] 2 true).1.state_id ≠
      (trie_set_item trie_new [97, 98] 1 true).1.state_id := by
  refine ⟨rfl, rfl, by decide⟩

/- ------------------------------------------------------------------ -/
/- Iterator invalidation (C7) and teardown (C9)                        -/
/- ------------------------------------------------------------------ -/

theorem trie_reset_ne_nil (n : TrieNode) (hn : n ≠ .nil) : trie_reset n ≠ .nil := by
  cases n with
  | nil => exact absurd rfl hn
  | mk i c s cc f => intro hx; cases hx

theorem trieiter_suffixes_inv (root : TrieRoot) (k : Key) (id : Nat) (it : TrieIter)
    (root₁ : TrieRoot) (h : trieiter_suffixes root k id = some (it, root₁)) :
    it.trie_state_id = root.state_id ∧ root₁ = root := by
  unfold trieiter_suffixes at h
  split at h
  · cases h
  · simp only [trieiter_new, if_neg (by decide : ¬ (false = true)), Option.some.injEq,
      Prod.mk.injEq] at h
    obtain ⟨h1, h2⟩ := h
    subst h1
    subst h2
    exact ⟨rfl, rfl⟩

theorem trieiter_neighbors_inv (root : TrieRoot) (k : Key) (maxhd : Nat) (id : Nat)
    (it : TrieIter) (root₁ : TrieRoot)
    (h : trieiter_neighbors root k maxhd id = some (it, root₁)) :
    it.trie_state_id = root.state_id ∧ root₁ = root := by
  unfold trieiter_neighbors at h
  split at h
  · cases h
  · split at h
    · cases h
    · simp only [trieiter_new, if_neg (by decide : ¬ (false = true)), Option.some.injEq,
        Prod.mk.injEq] at h
      obtain ⟨h1, h2⟩ := h
      subst h1
      subst h2
      exact ⟨rfl, rfl⟩

theorem trieiter_hammingpairs_inv (root : TrieRoot) (keylen maxhd : Nat) (id : Nat)
    (it : TrieIter) (root₁ : TrieRoot)
    (h : trieiter_hammingpairs root keylen maxhd id = some (it, root₁)) :
    it.trie_state_id = root.state_id ∧ root₁.state_id = root.state_id ∧
      (root₁.node = root.node ∨ root₁.node = trie_reset root.node) ∧
      root₁.dirty_iter = some it.id := by
  unfold trieiter_hammingpairs at h
  split at h
  · cases h
  · unfold trieiter_new at h
    simp only [if_pos, Option.some.injEq, Prod.mk.injEq] at h
    obtain ⟨h1, h2⟩ := h
    subst h1
    subst h2
    refine ⟨rfl, ?_, ?_, rfl⟩
    · split <;> rfl
    · split
      · exact Or.inr rfl
      · exact Or.inl rfl

/-- C7, counterexample to the claim as stated: insert "a" with value 1,
open a suffix iterator, then overwrite "a" with value 2 — a mutating
call.  The following `iter_next` does not return end: it emits the item
(with the new value) and the latched status stays `SUCCESS`. -/
theorem C7_counterexample :
    ((trieiter_suffixes (trie_set_item trie_new [97] 1 true).1 [] 5).map (fun p =>
      ((trieiter_next (trie_set_item p.2 [97] 2 true).1 p.1).1,
       (trieiter_next (trie_set_item p.2 [97] 2 true).1 p.1).2.2.errcode))) =
    some (some ⟨⟨none, 0⟩, ⟨some [97], 2⟩, 0⟩, 0) := by
  simp [trieiter_suffixes, trieiter_new, trieiter_next, trieiter_suffixes_next,
    trie_set_item, trie_set_go, trie_get_node, trienode_get_child, chainFind, chainSubst,
    trie_new, TrieNode.item, TrieNode.child, trie_has_key, chainFramesS, msAdd, msSub, M64,
    sizeof_TrieRoot, sizeof_TrieNode, sizeof_TRIECHAR]

/-- C7 (amended): for every iterator over a store, a mutating call that
changes the stored key set — a `set` of a previously absent key or a
successful `del` — between the iterator's creation and its next
`iter_next` makes that `iter_next` return end with latched status
`OUT_OF_SYNC` (-1).  (A value-overwriting `set` or a failed `del` does
not invalidate the iterator, which is where the original claim fails.) -/
theorem C7_out_of_sync (root root₁ root₂ : TrieRoot) (it : TrieIter)
    (calls : List Value) (rc : Int) (k' : Key)
    (hn : root.node ≠ .nil)
    (hcreate : (∃ k id, trieiter_suffixes root k id = some (it, root₁)) ∨
               (∃ k maxhd id, trieiter_neighbors root k maxhd id = some (it, root₁)) ∨
               (∃ L maxhd id, trieiter_hammingpairs root L maxhd id = some (it, root₁)))
    (hop : (∃ v d, trie_set_item root₁ k' v d = (root₂, calls, rc) ∧
              ¬ (trie_has_key root₁ k' = true)) ∨
           (∃ d, trie_del_item root₁ k' d = (root₂, calls, rc) ∧
              trie_has_key root₁ k' = true)) :
    (trieiter_next root₂ it).1 = none ∧
    (trieiter_next root₂ it).2.2.errcode = -1 := by
  have hstate : it.trie_state_id = root.state_id ∧ root₁.state_id = root.state_id ∧
      root₁.node ≠ .nil := by
    rcases hcreate with ⟨k, id, h⟩ | ⟨k, maxhd, id, h⟩ | ⟨L, maxhd, id, h⟩
    · obtain ⟨h1, h2⟩ := trieiter_suffixes_inv root k id it root₁ h
      exact ⟨h1, by rw [h2], by rw [h2]; exact hn⟩
    · obtain ⟨h1, h2⟩ := trieiter_neighbors_inv root k maxhd id it root₁ h
      exact ⟨h1, by rw [h2], by rw [h2]; exact hn⟩
    · obtain ⟨h1, h2, h3, _⟩ := trieiter_hammingpairs_inv root L maxhd id it root₁ h
      refine ⟨h1, h2, ?_⟩
      rcases h3 with h3 | h3 <;> rw [h3]
      · exact hn
      · exact trie_reset_ne_nil _ hn
  obtain ⟨hstA, hstB, hn₁⟩ := hstate
  have hbump : root₂.state_id = root₁.state_id + 1 := by
    rcases hop with ⟨v, d, heq, habs⟩ | ⟨d, heq, hkey⟩
    · have h2 : root₂ = (trie_set_item root₁ k' v d).1 := by rw [heq]
      rw [h2, trie_set_item_state_id root₁ k' v d hn₁]
      rw [if_neg habs]
    · have h2 : root₂ = (trie_del_item root₁ k' d).1 := by rw [heq]
      rw [h2, trie_del_item_state_id root₁ k' d]
      rw [if_pos hkey]
  have hgate : it.trie_state_id ≠ root₂.state_id := by
    rw [hstA, hbump, hstB]
    omega
  unfold trieiter_next
  rw [if_pos hgate]
  exact ⟨rfl, rfl⟩

/-- C7 witness: store {"a"}, suffix iterator over "", then `set("b", 9)`
(a previously absent key). -/
theorem C7_out_of_sync_witness :
    (trieiter_next
      (trie_set_item
        ⟨.mk ⟨none, 0⟩ (.mk ⟨some [97], 1⟩ .nil .nil 97 0) .nil 0 0, 1, 1,
          msAdd (msAdd sizeof_TrieRoot sizeof_TrieNode) (sizeof_TRIECHAR * 2), 1, none⟩
        [98] 9 true).1
      ⟨5, .suffixes, 0, 0, 0, false, 1, 0, [⟨[], [], 0, 0⟩], []⟩).1 = none ∧
    (trieiter_next
      (trie_set_item
        ⟨.mk ⟨none, 0⟩ (.mk ⟨some [97], 1⟩ .nil .nil 97 0) .nil 0 0, 1, 1,
          msAdd (msAdd sizeof_TrieRoot sizeof_TrieNode) (sizeof_TRIECHAR * 2), 1, none⟩
        [98] 9 true).1
      ⟨5, .suffixes, 0, 0, 0, false, 1, 0, [⟨[], [], 0, 0⟩], []⟩).2.2.errcode = -1 := by
  refine C7_out_of_sync
    ⟨.mk ⟨none, 0⟩ (.mk ⟨some [97], 1⟩ .nil .nil 97 0) .nil 0 0, 1, 1,
      msAdd (msAdd sizeof_TrieRoot sizeof_TrieNode) (sizeof_TRIECHAR * 2), 1, none⟩
    ⟨.mk ⟨none, 0⟩ (.mk ⟨some [97], 1⟩ .nil .nil 97 0) .nil 0 0, 1, 1,
      msAdd (msAdd sizeof_TrieRoot sizeof_TrieNode) (sizeof_TRIECHAR * 2), 1, none⟩
    _ ⟨5, .suffixes, 0, 0, 0, false, 1, 0, [⟨[], [], 0, 0⟩], []⟩ _ _ [98]
    (by intro hx; cases hx) (Or.inl ⟨[], 5, by decide⟩)
    (Or.inl ⟨9, true, rfl, by decide⟩)

theorem flagsClear_reset (n : TrieNode) : flagsClear (trie_reset n) = true := by
  induction n with
  | nil => rfl
  | mk i c s cc f ihc ihs => simp [trie_reset, flagsClear, ihc, ihs]

/-- C9, counterexample to the claim as stated: store {"a", "b"}, open a
`hammingpairs` iterator and advance it once (this sets `EXPLORED` flags),
then open a clean suffix iterator and tear that one down.  After this
`iter_free`, not every node's flags field is zero: freeing an iterator
that is not the registered dirty iterator does not reset the trie. -/
theorem C9_counterexample :
    ((trieiter_hammingpairs
        (trie_set_item (trie_set_item trie_new [97] 1 true).1 [98] 2 true).1 1 1 0).bind
      (fun p =>
        (trieiter_suffixes (trieiter_next p.2 p.1).2.1 [] 1).map
          (fun q => flagsClear (trieiter_free q.2 q.1).node))) = some false := by
  simp [trieiter_hammingpairs, trieiter_new, trieiter_next, trieiter_hammingpairs_next,
    trie_find_all_strings, findAllChain, trie_set_item, trie_set_go, trie_get_node,
    trienode_get_child, chainFind, chainSubst, trie_new, TrieNode.item, TrieNode.child,
    chainFramesH, trie_mark, trieiter_suffixes, trieiter_free, flagsClear, trie_reset,
    msAdd, msSub, M64, sizeof_TrieRoot, sizeof_TrieNode, sizeof_TRIECHAR]

/-- C9 (amended): tearing down the store's registered dirty iterator via
`iter_free` leaves every node's flags field zero (and clears the dirty
slot); tearing down any other iterator — a clean one, or a dirty one
that has been replaced — leaves the store, in particular every node's
flags, unchanged. -/
theorem C9_iter_free_flags (root : TrieRoot) (it : TrieIter) :
    (root.dirty_iter = some it.id →
      flagsClear (trieiter_free root it).node = true ∧
      (trieiter_free root it).dirty_iter = none) ∧
    (root.dirty_iter ≠ some it.id → trieiter_free root it = root) := by
  constructor
  · intro h
    unfold trieiter_free
    rw [if_pos h]
    exact ⟨flagsClear_reset root.node, rfl⟩
  · intro h
    unfold trieiter_free
    rw [if_neg h]

/-- C9 witness: a store whose dirty slot holds iterator 3, with a marked
node, torn down by iterator 3 (flags cleared); and the same store torn
down by an unregistered iterator 4 (store unchanged). -/
theorem C9_iter_free_flags_witness :
    (flagsClear (trieiter_free
        ⟨.mk ⟨none, 0⟩ (.mk ⟨some [97], 1⟩ .nil .nil 97 1) .nil 0 0, 1, 1, 0, 1, some 3⟩
        ⟨3, .hammingpairs, 1, 1, 1, true, 1, 0, [], []⟩).node = true ∧
      (trieiter_free
        ⟨.mk ⟨none, 0⟩ (.mk ⟨some [97], 1⟩ .nil .nil 97 1) .nil 0 0, 1, 1, 0, 1, some 3⟩
        ⟨3, .hammingpairs, 1, 1, 1, true, 1, 0, [], []⟩).dirty_iter = none) ∧
    trieiter_free
        ⟨.mk ⟨none, 0⟩ (.mk ⟨some [97], 1⟩ .nil .nil 97 1) .nil 0 0, 1, 1, 0, 1, some 3⟩
        ⟨4, .suffixes, 0, 0, 0, false, 1, 0, [], []⟩ =
      ⟨.mk ⟨none, 0⟩ (.mk ⟨some [97], 1⟩ .nil .nil 97 1) .nil 0 0, 1, 1, 0, 1, some 3⟩ :=
  ⟨(C9_iter_free_flags _ _).1 (by decide), (C9_iter_free_flags _ _).2 (by decide)⟩

/- ------------------------------------------------------------------ -/
/- Structural well-formedness of reachable stores                      -/
/- ------------------------------------------------------------------ -/

/-- Does some node of the sibling chain carry this `ch`? -/
def chainHas : TrieNode → TRIECHAR → Bool
  | .nil, _ => false
  | .mk _ _ s cc _, t => (cc = t) || chainHas s t

/-- Specification-side invariant 2: under every node the children carry
pairwise distinct `ch` (this is what makes a root path identify a node
the way a pointer does). -/
def goodChain : TrieNode → Bool
  | .nil => true
  | .mk _ c s cc _ => goodChain c && goodChain s && !(chainHas s cc)

/-- Specification-side invariant 5: every item-bearing node's key buffer
spells the root path of its node (`p` is the path of the chain's
parent). -/
def itemsOk : TrieNode → Key → Bool
  | .nil, _ => true
  | .mk i c s cc _, p =>
      (match i.key with
       | none => true
       | some k => k = p ++ [cc]) &&
      itemsOk c (p ++ [cc]) && itemsOk s p

/-- Specification-side invariant 6: a non-item-bearing (non-root) node
always has at least one child. -/
def noDead : TrieNode → Bool
  | .nil => true
  | .mk i c s _ _ => (!(i.key = none) || !(c = .nil)) && noDead c && noDead s

/-- Structural well-formedness of a store's root node, as established by
`trie_new` and preserved by `trie_set_item` / `trie_del_item`. -/
def goodRootNode (g : TrieNode) : Prop :=
  g ≠ .nil ∧ g.sibling = .nil ∧ goodChain g.child = true ∧ itemsOk g.child [] = true ∧
    (g.item.key = none ∨ g.item.key = some [])

instance (g : TrieNode) : Decidable (goodRootNode g) := by
  unfold goodRootNode
  infer_instance

/-- An item-bearing node found in a well-spelled chain spells its path. -/
theorem chainFind_itemsOk (c : TrieNode) (p0 : Key) (x : TRIECHAR)
    {i : TrieItem} {cc : TrieNode} {s : TrieNode} {f : Nat}
    (hok : itemsOk c p0 = true) (hfd : chainFind c x = .mk i cc s x f) :
    (∀ k, i.key = some k → k = p0 ++ [x]) ∧ itemsOk cc (p0 ++ [x]) = true := by
  induction c with
  | nil => rw [chainFind] at hfd; cases hfd
  | mk i1 c1 s1 cc1 f1 ihc ihs =>
      rw [chainFind] at hfd
      rw [itemsOk, Bool.and_assoc, Bool.and_eq_true, Bool.and_eq_true] at hok
      obtain ⟨hitem, hc1, hs1⟩ := hok
      split at hfd
      · next heq =>
          subst heq
          cases hfd
          refine ⟨?_, hc1⟩
          intro k hk
          rw [hk] at hitem
          simpa using hitem
      · exact ihs hs1 hfd

/-- In a well-spelled trie, the key buffer of the item `lookup` finds is
the lookup path itself. -/
theorem get_node_spells (p : Key) (n : TrieNode) (q : Key)
    (hitem : ∀ k, n.item.key = some k → k = q)
    (hok : itemsOk n.child q = true) :
    ∀ k', (trie_get_node n p).item.key = some k' → k' = q ++ p := by
  induction p generalizing n q with
  | nil =>
      intro k' hk'
      rw [List.append_nil]
      exact hitem k' hk'
  | cons x rest ih =>
      intro k' hk'
      rw [show trie_get_node n (x :: rest) = trie_get_node (trienode_get_child n x) rest
        from rfl] at hk'
      rcases hfd : trienode_get_child n x with _ | ⟨i1, c1, s1, cc1, f1⟩
      · rw [hfd, trie_get_node_nil] at hk'
        cases hk'
      · have hcc1 : cc1 = x := chainFind_ch n.child x hfd
        subst hcc1
        obtain ⟨hi, hc⟩ := chainFind_itemsOk n.child q cc1 hok hfd
        rw [hfd] at hk'
        have := ih (.mk i1 c1 s1 cc1 f1) (q ++ [cc1]) hi hc k' hk'
        rw [this, List.append_assoc]
        rfl

/-- `goodRootNode` version: the buffer of the found item is the key. -/
theorem goodRoot_spells (g : TrieNode) (hg : goodRootNode g) (p : Key) :
    ∀ k', (trie_get_node g p).item.key = some k' → k' = p := by
  intro k' hk'
  have := get_node_spells p g []
    (fun k hk => by
      rcases hg.2.2.2.2 with h | h
      · rw [h] at hk; cases hk
      · rw [h] at hk; cases hk; rfl)
    hg.2.2.2.1 k' hk'
  simpa using this

/- ------------------------------------------------------------------ -/
/- Frame lemmas for trie_set_item (claim C10)                          -/
/- ------------------------------------------------------------------ -/

/-- Everything a fresh chain's lookup yields is the empty item. -/
theorem get_fresh_item_full (rest : Key) (c : TrieNode) (t : TRIECHAR) :
    (trie_get_node (.mk ⟨none, 0⟩ .nil c t 0) rest).item = ⟨none, 0⟩ := by
  cases rest with
  | nil => rfl
  | cons x xs =>
      have h : trienode_get_child (.mk ⟨none, 0⟩ .nil c t 0) x = .nil := rfl
      rw [show trie_get_node (.mk ⟨none, 0⟩ .nil c t 0) (x :: xs) =
        trie_get_node (trienode_get_child (.mk ⟨none, 0⟩ .nil c t 0) x) xs from rfl, h,
        trie_get_node_nil]
      rfl

/-- Substituting the first `t` node of a chain does not change what a
scan for a different character finds, up to the replaced tail: the found
node keeps its item and child. -/
theorem chainFind_chainSubst_ne (c : TrieNode) (t : TRIECHAR) (R : TrieNode) (x : TRIECHAR)
    (hRne : R ≠ .nil) (hRch : R.ch = t) (hRsib : R.sibling = (chainFind c t).sibling)
    (hx : x ≠ t) :
    (chainFind (chainSubst c t R) x).item = (chainFind c x).item ∧
    (chainFind (chainSubst c t R) x).child = (chainFind c x).child ∧
    (chainFind (chainSubst c t R) x = .nil ↔ chainFind c x = .nil) := by
  induction c with
  | nil => exact ⟨rfl, rfl, Iff.rfl⟩
  | mk i1 c1 s1 cc1 f1 ihc ihs =>
      rcases hR : R with _ | ⟨i2, c2, s2, cc2, f2⟩
      · exact absurd hR hRne
      · subst hR
        have hcc2 : cc2 = t := hRch
        by_cases heq : cc1 = t
        · -- the head is replaced by R; both scans skip to the common tail
          rw [chainSubst, if_pos heq]
          rw [chainFind, if_pos heq] at hRsib
          have hs2 : s2 = s1 := hRsib
          rw [chainFind,
            if_neg (show ¬(cc2 = x) from fun hxx => hx (hxx.symm.trans hcc2)),
            chainFind, if_neg (show ¬(cc1 = x) from fun hxx => hx (hxx.symm.trans heq)),
            hs2]
          exact ⟨rfl, rfl, Iff.rfl⟩
        · rw [chainSubst, if_neg heq]
          rw [chainFind, if_neg heq] at hRsib
          by_cases hxx : cc1 = x
          · rw [chainFind, if_pos hxx, chainFind, if_pos hxx]
            exact ⟨rfl, rfl, by constructor <;> (intro h; cases h)⟩
          · rw [chainFind, if_neg hxx, chainFind, if_neg hxx]
            exact ihs hRsib

/-- Lookups only read a node's `item` and `child`, so two nodes equal in
those fields yield the same items along every path. -/
theorem get_congr_item_child (n₁ n₂ : TrieNode) (hi : n₁.item = n₂.item)
    (hc : n₁.child = n₂.child) :
    ∀ xs, (trie_get_node n₁ xs).item = (trie_get_node n₂ xs).item := by
  intro xs
  cases xs with
  | nil => exact hi
  | cons y ys =>
      show (trie_get_node (trienode_get_child n₁ y) ys).item =
        (trie_get_node (trienode_get_child n₂ y) ys).item
      unfold trienode_get_child
      rw [hc]

theorem get_congr_nil (n₁ n₂ : TrieNode) (hc : n₁.child = n₂.child)
    (hnil : n₁ = .nil ↔ n₂ = .nil) :
    ∀ xs, (trie_get_node n₁ xs = .nil ↔ trie_get_node n₂ xs = .nil) := by
  intro xs
  cases xs with
  | nil => exact hnil
  | cons y ys =>
      show trie_get_node (trienode_get_child n₁ y) ys = .nil ↔
        trie_get_node (trienode_get_child n₂ y) ys = .nil
      unfold trienode_get_child
      rw [hc]

/-- The walk of `trie_set_item` changes no item away from its key: on
every other path the (item, value) pair read afterwards is what was read
before (paths through freshly created structural nodes read the empty
item both before — as NULL — and after). -/
theorem set_go_item_frame (suffix : Key) (n : TrieNode) (full : Key) (v : Value)
    (hn : n ≠ .nil) :
    ∀ p, p ≠ suffix →
      (trie_get_node (trie_set_go n full suffix v).1 p).item =
        (trie_get_node n p).item := by
  induction suffix generalizing n with
  | nil =>
      intro p hp
      cases n with
      | nil => exact absurd rfl hn
      | mk i c s cc f =>
          cases p with
          | nil => exact absurd rfl hp
          | cons x xs =>
              rw [trie_set_go]
              rcases hkey : i.key with _ | k0 <;>
                exact get_congr_item_child _ _ rfl rfl (x :: xs)
  | cons t rest ih =>
      intro p hp
      cases n with
      | nil => exact absurd rfl hn
      | mk i c s cc f =>
          rcases hfd : trienode_get_child (.mk i c s cc f) t with _ | ⟨i1, c1, s1, cc1, f1⟩
          · -- missing child: a fresh chain is prepended
            have hunf : (trie_set_go (.mk i c s cc f) full (t :: rest) v).1 =
                .mk i (trie_set_go (.mk ⟨none, 0⟩ .nil c t 0) full rest v).1 s cc f := by
              simp only [trie_set_go, hfd, TrieNode.child]
            rw [hunf]
            set R := (trie_set_go (.mk ⟨none, 0⟩ .nil c t 0) full rest v).1 with hR
            have hRne : R ≠ .nil := set_go_ne_nil _ _ _ _ (by intro hx; cases hx)
            have hRch : R.ch = t := set_go_ch _ _ _ _
            have hRsib : R.sibling = c := set_go_sibling _ _ _ _
            cases p with
            | nil => rfl
            | cons x xs =>
                show (trie_get_node (trienode_get_child (.mk i R s cc f) x) xs).item =
                  (trie_get_node (trienode_get_child (.mk i c s cc f) x) xs).item
                by_cases hx : x = t
                · subst hx
                  have hxs : xs ≠ rest := fun hxx => hp (by rw [hxx])
                  have hfR : trienode_get_child (.mk i R s cc f) x = R := by
                    unfold trienode_get_child
                    show chainFind R x = R
                    rcases hRR : R with _ | ⟨i2, c2, s2, cc2, f2⟩
                    · exact absurd hRR hRne
                    · have : cc2 = x := by rw [hRR] at hRch; exact hRch
                      rw [chainFind, if_pos this]
                  rw [hfR, hfd, trie_get_node_nil]
                  have h1 := ih (.mk ⟨none, 0⟩ .nil c x 0) (by intro hx; cases hx) xs hxs
                  rw [← hR] at h1
                  rw [h1, get_fresh_item_full]
                  rfl
                · have hfx : trienode_get_child (.mk i R s cc f) x =
                      trienode_get_child (.mk i c s cc f) x := by
                    unfold trienode_get_child
                    show chainFind R x = chainFind c x
                    rcases hRR : R with _ | ⟨i2, c2, s2, cc2, f2⟩
                    · exact absurd hRR hRne
                    · have hcc2 : cc2 = t := by rw [hRR] at hRch; exact hRch
                      have hs2 : s2 = c := by rw [hRR] at hRsib; exact hRsib
                      rw [chainFind,
                        if_neg (show ¬(cc2 = x) from fun h => hx (h.symm.trans hcc2)),
                        hs2]
                  rw [hfx]
          · -- existing child: the walk continues into it in place
            have hfd' : chainFind c t = .mk i1 c1 s1 cc1 f1 := hfd
            have hcc1 : cc1 = t := chainFind_ch c t hfd'
            have hunf : (trie_set_go (.mk i c s cc f) full (t :: rest) v).1 =
                .mk i (chainSubst c t (trie_set_go (.mk i1 c1 s1 cc1 f1) full rest v).1)
                  s cc f := by
              simp only [trie_set_go, hfd, TrieNode.child]
            rw [hunf]
            set R := (trie_set_go (.mk i1 c1 s1 cc1 f1) full rest v).1 with hR
            have hRne : R ≠ .nil := set_go_ne_nil _ _ _ _ (by intro hx; cases hx)
            have hRch : R.ch = t := by rw [hR, set_go_ch]; exact hcc1
            have hRsib : R.sibling = (chainFind c t).sibling := by
              rw [hR, set_go_sibling, hfd']
            cases p with
            | nil => rfl
            | cons x xs =>
                show (trie_get_node (trienode_get_child (.mk i (chainSubst c t R) s cc f) x)
                    xs).item =
                  (trie_get_node (trienode_get_child (.mk i c s cc f) x) xs).item
                by_cases hx : x = t
                · subst hx
                  have hxs : xs ≠ rest := fun hxx => hp (by rw [hxx])
                  have hfR : trienode_get_child (.mk i (chainSubst c x R) s cc f) x = R := by
                    unfold trienode_get_child
                    show chainFind (chainSubst c x R) x = R
                    exact chainFind_chainSubst c x R hRch (by rw [hfd']; intro h; cases h)
                  rw [hfR, hfd]
                  exact ih (.mk i1 c1 s1 cc1 f1) (by intro h; cases h) xs hxs
                · obtain ⟨h1, h2, _⟩ := chainFind_chainSubst_ne c t R x hRne hRch hRsib hx
                  exact get_congr_item_child _ _ h1 h2 xs

/-- When the terminal node already exists, the walk of `trie_set_item`
creates no node, so exactly the same paths resolve afterwards. -/
theorem set_go_nil_frame (suffix : Key) (n : TrieNode) (full : Key) (v : Value)
    (hn : n ≠ .nil) (hterm : trie_get_node n suffix ≠ .nil) :
    ∀ p, (trie_get_node (trie_set_go n full suffix v).1 p = .nil ↔
      trie_get_node n p = .nil) := by
  induction suffix generalizing n with
  | nil =>
      intro p
      cases n with
      | nil => exact absurd rfl hn
      | mk i c s cc f =>
          have hgoal : ∀ i' : TrieItem,
              (trie_get_node (.mk i' c s cc f) p = .nil ↔
                trie_get_node (.mk i c s cc f) p = .nil) := by
            intro i'
            exact get_congr_nil (.mk i' c s cc f) (.mk i c s cc f) rfl
              (iff_of_false (by intro h; injection h) (by intro h; injection h)) p
          rw [trie_set_go]
          rcases hkey : i.key with _ | k0 <;> exact hgoal _
  | cons t rest ih =>
      intro p
      cases n with
      | nil => exact absurd rfl hn
      | mk i c s cc f =>
          have hstep : ∀ m : TrieNode,
              trie_get_node m (t :: rest) = trie_get_node (trienode_get_child m t) rest :=
            fun m => rfl
          rcases hfd : trienode_get_child (.mk i c s cc f) t with _ | ⟨i1, c1, s1, cc1, f1⟩
          · exfalso
            apply hterm
            rw [hstep, hfd, trie_get_node_nil]
          · have hfd' : chainFind c t = .mk i1 c1 s1 cc1 f1 := hfd
            have hcc1 : cc1 = t := chainFind_ch c t hfd'
            have hterm1 : trie_get_node (.mk i1 c1 s1 cc1 f1) rest ≠ .nil := by
              rw [hstep, hfd] at hterm
              exact hterm
            have hunf : (trie_set_go (.mk i c s cc f) full (t :: rest) v).1 =
                .mk i (chainSubst c t (trie_set_go (.mk i1 c1 s1 cc1 f1) full rest v).1)
                  s cc f := by
              simp only [trie_set_go, hfd, TrieNode.child]
            rw [hunf]
            set R := (trie_set_go (.mk i1 c1 s1 cc1 f1) full rest v).1 with hR
            have hRne : R ≠ .nil := set_go_ne_nil _ _ _ _ (by intro hx; cases hx)
            have hRch : R.ch = t := by rw [hR, set_go_ch]; exact hcc1
            have hRsib : R.sibling = (chainFind c t).sibling := by
              rw [hR, set_go_sibling, hfd']
            cases p with
            | nil =>
                exact iff_of_false (by intro h; injection h) (by intro h; injection h)
            | cons x xs =>
                show trie_get_node (trienode_get_child (.mk i (chainSubst c t R) s cc f) x)
                    xs = .nil ↔
                  trie_get_node (trienode_get_child (.mk i c s cc f) x) xs = .nil
                by_cases hx : x = t
                · subst hx
                  have hfR : trienode_get_child (.mk i (chainSubst c x R) s cc f) x = R := by
                    unfold trienode_get_child
                    show chainFind (chainSubst c x R) x = R
                    exact chainFind_chainSubst c x R hRch (by rw [hfd']; intro h; cases h)
                  rw [hfR, hfd]
                  exact ih (.mk i1 c1 s1 cc1 f1) (by intro h; cases h) hterm1 xs
                · obtain ⟨_, h2, h3⟩ := chainFind_chainSubst_ne c t R x hRne hRch hRsib hx
                  exact get_congr_nil _ _ h2 h3 xs

/-- When the terminal node already exists, no node is created. -/
theorem set_go_created_zero (suffix : Key) (n : TrieNode) (full : Key) (v : Value)
    (hterm : trie_get_node n suffix ≠ .nil) :
    (trie_set_go n full suffix v).2.1 = 0 := by
  induction suffix generalizing n with
  | nil =>
      cases n with
      | nil => exact absurd rfl hterm
      | mk i c s cc f =>
          rw [trie_set_go]
          rcases hkey : i.key with _ | k0 <;> rfl
  | cons t rest ih =>
      cases n with
      | nil =>
          exfalso
          apply hterm
          exact trie_get_node_nil (t :: rest)
      | mk i c s cc f =>
          have hstep : trie_get_node (.mk i c s cc f) (t :: rest) =
              trie_get_node (trienode_get_child (.mk i c s cc f) t) rest := rfl
          rcases hfd : trienode_get_child (.mk i c s cc f) t with _ | ⟨i1, c1, s1, cc1, f1⟩
          · exfalso
            apply hterm
            rw [hstep, hfd, trie_get_node_nil]
          · have hunf : (trie_set_go (.mk i c s cc f) full (t :: rest) v).2.1 =
                (trie_set_go (.mk i1 c1 s1 cc1 f1) full rest v).2.1 := by
              simp only [trie_set_go, hfd, TrieNode.child]
            rw [hunf]
            apply ih
            rw [hstep, hfd] at hterm
            exact hterm

theorem M64_lit : M64 = 18446744073709551616 := by norm_num [M64]

theorem msAdd_zero (m : Nat) (hm : m < M64) : msAdd m 0 = m := by
  rw [M64_lit] at hm
  unfold msAdd
  rw [M64_lit]
  omega

theorem msAdd_msSub_cancel (m x : Nat) (hm : m < M64) : msAdd (msSub m x) x = m := by
  rw [M64_lit] at hm
  unfold msAdd msSub
  rw [M64_lit]
  omega

theorem trie_set_item_num_items_raw (root : TrieRoot) (k : Key) (v : Value) (d : Bool) :
    (trie_set_item root k v d).1.num_items =
      if (trie_set_go root.node k k v).2.2.1 = true then root.num_items + 1
      else root.num_items := by
  show (if (trie_set_go root.node k k v).2.2.1 then root.num_items + 1
    else root.num_items) = _
  rcases (trie_set_go root.node k k v).2.2.1 <;> simp

theorem trie_set_item_state_id_raw (root : TrieRoot) (k : Key) (v : Value) (d : Bool) :
    (trie_set_item root k v d).1.state_id =
      if (trie_set_go root.node k k v).2.2.1 = true then root.state_id + 1
      else root.state_id := by
  show (if (trie_set_go root.node k k v).2.2.1 then root.state_id + 1
    else root.state_id) = _
  rcases (trie_set_go root.node k k v).2.2.1 <;> simp

theorem trie_set_item_dirty (root : TrieRoot) (k : Key) (v : Value) (d : Bool) :
    (trie_set_item root k v d).1.dirty_iter = root.dirty_iter := rfl

theorem trie_set_item_memsize (root : TrieRoot) (k : Key) (v : Value) (d : Bool) :
    (trie_set_item root k v d).1.memsize =
      msAdd (match (trie_set_go root.node k k v).2.2.2 with
        | some (olen, _) =>
            msSub (msAdd root.memsize ((trie_set_go root.node k k v).2.1 * sizeof_TrieNode))
              (sizeof_TRIECHAR * (olen + 1))
        | none => msAdd root.memsize ((trie_set_go root.node k k v).2.1 * sizeof_TrieNode))
      (sizeof_TRIECHAR * (k.length + 1)) := rfl

/-- C10: overwriting the value of an already item-bearing key changes
only that key's value (its key buffer is re-copied with identical
contents): `num_nodes`, `num_items`, `state_id`, `memsize`, the dirty
slot, the set of resolvable paths (the node structure), and the item —
key and value — seen at every other path are all unchanged; the old
value (if non-NULL and a deallocator was passed) is released exactly
once. -/
theorem C10_overwrite_frame (root : TrieRoot) (k : Key) (v2 : Value) (d : Bool)
    (hg : goodRootNode root.node) (hm : root.memsize < M64)
    (hkey : trie_has_key root k = true) :
    (trie_set_item root k v2 d).1.num_nodes = root.num_nodes ∧
    (trie_set_item root k v2 d).1.num_items = root.num_items ∧
    (trie_set_item root k v2 d).1.state_id = root.state_id ∧
    (trie_set_item root k v2 d).1.memsize = root.memsize ∧
    (trie_set_item root k v2 d).1.dirty_iter = root.dirty_iter ∧
    (trie_get_node (trie_set_item root k v2 d).1.node k).item = ⟨some k, v2⟩ ∧
    (∀ p, p ≠ k → (trie_get_node (trie_set_item root k v2 d).1.node p).item =
      (trie_get_node root.node p).item) ∧
    (∀ p, trie_get_node (trie_set_item root k v2 d).1.node p = .nil ↔
      trie_get_node root.node p = .nil) ∧
    (trie_set_item root k v2 d).2.1 =
      (if d ∧ (trie_get_node root.node k).item.value ≠ 0
       then [(trie_get_node root.node k).item.value] else []) := by
  have hne : root.node ≠ .nil := hg.1
  have hksome : (trie_get_node root.node k).item.key ≠ none := by
    simpa [trie_has_key] using hkey
  have hterm : trie_get_node root.node k ≠ .nil := by
    intro hx
    apply hksome
    rw [hx]
    rfl
  rcases hk0 : (trie_get_node root.node k).item.key with _ | k0
  · exact absurd hk0 hksome
  · have hk0k : k0 = k := goodRoot_spells root.node hg k k0 hk0
    rw [hk0k] at hk0
    have hold := set_go_old k root.node k v2 hne
    rw [hk0] at hold
    have hwas : (trie_set_go root.node k k v2).2.2.1 = false := by rw [hold]
    have holdv : (trie_set_go root.node k k v2).2.2.2 =
        some (k.length, (trie_get_node root.node k).item.value) := by rw [hold]
    have hcz := set_go_created_zero k root.node k v2 hterm
    refine ⟨?_, ?_, ?_, ?_, rfl, ?_, ?_, ?_, ?_⟩
    · rw [trie_set_item_num_nodes, hcz]
      omega
    · rw [trie_set_item_num_items_raw, hwas]
      simp
    · rw [trie_set_item_state_id_raw, hwas]
      simp
    · rw [trie_set_item_memsize]
      simp only [holdv, hcz, Nat.zero_mul]
      rw [msAdd_zero root.memsize hm, msAdd_msSub_cancel _ _ hm]
    · rw [trie_set_item_node]
      exact get_set_go k root.node k v2 hne
    · intro p hp
      rw [trie_set_item_node]
      exact set_go_item_frame k root.node k v2 hne p hp
    · intro p
      rw [trie_set_item_node]
      exact set_go_nil_frame k root.node k v2 hne hterm p
    · rw [trie_set_item_calls, holdv]

/-- C10 witness: overwriting "a" (value 1 → 5) on the store {"a" ↦ 1}. -/
theorem C10_overwrite_frame_witness :
    (trie_set_item (trie_set_item trie_new [97] 1 true).1 [97] 5 true).1.num_nodes =
      (trie_set_item trie_new [97] 1 true).1.num_nodes ∧
    (trie_set_item (trie_set_item trie_new [97] 1 true).1 [97] 5 true).1.num_items =
      (trie_set_item trie_new [97] 1 true).1.num_items ∧
    (trie_set_item (trie_set_item trie_new [97] 1 true).1 [97] 5 true).1.state_id =
      (trie_set_item trie_new [97] 1 true).1.state_id ∧
    (trie_set_item (trie_set_item trie_new [97] 1 true).1 [97] 5 true).1.memsize =
      (trie_set_item trie_new [97] 1 true).1.memsize ∧
    (trie_set_item (trie_set_item trie_new [97] 1 true).1 [97] 5 true).1.dirty_iter =
      (trie_set_item trie_new [97] 1 true).1.dirty_iter ∧
    (trie_get_node (trie_set_item (trie_set_item trie_new [97] 1 true).1 [97] 5 true).1.node
      [97]).item = ⟨some [97], 5⟩ ∧
    (∀ p, p ≠ [97] →
      (trie_get_node (trie_set_item (trie_set_item trie_new [97] 1 true).1 [97] 5 true).1.node
        p).item = (trie_get_node (trie_set_item trie_new [97] 1 true).1.node p).item) ∧
    (∀ p, trie_get_node
        (trie_set_item (trie_set_item trie_new [97] 1 true).1 [97] 5 true).1.node p = .nil ↔
      trie_get_node (trie_set_item trie_new [97] 1 true).1.node p = .nil) ∧
    (trie_set_item (trie_set_item trie_new [97] 1 true).1 [97] 5 true).2.1 =
      (if true ∧ (trie_get_node (trie_set_item trie_new [97] 1 true).1.node [97]).item.value ≠ 0
       then [(trie_get_node (trie_set_item trie_new [97] 1 true).1.node [97]).item.value]
       else []) :=
  C10_overwrite_frame (trie_set_item trie_new [97] 1 true).1 [97] 5 true
    (by decide) (by decide) (by decide)

/- ------------------------------------------------------------------ -/
/- Path and chain lemmas shared by the iterator and counting proofs    -/
/- ------------------------------------------------------------------ -/

/-- Appending keys composes the lookup walk. -/
theorem get_node_append (p q : Key) (g : TrieNode) :
    trie_get_node g (p ++ q) = trie_get_node (trie_get_node g p) q := by
  induction p generalizing g with
  | nil => rfl
  | cons x rest ih => rw [List.cons_append, trie_get_node, trie_get_node, ih]

theorem chainFind_ne_nil_chainHas (c : TrieNode) (x : TRIECHAR)
    (h : chainFind c x ≠ .nil) : chainHas c x = true := by
  induction c with
  | nil => exact absurd rfl h
  | mk i c1 s cc f ihc ihs =>
      rw [chainFind] at h
      rw [chainHas]
      by_cases hcc : cc = x
      · simp [hcc]
      · rw [if_neg hcc] at h
        simp [hcc, ihs h]

theorem chainHas_false_find (c : TrieNode) (x : TRIECHAR)
    (h : chainHas c x = false) : chainFind c x = .nil := by
  by_contra hne
  rw [chainFind_ne_nil_chainHas c x hne] at h
  cases h

/-- In a duplicate-free chain, the found child's own chain is again
duplicate-free. -/
theorem goodChain_chainFind (c : TrieNode) (x : TRIECHAR)
    (hg : goodChain c = true) {i' : TrieItem} {c' s' : TrieNode} {cc' : TRIECHAR} {f' : Nat}
    (hfd : chainFind c x = .mk i' c' s' cc' f') : goodChain c' = true := by
  induction c with
  | nil => rw [chainFind] at hfd; cases hfd
  | mk i c1 s cc f ihc ihs =>
      rw [chainFind] at hfd
      rw [goodChain, Bool.and_eq_true, Bool.and_eq_true] at hg
      split at hfd
      · cases hfd; exact hg.1.1
      · exact ihs hg.1.2 hfd

/-- Chain duplicate-freedom propagates to every node the walk reaches. -/
theorem goodChain_get_node (p : Key) (g : TrieNode)
    (hg : goodChain g.child = true) : goodChain (trie_get_node g p).child = true := by
  induction p generalizing g with
  | nil => exact hg
  | cons x rest ih =>
      rw [trie_get_node]
      rcases hfd : trienode_get_child g x with _ | ⟨i1, c1, s1, cc1, f1⟩
      · rw [trie_get_node_nil]
        rfl
      · exact ih (.mk i1 c1 s1 cc1 f1) (goodChain_chainFind g.child x hg hfd)

/- ------------------------------------------------------------------ -/
/- Structural collectors: the items and keys stored below a chain      -/
/- ------------------------------------------------------------------ -/

/-- The items stored in a sibling chain and everything below it, in
node-before-subtree, chain order. -/
def itemsChain : TrieNode → List TrieItem
  | .nil => []
  | .mk i c s _ _ =>
      (match i.key with | some _ => [i] | none => []) ++ itemsChain c ++ itemsChain s

/-- The root paths of the item-bearing nodes of a sibling chain whose
parent has root path `p`, in the same order as `itemsChain`. -/
def keysChain (p : Key) : TrieNode → List Key
  | .nil => []
  | .mk i c s cc _ =>
      (match i.key with | some _ => [p ++ [cc]] | none => []) ++
        keysChain (p ++ [cc]) c ++ keysChain p s

/-- All items of a store: the root's own (empty-key) item and the items
below the root's child chain. -/
def itemsNode (g : TrieNode) : List TrieItem :=
  (match g.item.key with | some _ => [g.item] | none => []) ++ itemsChain g.child

/-- All keys of a store, in the order of `itemsNode`. -/
def keysNode (g : TrieNode) : List Key :=
  (match g.item.key with | some _ => [([] : Key)] | none => []) ++ keysChain [] g.child

/-- In a well-spelled chain, stored items' key buffers are exactly the
stored root paths. -/
theorem itemsChain_keys (c : TrieNode) (p : Key) (hok : itemsOk c p = true) :
    (itemsChain c).map (fun i => i.key) = (keysChain p c).map some := by
  induction c generalizing p with
  | nil => rfl
  | mk i c1 s cc f ihc ihs =>
      rw [itemsOk, Bool.and_assoc, Bool.and_eq_true, Bool.and_eq_true] at hok
      obtain ⟨hitem, hc1, hs1⟩ := hok
      rw [itemsChain, keysChain, List.map_append, List.map_append, List.map_append,
        List.map_append, ihc (p ++ [cc]) hc1, ihs p hs1]
      rcases hk : i.key with _ | k
      · rfl
      · rw [hk] at hitem
        have : k = p ++ [cc] := by simpa using hitem
        simp [hk, this]

/-- Every stored path below a chain extends the parent path by a
character the chain has. -/
theorem keysChain_shape (c : TrieNode) (p q : Key) (hq : q ∈ keysChain p c) :
    ∃ x rest, q = p ++ x :: rest ∧ chainHas c x = true := by
  induction c generalizing p with
  | nil => cases hq
  | mk i c1 s cc f ihc ihs =>
      rw [keysChain, List.append_assoc, List.mem_append, List.mem_append] at hq
      rcases hq with hq | hq | hq
      · refine ⟨cc, [], ?_, by simp [chainHas]⟩
        rcases hk : i.key with _ | k <;> rw [hk] at hq
        · cases hq
        · simpa using hq
      · obtain ⟨x, rest, hqe, -⟩ := ihc (p ++ [cc]) hq
        exact ⟨cc, x :: rest, by rw [hqe, List.append_assoc]; rfl, by simp [chainHas]⟩
      · obtain ⟨x, rest, hqe, hhas⟩ := ihs p hq
        exact ⟨x, rest, hqe, by simp [chainHas, hhas]⟩

theorem append_cons_head {p : Key} {a b : TRIECHAR} {u v : Key}
    (h : p ++ a :: u = p ++ b :: v) : a = b := by
  have h2 : a :: u = b :: v := List.append_cancel_left h
  cases h2
  rfl

/-- Distinct sibling characters make the stored paths pairwise
distinct. -/
theorem keysChain_nodup (c : TrieNode) (p : Key) (hg : goodChain c = true) :
    (keysChain p c).Nodup := by
  induction c generalizing p with
  | nil => exact List.nodup_nil
  | mk i c1 s cc f ihc ihs =>
      rw [goodChain, Bool.and_eq_true, Bool.and_eq_true, Bool.not_eq_true'] at hg
      obtain ⟨⟨hgc, hgs⟩, hhas⟩ := hg
      rw [keysChain, List.append_assoc]
      refine List.Nodup.append ?_ (List.Nodup.append (ihc _ hgc) (ihs _ hgs) ?_) ?_
      · rcases hk : i.key with _ | k
        · exact List.nodup_nil
        · exact List.nodup_singleton _
      · intro q hqc hqs
        obtain ⟨x, rest, hqe, -⟩ := keysChain_shape c1 (p ++ [cc]) q hqc
        obtain ⟨y, rest', hqe', hhas'⟩ := keysChain_shape s p q hqs
        have heq : p ++ cc :: x :: rest = p ++ y :: rest' := by
          rw [← hqe', hqe, List.append_assoc]
          rfl
        have hcy : cc = y := append_cons_head heq
        rw [hcy, hhas'] at hhas
        cases hhas
      · intro q hqown hqrest
        have hq : q = p ++ [cc] := by
          rcases hk : i.key with _ | k <;> rw [hk] at hqown
          · cases hqown
          · simpa using hqown
        rw [List.mem_append] at hqrest
        rcases hqrest with hqc | hqs
        · obtain ⟨x, rest, hqe, -⟩ := keysChain_shape c1 (p ++ [cc]) q hqc
          rw [hq] at hqe
          have hlen := congrArg List.length hqe
          simp only [List.length_append, List.length_cons, List.length_nil] at hlen
          omega
        · obtain ⟨y, rest', hqe', hhas'⟩ := keysChain_shape s p q hqs
          rw [hq] at hqe'
          have hcy : cc = y := append_cons_head hqe'
          rw [hcy, hhas'] at hhas
          cases hhas

/-- Membership in the stored-path list is exactly resolvability to an
item-bearing node (duplicate-free chains needed so sibling search is
unambiguous). -/
theorem keysChain_mem (c : TrieNode) (p q : Key) (hg : goodChain c = true) :
    q ∈ keysChain p c ↔ ∃ x rest, q = p ++ x :: rest ∧
      (trie_get_node (chainFind c x) rest).item.key ≠ none := by
  induction c generalizing p with
  | nil =>
      constructor
      · intro h; cases h
      · rintro ⟨x, rest, -, hitem⟩
        rw [show chainFind .nil x = .nil from rfl, trie_get_node_nil] at hitem
        exact absurd rfl hitem
  | mk i c1 s cc f ihc ihs =>
      rw [goodChain, Bool.and_eq_true, Bool.and_eq_true, Bool.not_eq_true'] at hg
      obtain ⟨⟨hgc, hgs⟩, hhas⟩ := hg
      have hfindcc : chainFind (.mk i c1 s cc f) cc = .mk i c1 s cc f := by
        rw [chainFind, if_pos rfl]
      rw [keysChain, List.append_assoc, List.mem_append, List.mem_append]
      constructor
      · rintro (hown | hc | hs)
        · rcases hk : i.key with _ | k <;> rw [hk] at hown
          · cases hown
          · have hq : q = p ++ [cc] := by simpa using hown
            refine ⟨cc, [], hq, ?_⟩
            rw [hfindcc]
            show i.key ≠ none
            rw [hk]
            simp
        · obtain ⟨x, rest, hqe, hit⟩ := (ihc (p ++ [cc]) hgc).mp hc
          refine ⟨cc, x :: rest, by rw [hqe, List.append_assoc]; rfl, ?_⟩
          rw [hfindcc]
          rw [show trie_get_node (TrieNode.mk i c1 s cc f) (x :: rest)
            = trie_get_node (chainFind c1 x) rest from rfl]
          exact hit
        · obtain ⟨x, rest, hqe, hit⟩ := (ihs p hgs).mp hs
          refine ⟨x, rest, hqe, ?_⟩
          have hxne : x ≠ cc := by
            intro hx
            have hne : chainFind s x ≠ .nil := by
              intro h0
              rw [h0, trie_get_node_nil] at hit
              exact hit rfl
            have hh := chainFind_ne_nil_chainHas s x hne
            rw [hx] at hh
            rw [hh] at hhas
            cases hhas
          rw [show chainFind (.mk i c1 s cc f) x = chainFind s x from by
            rw [chainFind, if_neg (fun h => hxne h.symm)]]
          exact hit
      · rintro ⟨x, rest, hqe, hit⟩
        by_cases hx : cc = x
        · subst hx
          rw [hfindcc] at hit
          cases rest with
          | nil =>
              left
              rcases hk : i.key with _ | k
              · rw [show (trie_get_node (TrieNode.mk i c1 s cc f) []).item.key
                  = i.key from rfl, hk] at hit
                exact absurd rfl hit
              · rw [hqe]
                simp
          | cons y ys =>
              right; left
              apply (ihc (p ++ [cc]) hgc).mpr
              refine ⟨y, ys, by rw [hqe]; simp, ?_⟩
              rw [show trie_get_node (TrieNode.mk i c1 s cc f) (y :: ys)
                = trie_get_node (chainFind c1 y) ys from rfl] at hit
              exact hit
        · right; right
          apply (ihs p hgs).mpr
          rw [show chainFind (.mk i c1 s cc f) x = chainFind s x from by
            rw [chainFind, if_neg hx]] at hit
          exact ⟨x, rest, hqe, hit⟩

/-- Store-level membership: the stored-path list holds exactly the
resolvable item-bearing paths. -/
theorem keysNode_mem (g : TrieNode) (q : Key) (hg : goodChain g.child = true) :
    q ∈ keysNode g ↔ (trie_get_node g q).item.key ≠ none := by
  rw [keysNode, List.mem_append]
  cases q with
  | nil =>
      constructor
      · rintro (hown | hc)
        · rcases hk : g.item.key with _ | k <;> rw [hk] at hown
          · cases hown
          · show g.item.key ≠ none
            rw [hk]
            simp
        · obtain ⟨x, rest, hqe, -⟩ := keysChain_shape g.child [] [] hc
          simp at hqe
      · intro hit
        left
        rcases hk : g.item.key with _ | k
        · rw [show trie_get_node g [] = g from rfl, hk] at hit
          exact absurd rfl hit
        · simp
  | cons x rest =>
      rw [show trie_get_node g (x :: rest) = trie_get_node (chainFind g.child x) rest from rfl]
      constructor
      · rintro (hown | hc)
        · rcases hk : g.item.key with _ | k <;> rw [hk] at hown
          · cases hown
          · simp at hown
        · obtain ⟨x', rest', hqe, hit⟩ := (keysChain_mem g.child [] (x :: rest) hg).mp hc
          rw [List.nil_append] at hqe
          injection hqe with h1 h2
          subst h1
          subst h2
          exact hit
      · intro hit
        right
        apply (keysChain_mem g.child [] (x :: rest) hg).mpr
        exact ⟨x, rest, by simp, hit⟩

theorem trie_has_key_iff (root : TrieRoot) (k : Key) :
    trie_has_key root k = true ↔ (trie_get_node root.node k).item.key ≠ none := by
  simp [trie_has_key]

/- ------------------------------------------------------------------ -/
/- Reference semantics of the suffix DFS                               -/
/- ------------------------------------------------------------------ -/

/-- The results a full depth-first run of `trieiter_suffixes_next` emits
for a sibling chain, in emission order (the chain is pushed head-first,
so the stack pops it tail-first). -/
def sfxRefChain (qit : TrieItem) : TrieNode → List TrieSearchResult
  | .nil => []
  | .mk i c s _ _ =>
      sfxRefChain qit s ++
        ((match i.key with | some _ => [⟨qit, i, 0⟩] | none => []) ++ sfxRefChain qit c)

/-- The results the DFS emits for one pending stack frame. -/
def frameRef (g : TrieNode) (f : Frame) : List TrieSearchResult :=
  let n := trie_get_node g f.node
  (match n.item.key with
   | some _ => [⟨(trie_get_node g f.query).item, n.item, 0⟩]
   | none => []) ++ sfxRefChain (trie_get_node g f.query).item n.child

/-- The results the DFS emits for a whole stack, top first. -/
def joinFrames (g : TrieNode) (s : List Frame) : List TrieSearchResult :=
  (s.map (frameRef g)).flatten

@[simp] theorem joinFrames_nil (g : TrieNode) : joinFrames g [] = [] := rfl

theorem joinFrames_cons (g : TrieNode) (f : Frame) (s : List Frame) :
    joinFrames g (f :: s) = frameRef g f ++ joinFrames g s := by
  simp [joinFrames]

theorem joinFrames_append (g : TrieNode) (a b : List Frame) :
    joinFrames g (a ++ b) = joinFrames g a ++ joinFrames g b := by
  simp [joinFrames]

/-- Expanding a node's children onto the stack replaces it by frames
whose combined reference output is the chain's reference output (the
`hagree` premise pins down sibling search from the expanded node's full
chain; it holds trivially at the chain itself and survives the recursion
thanks to duplicate-freedom). -/
theorem joinFrames_chainFramesS (g : TrieNode) (base query : Key) (d : Nat)
    (csub : TrieNode) (hgood : goodChain csub = true)
    (hagree : ∀ x, chainHas csub x = true →
      chainFind (trie_get_node g base).child x = chainFind csub x) :
    joinFrames g (chainFramesS csub base query d).reverse
      = sfxRefChain (trie_get_node g query).item csub := by
  induction csub with
  | nil => rfl
  | mk i c1 s cc f ihc ihs =>
      rw [goodChain, Bool.and_eq_true, Bool.and_eq_true, Bool.not_eq_true'] at hgood
      obtain ⟨⟨hgc, hgs⟩, hhas⟩ := hgood
      have hagree_s : ∀ x, chainHas s x = true →
          chainFind (trie_get_node g base).child x = chainFind s x := by
        intro x hx
        have hxcc : ¬(cc = x) := by
          intro h
          rw [← h] at hx
          rw [hx] at hhas
          cases hhas
        have h1 := hagree x (by rw [chainHas]; simp [hx])
        rw [h1, chainFind, if_neg hxcc]
      have hfind_cc : chainFind (trie_get_node g base).child cc = .mk i c1 s cc f := by
        rw [hagree cc (by rw [chainHas]; simp), chainFind, if_pos rfl]
      have hderef : trie_get_node g (base ++ [cc]) = .mk i c1 s cc f := by
        rw [get_node_append]
        rw [show trie_get_node (trie_get_node g base) [cc]
          = chainFind (trie_get_node g base).child cc from rfl]
        exact hfind_cc
      rw [chainFramesS, List.reverse_cons, joinFrames_append, ihs hgs hagree_s]
      rw [show joinFrames g [⟨base ++ [cc], query, 0, d + 1⟩]
        = frameRef g ⟨base ++ [cc], query, 0, d + 1⟩ ++ [] from rfl, List.append_nil]
      rw [sfxRefChain, frameRef]
      rw [show (Frame.mk (base ++ [cc]) query 0 (d + 1)).node = base ++ [cc] from rfl,
        show (Frame.mk (base ++ [cc]) query 0 (d + 1)).query = query from rfl, hderef]
      rfl

/-- When the DFS step emits nothing, it has emptied the stack. -/
theorem suffixes_next_none_stack (g : TrieNode) (stack : List Frame)
    (h : (trieiter_suffixes_next g stack).1 = none) :
    (trieiter_suffixes_next g stack).2 = [] := by
  induction stack using trieiter_suffixes_next.induct g with
  | case1 => simp [trieiter_suffixes_next]
  | case2 f rest n val hval =>
      have hval' : (trie_get_node g f.node).item.key = some val := hval
      have hunf : trieiter_suffixes_next g (f :: rest)
          = (some ⟨(trie_get_node g f.query).item, (trie_get_node g f.node).item, 0⟩,
             (chainFramesS (trie_get_node g f.node).child f.node f.query f.depth).reverse
               ++ rest) := by
        conv_lhs => rw [trieiter_suffixes_next]
        rw [hval']
      rw [hunf] at h
      simp at h
  | case3 f rest n stack' hnone ih =>
      have hnone' : (trie_get_node g f.node).item.key = none := hnone
      have hunf : trieiter_suffixes_next g (f :: rest) = trieiter_suffixes_next g stack' := by
        conv_lhs => rw [trieiter_suffixes_next]
        rw [hnone']
      rw [hunf] at h ⊢
      exact ih h

/-- One DFS step peels the head of the stack's reference output. -/
theorem suffixes_next_join (g : TrieNode) (hg : goodChain g.child = true)
    (stack : List Frame) :
    joinFrames g stack =
      (match (trieiter_suffixes_next g stack).1 with
       | some r => [r] | none => []) ++ joinFrames g (trieiter_suffixes_next g stack).2 := by
  induction stack using trieiter_suffixes_next.induct g with
  | case1 => simp [trieiter_suffixes_next]
  | case2 f rest n val hval =>
      have hval' : (trie_get_node g f.node).item.key = some val := hval
      have hB := joinFrames_chainFramesS g f.node f.query f.depth
        (trie_get_node g f.node).child (goodChain_get_node f.node g hg) (fun x _ => rfl)
      have hunf : trieiter_suffixes_next g (f :: rest)
          = (some ⟨(trie_get_node g f.query).item, (trie_get_node g f.node).item, 0⟩,
             (chainFramesS (trie_get_node g f.node).child f.node f.query f.depth).reverse
               ++ rest) := by
        conv_lhs => rw [trieiter_suffixes_next]
        rw [hval']
      rw [joinFrames_cons, hunf]
      simp [frameRef, hval', joinFrames_append, hB, List.append_assoc]
  | case3 f rest n stack' hnone ih =>
      have hnone' : (trie_get_node g f.node).item.key = none := hnone
      have hstack' : stack' = (chainFramesS (trie_get_node g f.node).child f.node f.query
          f.depth).reverse ++ rest := rfl
      have hB := joinFrames_chainFramesS g f.node f.query f.depth
        (trie_get_node g f.node).child (goodChain_get_node f.node g hg) (fun x _ => rfl)
      have hunf : trieiter_suffixes_next g (f :: rest) = trieiter_suffixes_next g stack' := by
        conv_lhs => rw [trieiter_suffixes_next]
        rw [hnone']
      rw [hunf, ← ih, hstack', joinFrames_cons, joinFrames_append, hB]
      simp only [frameRef, hnone', List.nil_append]

/- ------------------------------------------------------------------ -/
/- Unfolding the exhaustion loop                                       -/
/- ------------------------------------------------------------------ -/

theorem trieiter_exhaust_none (root : TrieRoot) (it : TrieIter)
    (root' : TrieRoot) (it' : TrieIter)
    (h : trieiter_next root it = (none, root', it')) :
    trieiter_exhaust root it = ([], root', it') := by
  rw [trieiter_exhaust]
  split
  · next r2 i2 heq =>
      rw [h] at heq
      injection heq with h1 h2
      injection h2 with h2a h2b
      rw [h2a, h2b]
  · next res2 r2 i2 heq =>
      rw [h] at heq
      injection heq with h1 h2
      cases h1

theorem trieiter_exhaust_some (root : TrieRoot) (it : TrieIter)
    (res : TrieSearchResult) (root' : TrieRoot) (it' : TrieIter)
    (h : trieiter_next root it = (some res, root', it')) :
    trieiter_exhaust root it
      = (res :: (trieiter_exhaust root' it').1, (trieiter_exhaust root' it').2) := by
  rw [trieiter_exhaust]
  split
  · next r2 i2 heq =>
      rw [h] at heq
      injection heq with h1 h2
      cases h1
  · next res2 r2 i2 heq =>
      rw [h] at heq
      injection heq with h1 h2
      injection h2 with h2a h2b
      injection h1 with h1a
      rw [h1a, h2a, h2b]

/-- A clean, in-sync suffixes iterator exhausts to exactly the reference
output of its stack. -/
theorem suffixes_exhaust_join (root : TrieRoot) (hg : goodChain root.node.child = true) :
    ∀ (N : Nat) (it : TrieIter), stackMeasure root.node it.stack ≤ N →
      it.kind = .suffixes → it.is_dirty = false → it.trie_state_id = root.state_id →
      (trieiter_exhaust root it).1 = joinFrames root.node it.stack := by
  intro N
  induction N using Nat.strong_induction_on with
  | _ N ihN =>
      intro it hm hkind hdirty hsid
      have hnext : trieiter_next root it
          = ((trieiter_suffixes_next root.node it.stack).1, root,
             { it with stack := (trieiter_suffixes_next root.node it.stack).2 }) := by
        rw [trieiter_next, if_neg (by simp [hsid]), if_neg (by simp [hdirty]), hkind]
      rcases hr1 : (trieiter_suffixes_next root.node it.stack).1 with _ | res
      · rw [hr1] at hnext
        rw [trieiter_exhaust_none root it root _ hnext]
        have hj := suffixes_next_join root.node hg it.stack
        rw [hr1, suffixes_next_none_stack root.node it.stack hr1] at hj
        simpa using hj.symm
      · rw [hr1] at hnext
        rw [trieiter_exhaust_some root it res root
          { it with stack := (trieiter_suffixes_next root.node it.stack).2 } hnext]
        have hlt : stackMeasure root.node (trieiter_suffixes_next root.node it.stack).2
            < stackMeasure root.node it.stack := by
          apply trieiter_suffixes_next_lt root.node it.stack res
          rw [← hr1]
        have hrec := ihN (stackMeasure root.node (trieiter_suffixes_next root.node it.stack).2)
          (lt_of_lt_of_le hlt hm)
          { it with stack := (trieiter_suffixes_next root.node it.stack).2 }
          le_rfl hkind hdirty hsid
        rw [hrec]
        have hj := suffixes_next_join root.node hg it.stack
        rw [hr1] at hj
        simpa using hj.symm

/-- The DFS emits each stored item of a chain exactly once (as target). -/
theorem sfxRefChain_map_target (qit : TrieItem) (c : TrieNode) :
    ((sfxRefChain qit c).map (fun r => r.target)).Perm (itemsChain c) := by
  induction c with
  | nil => exact List.Perm.refl _
  | mk i c1 s cc f ihc ihs =>
      rw [sfxRefChain, itemsChain]
      rcases hk : i.key with _ | k
      · simp only [List.map_append, List.map_nil, List.nil_append, List.append_assoc]
        exact (ihs.append ihc).trans List.perm_append_comm
      · simp only [List.map_append, List.map_cons, List.map_nil, List.nil_append,
          List.append_assoc, List.singleton_append]
        exact List.Perm.trans List.perm_middle
          (List.Perm.cons i ((ihs.append ihc).trans List.perm_append_comm))

/-- Every emitted result has the creating query as query and `hd = 0`. -/
theorem sfxRefChain_fields (qit : TrieItem) (c : TrieNode) :
    ∀ r ∈ sfxRefChain qit c, r.query = qit ∧ r.hd = 0 := by
  induction c with
  | nil => intro r hr; cases hr
  | mk i c1 s cc f ihc ihs =>
      intro r hr
      rw [sfxRefChain, List.mem_append, List.mem_append] at hr
      rcases hr with hr | hr | hr
      · exact ihs r hr
      · rcases hk : i.key with _ | k <;> rw [hk] at hr
        · cases hr
        · have hre : r = ⟨qit, i, 0⟩ := by simpa using hr
          rw [hre]
          exact ⟨rfl, rfl⟩
      · exact ihc r hr

/-- In a well-formed store, item key buffers are exactly the stored
paths. -/
theorem itemsNode_keys (g : TrieNode) (hg : goodRootNode g) :
    (itemsNode g).map (fun i => i.key) = (keysNode g).map some := by
  rw [itemsNode, keysNode, List.map_append, List.map_append,
    itemsChain_keys g.child [] hg.2.2.2.1]
  rcases hk : g.item.key with _ | k
  · rfl
  · rcases hg.2.2.2.2 with h | h
    · rw [hk] at h; cases h
    · rw [hk] at h
      injection h with h1
      simp [hk, h1]

/-- No key is stored twice. -/
theorem keysNode_nodup (g : TrieNode) (hg : goodRootNode g) :
    (keysNode g).Nodup := by
  rw [keysNode]
  rcases hk : g.item.key with _ | k
  · rw [List.nil_append]
    exact keysChain_nodup g.child [] hg.2.2.1
  · refine List.Nodup.append (List.nodup_singleton _)
      (keysChain_nodup g.child [] hg.2.2.1) ?_
    intro q hq hq'
    obtain ⟨x, rest, hqe, -⟩ := keysChain_shape g.child [] q hq'
    rw [List.mem_singleton] at hq
    rw [hq] at hqe
    simp at hqe

/-- Stronger factory inversion: the produced suffixes iterator in
full. -/
theorem trieiter_suffixes_inv_full (root : TrieRoot) (k : Key) (id : Nat)
    (it : TrieIter) (root₁ : TrieRoot)
    (h : trieiter_suffixes root k id = some (it, root₁)) :
    it = ⟨id, .suffixes, 0, 0, k.length, false, root.state_id, 0, [⟨k, k, 0, 0⟩], []⟩ ∧
      root₁ = root := by
  unfold trieiter_suffixes at h
  split at h
  · cases h
  · simp only [trieiter_new, if_neg (by decide : ¬ (false = true)), Option.some.injEq,
      Prod.mk.injEq] at h
    obtain ⟨h1, h2⟩ := h
    exact ⟨h1.symm, h2.symm⟩

/-- C3: on a well-formed store, exhausting a suffixes iterator created on
the empty key yields exactly the stored items — the multiset of emitted
targets is the multiset of stored items, every result has `hd = 0` (and
the root's item as query), each key appears exactly once, and the
emitted keys are exactly the stored keys. -/
theorem C3_suffixes_exhaust (root : TrieRoot) (id : Nat) (it : TrieIter) (root₁ : TrieRoot)
    (hg : goodRootNode root.node)
    (hnew : trieiter_suffixes root [] id = some (it, root₁)) :
    ((trieiter_exhaust root₁ it).1.map (fun r => r.target)).Perm (itemsNode root.node) ∧
    (∀ r ∈ (trieiter_exhaust root₁ it).1, r.hd = 0 ∧ r.query = root.node.item) ∧
    ((trieiter_exhaust root₁ it).1.map (fun r => r.target.key)).Nodup ∧
    (∀ k : Key, some k ∈ (trieiter_exhaust root₁ it).1.map (fun r => r.target.key) ↔
      trie_has_key root k = true) := by
  obtain ⟨hit, hroot₁⟩ := trieiter_suffixes_inv_full root [] id it root₁ hnew
  rw [hroot₁]
  have hgch : goodChain root.node.child = true := hg.2.2.1
  have hkind : it.kind = .suffixes := by rw [hit]
  have hdirty : it.is_dirty = false := by rw [hit]
  have hsid : it.trie_state_id = root.state_id := by rw [hit]
  have hstack : it.stack = [⟨[], [], 0, 0⟩] := by rw [hit]
  have hex := suffixes_exhaust_join root hgch (stackMeasure root.node it.stack) it le_rfl
    hkind hdirty hsid
  rw [hstack] at hex
  have hj : joinFrames root.node [⟨[], [], 0, 0⟩]
      = (match root.node.item.key with
         | some _ => [⟨root.node.item, root.node.item, 0⟩] | none => []) ++
        sfxRefChain root.node.item root.node.child := by
    simp [joinFrames, frameRef, trie_get_node]
  rw [hex, hj]
  have hperm : (((match root.node.item.key with
      | some _ => [(⟨root.node.item, root.node.item, 0⟩ : TrieSearchResult)] | none => []) ++
      sfxRefChain root.node.item root.node.child).map (fun r => r.target)).Perm
      (itemsNode root.node) := by
    rw [itemsNode, List.map_append]
    refine List.Perm.append ?_ (sfxRefChain_map_target _ _)
    rcases hk : root.node.item.key with _ | k
    · exact List.Perm.refl _
    · exact List.Perm.refl _
  refine ⟨hperm, ?_, ?_, ?_⟩
  · intro r hr
    rw [List.mem_append] at hr
    rcases hr with hr | hr
    · rcases hk : root.node.item.key with _ | k <;> rw [hk] at hr
      · cases hr
      · have hre : r = ⟨root.node.item, root.node.item, 0⟩ := by simpa using hr
        rw [hre]
        exact ⟨rfl, rfl⟩
    · obtain ⟨h1, h2⟩ := sfxRefChain_fields root.node.item root.node.child r hr
      exact ⟨h2, h1⟩
  · have hkeys : ((((match root.node.item.key with
        | some _ => [(⟨root.node.item, root.node.item, 0⟩ : TrieSearchResult)] | none => []) ++
        sfxRefChain root.node.item root.node.child).map (fun r => r.target)).map
          (fun i => i.key)).Perm ((keysNode root.node).map some) := by
      rw [← itemsNode_keys root.node hg]
      exact hperm.map _
    rw [List.map_map] at hkeys
    have hnd : ((keysNode root.node).map some).Nodup :=
      (keysNode_nodup root.node hg).map (Option.some_injective _)
    exact (hkeys.nodup_iff).mpr hnd
  · intro k
    have hkeys : ((((match root.node.item.key with
        | some _ => [(⟨root.node.item, root.node.item, 0⟩ : TrieSearchResult)] | none => []) ++
        sfxRefChain root.node.item root.node.child).map (fun r => r.target)).map
          (fun i => i.key)).Perm ((keysNode root.node).map some) := by
      rw [← itemsNode_keys root.node hg]
      exact hperm.map _
    have hdm : (((match root.node.item.key with
        | some _ => [(⟨root.node.item, root.node.item, 0⟩ : TrieSearchResult)] | none => []) ++
        sfxRefChain root.node.item root.node.child).map (fun r => r.target.key))
        = (((match root.node.item.key with
        | some _ => [(⟨root.node.item, root.node.item, 0⟩ : TrieSearchResult)] | none => []) ++
        sfxRefChain root.node.item root.node.child).map (fun r => r.target)).map
          (fun i => i.key) := by
      rw [List.map_map]
      rfl
    rw [hdm, hkeys.mem_iff]
    constructor
    · intro hmem
      obtain ⟨q, hq, hqe⟩ := List.mem_map.mp hmem
      have hqk : q = k := Option.some_injective _ hqe
      rw [hqk] at hq
      rw [trie_has_key_iff]
      exact (keysNode_mem root.node k hgch).mp hq
    · intro hkey
      refine List.mem_map.mpr ⟨k, ?_, rfl⟩
      exact (keysNode_mem root.node k hgch).mpr ((trie_has_key_iff root k).mp hkey)

theorem C3_suffixes_exhaust_witness :
    (((trieiter_exhaust (trie_set_item (trie_set_item trie_new [97] 1 false).1 [97, 98] 2 false).1 (⟨5, .suffixes, 0, 0, 0, false, 2, 0, [⟨[], [], 0, 0⟩], []⟩ : TrieIter)).1.map (fun r => r.target)).Perm (itemsNode (trie_set_item (trie_set_item trie_new [97] 1 false).1 [97, 98] 2 false).1.node)) ∧
    (∀ r ∈ (trieiter_exhaust (trie_set_item (trie_set_item trie_new [97] 1 false).1 [97, 98] 2 false).1 (⟨5, .suffixes, 0, 0, 0, false, 2, 0, [⟨[], [], 0, 0⟩], []⟩ : TrieIter)).1, r.hd = 0 ∧ r.query = (trie_set_item (trie_set_item trie_new [97] 1 false).1 [97, 98] 2 false).1.node.item) ∧
    ((trieiter_exhaust (trie_set_item (trie_set_item trie_new [97] 1 false).1 [97, 98] 2 false).1 (⟨5, .suffixes, 0, 0, 0, false, 2, 0, [⟨[], [], 0, 0⟩], []⟩ : TrieIter)).1.map (fun r => r.target.key)).Nodup ∧
    (∀ k : Key, some k ∈ (trieiter_exhaust (trie_set_item (trie_set_item trie_new [97] 1 false).1 [97, 98] 2 false).1 (⟨5, .suffixes, 0, 0, 0, false, 2, 0, [⟨[], [], 0, 0⟩], []⟩ : TrieIter)).1.map (fun r => r.target.key) ↔
      trie_has_key (trie_set_item (trie_set_item trie_new [97] 1 false).1 [97, 98] 2 false).1 k = true) :=
  C3_suffixes_exhaust (trie_set_item (trie_set_item trie_new [97] 1 false).1 [97, 98] 2 false).1 5 (⟨5, .suffixes, 0, 0, 0, false, 2, 0, [⟨[], [], 0, 0⟩], []⟩ : TrieIter) (trie_set_item (trie_set_item trie_new [97] 1 false).1 [97, 98] 2 false).1 (by decide) (by rfl)

/- ------------------------------------------------------------------ -/
/- Counting item-bearing nodes (claim C5)                              -/
/- ------------------------------------------------------------------ -/

/-- Number of item-bearing nodes in a sibling chain together with all
their descendants. -/
def countKeys : TrieNode → Nat
  | .nil => 0
  | .mk i c s _ _ => (match i.key with | some _ => 1 | none => 0) + countKeys c + countKeys s

/-- Number of item-bearing nodes at or below one node (sibling chain not
included). -/
def countNode (n : TrieNode) : Nat :=
  (match n.item.key with | some _ => 1 | none => 0) + countKeys n.child

theorem keysChain_length (c : TrieNode) (p : Key) :
    (keysChain p c).length = countKeys c := by
  induction c generalizing p with
  | nil => rfl
  | mk i c1 s cc f ihc ihs =>
      rw [keysChain, countKeys, List.length_append, List.length_append, ihc, ihs]
      rcases i.key with _ | k <;> simp

theorem keysNode_length (g : TrieNode) : (keysNode g).length = countNode g := by
  rw [keysNode, countNode, List.length_append, keysChain_length]
  rcases g.item.key with _ | k <;> simp

theorem countKeys_decomp (n : TrieNode) (hn : n ≠ .nil) :
    countKeys n = countNode n + countKeys n.sibling := by
  cases n with
  | nil => exact absurd rfl hn
  | mk i c s cc f =>
      simp only [countKeys, countNode, TrieNode.item, TrieNode.child, TrieNode.sibling]
      all_goals omega

theorem listSize_decomp (n : TrieNode) (hn : n ≠ .nil) :
    listSize n = 1 + listSize n.child + listSize n.sibling := by
  cases n with
  | nil => exact absurd rfl hn
  | mk i c s cc f => rfl

/-- Substituting the first `t`-child trades that node's whole tail for
the new node's. -/
theorem chainSubst_countKeys (c : TrieNode) (t : TRIECHAR) (R : TrieNode)
    (hne : chainFind c t ≠ .nil) :
    countKeys (chainSubst c t R) + countKeys (chainFind c t) = countKeys c + countKeys R := by
  induction c with
  | nil => exact absurd rfl hne
  | mk i c1 s cc f ihc ihs =>
      by_cases hcc : cc = t
      · rw [chainSubst, if_pos hcc, chainFind, if_pos hcc]
        all_goals omega
      · rw [chainSubst, if_neg hcc, chainFind, if_neg hcc]
        rw [chainFind, if_neg hcc] at hne
        rw [countKeys, countKeys]
        have := ihs hne
        omega

theorem chainSubst_listSize (c : TrieNode) (t : TRIECHAR) (R : TrieNode)
    (hne : chainFind c t ≠ .nil) :
    listSize (chainSubst c t R) + listSize (chainFind c t) = listSize c + listSize R := by
  induction c with
  | nil => exact absurd rfl hne
  | mk i c1 s cc f ihc ihs =>
      by_cases hcc : cc = t
      · rw [chainSubst, if_pos hcc, chainFind, if_pos hcc]
        all_goals omega
      · rw [chainSubst, if_neg hcc, chainFind, if_neg hcc]
        rw [chainFind, if_neg hcc] at hne
        rw [listSize, listSize]
        have := ihs hne
        omega

/-- The walk of `trie_set_item` adds one stored key exactly when the
terminal node had none. -/
theorem set_go_countNode (suffix : Key) (n : TrieNode) (full : Key) (v : Value)
    (hn : n ≠ .nil) :
    countNode (trie_set_go n full suffix v).1
      = countNode n + (if (trie_set_go n full suffix v).2.2.1 then 1 else 0) := by
  induction suffix generalizing n with
  | nil =>
      cases n with
      | nil => exact absurd rfl hn
      | mk i c s cc f =>
          rcases hk : i.key with _ | old
          · have hunf : trie_set_go (.mk i c s cc f) full [] v
                = (.mk ⟨some full, v⟩ c s cc f, 0, true, none) := by
              rw [trie_set_go, hk]
            rw [hunf]
            simp [countNode, TrieNode.item, TrieNode.child, hk]
            all_goals omega
          · have hunf : trie_set_go (.mk i c s cc f) full [] v
                = (.mk ⟨some full, v⟩ c s cc f, 0, false, some (old.length, i.value)) := by
              rw [trie_set_go, hk]
            rw [hunf]
            simp [countNode, TrieNode.item, TrieNode.child, hk]
            all_goals omega
  | cons t rest ih =>
      rcases hfd : trienode_get_child n t with _ | ⟨i1, c1, s1, cc1, f1⟩
      · have hfresh : (TrieNode.mk ⟨none, 0⟩ .nil n.child t 0) ≠ .nil := by
          intro h; cases h
        cases n with
        | nil => exact absurd rfl hn
        | mk i c s cc f =>
            have hr := ih (.mk ⟨none, 0⟩ .nil c t 0) (by intro h; cases h)
            have hunf : trie_set_go (.mk i c s cc f) full (t :: rest) v
                = (.mk i (trie_set_go (.mk ⟨none, 0⟩ .nil c t 0) full rest v).1 s cc f,
                   (trie_set_go (.mk ⟨none, 0⟩ .nil c t 0) full rest v).2.1 + 1,
                   (trie_set_go (.mk ⟨none, 0⟩ .nil c t 0) full rest v).2.2) := by
              rw [trie_set_go, hfd]
              all_goals rfl
            have hdec := countKeys_decomp (trie_set_go (.mk ⟨none, 0⟩ .nil c t 0) full rest v).1
              (set_go_ne_nil _ _ _ _ (by intro h; cases h))
            rw [set_go_sibling, show (TrieNode.mk ⟨none, 0⟩ .nil c t 0).sibling = c from rfl]
              at hdec
            rw [show countNode (.mk ⟨none, 0⟩ .nil c t 0) = 0 from rfl] at hr
            rw [hunf]
            simp only [countNode, TrieNode.item, TrieNode.child]
            omega
      · have hnefd : trienode_get_child n t ≠ .nil := by rw [hfd]; intro h; cases h
        cases n with
        | nil => exact absurd rfl hn
        | mk i c s cc f =>
            have hr := ih (.mk i1 c1 s1 cc1 f1) (by intro h; cases h)
            have hunf : trie_set_go (.mk i c s cc f) full (t :: rest) v
                = (.mk i (chainSubst c t (trie_set_go (.mk i1 c1 s1 cc1 f1) full rest v).1) s cc f,
                   (trie_set_go (.mk i1 c1 s1 cc1 f1) full rest v).2.1,
                   (trie_set_go (.mk i1 c1 s1 cc1 f1) full rest v).2.2) := by
              rw [trie_set_go, hfd]
              all_goals rfl
            have hfd' : chainFind c t = .mk i1 c1 s1 cc1 f1 := hfd
            have hsub := chainSubst_countKeys c t
              (trie_set_go (.mk i1 c1 s1 cc1 f1) full rest v).1 hnefd
            rw [hfd'] at hsub
            have hdec := countKeys_decomp (trie_set_go (.mk i1 c1 s1 cc1 f1) full rest v).1
              (set_go_ne_nil _ _ _ _ (by intro h; cases h))
            rw [set_go_sibling, show (TrieNode.mk i1 c1 s1 cc1 f1).sibling = s1 from rfl] at hdec
            have hdec1 := countKeys_decomp (.mk i1 c1 s1 cc1 f1) (by intro h; cases h)
            rw [show (TrieNode.mk i1 c1 s1 cc1 f1).sibling = s1 from rfl] at hdec1
            rw [hunf]
            simp only [countNode, TrieNode.item, TrieNode.child]
            omega

/-- The walk of `trie_set_item` grows the tree by exactly the number of
nodes it reports creating. -/
theorem set_go_listSize (suffix : Key) (n : TrieNode) (full : Key) (v : Value)
    (hn : n ≠ .nil) :
    listSize (trie_set_go n full suffix v).1
      = listSize n + (trie_set_go n full suffix v).2.1 := by
  induction suffix generalizing n with
  | nil =>
      cases n with
      | nil => exact absurd rfl hn
      | mk i c s cc f =>
          rcases hk : i.key with _ | old
          · have hunf : trie_set_go (.mk i c s cc f) full [] v
                = (.mk ⟨some full, v⟩ c s cc f, 0, true, none) := by
              rw [trie_set_go, hk]
            rw [hunf]
            simp [listSize, TrieNode.child]
            all_goals omega
          · have hunf : trie_set_go (.mk i c s cc f) full [] v
                = (.mk ⟨some full, v⟩ c s cc f, 0, false, some (old.length, i.value)) := by
              rw [trie_set_go, hk]
            rw [hunf]
            simp [listSize, TrieNode.child]
            all_goals omega
  | cons t rest ih =>
      rcases hfd : trienode_get_child n t with _ | ⟨i1, c1, s1, cc1, f1⟩
      · cases n with
        | nil => exact absurd rfl hn
        | mk i c s cc f =>
            have hr := ih (.mk ⟨none, 0⟩ .nil c t 0) (by intro h; cases h)
            have hunf : trie_set_go (.mk i c s cc f) full (t :: rest) v
                = (.mk i (trie_set_go (.mk ⟨none, 0⟩ .nil c t 0) full rest v).1 s cc f,
                   (trie_set_go (.mk ⟨none, 0⟩ .nil c t 0) full rest v).2.1 + 1,
                   (trie_set_go (.mk ⟨none, 0⟩ .nil c t 0) full rest v).2.2) := by
              rw [trie_set_go, hfd]
              all_goals rfl
            rw [show listSize (.mk ⟨none, 0⟩ .nil c t 0) = 1 + 0 + listSize c from rfl] at hr
            rw [hunf]
            simp only [listSize, TrieNode.child]
            omega
      · have hnefd : trienode_get_child n t ≠ .nil := by rw [hfd]; intro h; cases h
        cases n with
        | nil => exact absurd rfl hn
        | mk i c s cc f =>
            have hr := ih (.mk i1 c1 s1 cc1 f1) (by intro h; cases h)
            have hunf : trie_set_go (.mk i c s cc f) full (t :: rest) v
                = (.mk i (chainSubst c t (trie_set_go (.mk i1 c1 s1 cc1 f1) full rest v).1) s cc f,
                   (trie_set_go (.mk i1 c1 s1 cc1 f1) full rest v).2.1,
                   (trie_set_go (.mk i1 c1 s1 cc1 f1) full rest v).2.2) := by
              rw [trie_set_go, hfd]
              all_goals rfl
            have hfd' : chainFind c t = .mk i1 c1 s1 cc1 f1 := hfd
            have hsub := chainSubst_listSize c t
              (trie_set_go (.mk i1 c1 s1 cc1 f1) full rest v).1 hnefd
            rw [hfd'] at hsub
            have hdec := listSize_decomp (trie_set_go (.mk i1 c1 s1 cc1 f1) full rest v).1
              (set_go_ne_nil _ _ _ _ (by intro h; cases h))
            rw [set_go_sibling, show (TrieNode.mk i1 c1 s1 cc1 f1).sibling = s1 from rfl] at hdec
            have hdec1 := listSize_decomp (.mk i1 c1 s1 cc1 f1) (by intro h; cases h)
            rw [show (TrieNode.mk i1 c1 s1 cc1 f1).sibling = s1 from rfl] at hdec1
            rw [hunf]
            simp only [listSize, TrieNode.child]
            omega

/- ------------------------------------------------------------------ -/
/- Structural invariants are preserved by the set walk (claim C5)      -/
/- ------------------------------------------------------------------ -/

theorem chainHas_find_ne_nil (c : TrieNode) (t : TRIECHAR)
    (h : chainHas c t = true) : chainFind c t ≠ .nil := by
  induction c with
  | nil => cases h
  | mk i c1 s cc f ihc ihs =>
      rw [chainHas, Bool.or_eq_true] at h
      rw [chainFind]
      by_cases hcc : cc = t
      · rw [if_pos hcc]
        intro h0; cases h0
      · rw [if_neg hcc]
        rcases h with h | h
        · exact absurd (by simpa using h) hcc
        · exact ihs h

theorem chainFind_nil_has_false (c : TrieNode) (t : TRIECHAR)
    (h : chainFind c t = .nil) : chainHas c t = false := by
  by_contra hh
  exact chainHas_find_ne_nil c t (eq_true_of_ne_false hh) h

theorem chainHas_decomp (n : TrieNode) (hn : n ≠ .nil) (x : TRIECHAR) :
    chainHas n x = ((n.ch = x) || chainHas n.sibling x) := by
  cases n with
  | nil => exact absurd rfl hn
  | mk i c s cc f => rfl

theorem goodChain_decomp (n : TrieNode) (hn : n ≠ .nil) :
    goodChain n = true ↔ goodChain n.child = true ∧ goodChain n.sibling = true ∧
      chainHas n.sibling n.ch = false := by
  cases n with
  | nil => exact absurd rfl hn
  | mk i c s cc f =>
      rw [goodChain, Bool.and_eq_true, Bool.and_eq_true, Bool.not_eq_true']
      exact ⟨fun h => ⟨h.1.1, h.1.2, h.2⟩, fun h => ⟨⟨h.1, h.2.1⟩, h.2.2⟩⟩

theorem itemsOk_decomp (n : TrieNode) (hn : n ≠ .nil) (q : Key) :
    itemsOk n q = true ↔ (∀ k, n.item.key = some k → k = q ++ [n.ch]) ∧
      itemsOk n.child (q ++ [n.ch]) = true ∧ itemsOk n.sibling q = true := by
  cases n with
  | nil => exact absurd rfl hn
  | mk i c s cc f =>
      simp only [TrieNode.item, TrieNode.child, TrieNode.sibling, TrieNode.ch]
      rw [itemsOk, Bool.and_eq_true, Bool.and_eq_true]
      constructor
      · rintro ⟨⟨h1, h2⟩, h3⟩
        refine ⟨?_, h2, h3⟩
        intro k hk
        rw [hk] at h1
        simpa using h1
      · rintro ⟨h1, h2, h3⟩
        refine ⟨⟨?_, h2⟩, h3⟩
        rcases hk : i.key with _ | k
        · rfl
        · simpa using h1 k hk

theorem noDead_decomp (n : TrieNode) (hn : n ≠ .nil) :
    noDead n = true ↔ (n.item.key ≠ none ∨ n.child ≠ .nil) ∧
      noDead n.child = true ∧ noDead n.sibling = true := by
  cases n with
  | nil => exact absurd rfl hn
  | mk i c s cc f =>
      simp only [TrieNode.item, TrieNode.child, TrieNode.sibling, TrieNode.ch]
      rw [noDead, Bool.and_eq_true, Bool.and_eq_true]
      constructor
      · rintro ⟨⟨h1, h2⟩, h3⟩
        refine ⟨?_, h2, h3⟩
        rw [Bool.or_eq_true, Bool.not_eq_true', Bool.not_eq_true'] at h1
        rcases h1 with h1 | h1
        · exact Or.inl (by simpa using h1)
        · exact Or.inr (by simpa using h1)
      · rintro ⟨h1, h2, h3⟩
        refine ⟨⟨?_, h2⟩, h3⟩
        rw [Bool.or_eq_true, Bool.not_eq_true', Bool.not_eq_true']
        rcases h1 with h1 | h1
        · exact Or.inl (by simpa using h1)
        · exact Or.inr (by simpa using h1)

theorem noDead_chainFind (c : TrieNode) (t : TRIECHAR)
    (h : noDead c = true) : noDead (chainFind c t) = true := by
  induction c with
  | nil => exact h
  | mk i c1 s cc f ihc ihs =>
      rw [chainFind]
      by_cases hcc : cc = t
      · rw [if_pos hcc]
        exact h
      · rw [if_neg hcc]
        rw [noDead, Bool.and_eq_true, Bool.and_eq_true] at h
        exact ihs h.2

theorem chainSubst_ne_nil (c : TrieNode) (t : TRIECHAR) (R : TrieNode)
    (hc : c ≠ .nil) (hR : R ≠ .nil) : chainSubst c t R ≠ .nil := by
  cases c with
  | nil => exact absurd rfl hc
  | mk i c1 s cc f =>
      rw [chainSubst]
      split
      · exact hR
      · intro h; cases h

theorem chainHas_chainSubst (c : TrieNode) (t : TRIECHAR) (R : TrieNode)
    (hch : R.ch = t) (hsib : R.sibling = (chainFind c t).sibling)
    (hRne : R ≠ .nil) (x : TRIECHAR) :
    chainHas (chainSubst c t R) x = chainHas c x := by
  induction c with
  | nil => rfl
  | mk i c1 s cc f ihc ihs =>
      by_cases hcc : cc = t
      · rw [chainSubst, if_pos hcc]
        rw [chainFind, if_pos hcc] at hsib
        rw [chainHas_decomp R hRne, hch, hsib]
        rw [show (TrieNode.mk i c1 s cc f).sibling = s from rfl, chainHas]
        rw [hcc]
      · rw [chainSubst, if_neg hcc]
        rw [chainFind, if_neg hcc] at hsib
        rw [chainHas, chainHas, ihs hsib]

theorem goodChain_chainSubst (c : TrieNode) (t : TRIECHAR) (R : TrieNode)
    (hg : goodChain c = true) (hne : chainFind c t ≠ .nil)
    (hch : R.ch = t) (hsib : R.sibling = (chainFind c t).sibling)
    (hRne : R ≠ .nil) (hRc : goodChain R.child = true) :
    goodChain (chainSubst c t R) = true := by
  induction c with
  | nil => exact absurd rfl hne
  | mk i c1 s cc f ihc ihs =>
      rw [goodChain, Bool.and_eq_true, Bool.and_eq_true, Bool.not_eq_true'] at hg
      obtain ⟨⟨hgc, hgs⟩, hhas⟩ := hg
      by_cases hcc : cc = t
      · rw [chainSubst, if_pos hcc]
        rw [chainFind, if_pos hcc] at hsib
        rw [goodChain_decomp R hRne, hch, hsib]
        refine ⟨hRc, hgs, ?_⟩
        rw [show (TrieNode.mk i c1 s cc f).sibling = s from rfl]
        rw [← hcc]
        exact hhas
      · rw [chainFind, if_neg hcc] at hne hsib
        rw [chainSubst, if_neg hcc, goodChain, Bool.and_eq_true, Bool.and_eq_true,
          Bool.not_eq_true']
        refine ⟨⟨hgc, ihs hgs hne hsib⟩, ?_⟩
        rw [chainHas_chainSubst s t R hch hsib hRne]
        exact hhas

theorem itemsOk_chainSubst (c : TrieNode) (t : TRIECHAR) (R : TrieNode) (q : Key)
    (hok : itemsOk c q = true) (hne : chainFind c t ≠ .nil)
    (hch : R.ch = t) (hsib : R.sibling = (chainFind c t).sibling)
    (hRne : R ≠ .nil)
    (hRspell : ∀ k, R.item.key = some k → k = q ++ [t])
    (hRc : itemsOk R.child (q ++ [t]) = true) :
    itemsOk (chainSubst c t R) q = true := by
  induction c with
  | nil => exact absurd rfl hne
  | mk i c1 s cc f ihc ihs =>
      rw [itemsOk, Bool.and_assoc, Bool.and_eq_true, Bool.and_eq_true] at hok
      obtain ⟨hown, hc1, hs⟩ := hok
      by_cases hcc : cc = t
      · rw [chainSubst, if_pos hcc]
        rw [chainFind, if_pos hcc] at hsib
        rw [itemsOk_decomp R hRne q, hch, hsib]
        exact ⟨hRspell, hRc, hs⟩
      · rw [chainFind, if_neg hcc] at hne hsib
        rw [chainSubst, if_neg hcc, itemsOk, Bool.and_assoc, Bool.and_eq_true,
          Bool.and_eq_true]
        exact ⟨hown, hc1, ihs hs hne hsib⟩

theorem noDead_chainSubst (c : TrieNode) (t : TRIECHAR) (R : TrieNode)
    (hnd : noDead c = true) (hne : chainFind c t ≠ .nil)
    (hsib : R.sibling = (chainFind c t).sibling)
    (hRne : R ≠ .nil)
    (hRown : R.item.key ≠ none ∨ R.child ≠ .nil)
    (hRc : noDead R.child = true) :
    noDead (chainSubst c t R) = true := by
  induction c with
  | nil => exact absurd rfl hne
  | mk i c1 s cc f ihc ihs =>
      rw [noDead_decomp _ (by intro h; cases h)] at hnd
      obtain ⟨hown, hc1, hs⟩ := hnd
      by_cases hcc : cc = t
      · rw [chainSubst, if_pos hcc]
        rw [chainFind, if_pos hcc] at hsib
        rw [noDead_decomp R hRne, hsib]
        exact ⟨hRown, hRc, hs⟩
      · rw [chainFind, if_neg hcc] at hne hsib
        rw [chainSubst, if_neg hcc, noDead_decomp _ (by intro h; cases h)]
        exact ⟨hown, hc1, ihs hs hne hsib⟩

/-- The set walk keeps sibling chains duplicate-free. -/
theorem set_go_goodChain (suffix : Key) (n : TrieNode) (full : Key) (v : Value)
    (hn : n ≠ .nil) (hg : goodChain n.child = true) :
    goodChain (trie_set_go n full suffix v).1.child = true := by
  induction suffix generalizing n with
  | nil =>
      cases n with
      | nil => exact absurd rfl hn
      | mk i c s cc f =>
          rcases hk : i.key with _ | old
          · have hunf : trie_set_go (.mk i c s cc f) full [] v
                = (.mk ⟨some full, v⟩ c s cc f, 0, true, none) := by
              rw [trie_set_go, hk]
            rw [hunf]
            exact hg
          · have hunf : trie_set_go (.mk i c s cc f) full [] v
                = (.mk ⟨some full, v⟩ c s cc f, 0, false, some (old.length, i.value)) := by
              rw [trie_set_go, hk]
            rw [hunf]
            exact hg
  | cons t rest ih =>
      rcases hfd : trienode_get_child n t with _ | ⟨i1, c1, s1, cc1, f1⟩
      · cases n with
        | nil => exact absurd rfl hn
        | mk i c s cc f =>
            have hunf : trie_set_go (.mk i c s cc f) full (t :: rest) v
                = (.mk i (trie_set_go (.mk ⟨none, 0⟩ .nil c t 0) full rest v).1 s cc f,
                   (trie_set_go (.mk ⟨none, 0⟩ .nil c t 0) full rest v).2.1 + 1,
                   (trie_set_go (.mk ⟨none, 0⟩ .nil c t 0) full rest v).2.2) := by
              rw [trie_set_go, hfd]
              all_goals rfl
            rw [hunf]
            show goodChain (trie_set_go (.mk ⟨none, 0⟩ .nil c t 0) full rest v).1 = true
            have hRne := set_go_ne_nil (.mk ⟨none, 0⟩ .nil c t 0) full rest v
              (by intro h; cases h)
            rw [goodChain_decomp _ hRne, set_go_sibling, set_go_ch]
            refine ⟨ih _ (by intro h; cases h) rfl, ?_, ?_⟩
            · exact hg
            · exact chainFind_nil_has_false c t hfd
      · cases n with
        | nil => exact absurd rfl hn
        | mk i c s cc f =>
            have hfd' : chainFind c t = .mk i1 c1 s1 cc1 f1 := hfd
            have hne : chainFind c t ≠ .nil := by rw [hfd']; intro h; cases h
            have hunf : trie_set_go (.mk i c s cc f) full (t :: rest) v
                = (.mk i (chainSubst c t (trie_set_go (.mk i1 c1 s1 cc1 f1) full rest v).1) s cc f,
                   (trie_set_go (.mk i1 c1 s1 cc1 f1) full rest v).2.1,
                   (trie_set_go (.mk i1 c1 s1 cc1 f1) full rest v).2.2) := by
              rw [trie_set_go, hfd]
              all_goals rfl
            rw [hunf]
            show goodChain (chainSubst c t (trie_set_go (.mk i1 c1 s1 cc1 f1) full rest v).1)
              = true
            have hcc1 : cc1 = t := chainFind_ch c t hfd'
            refine goodChain_chainSubst c t _ hg hne ?_ ?_
              (set_go_ne_nil _ _ _ _ (by intro h; cases h))
              (ih _ (by intro h; cases h) (goodChain_chainFind c t hg hfd'))
            · rw [set_go_ch]
              exact hcc1
            · rw [set_go_sibling, hfd']

/-- The set walk keeps item key buffers spelling their paths. -/
theorem set_go_itemsOk (suffix : Key) (n : TrieNode) (full q : Key) (v : Value)
    (hn : n ≠ .nil) (hfull : full = q ++ suffix)
    (hspell : ∀ k, n.item.key = some k → k = q)
    (hok : itemsOk n.child q = true) :
    (∀ k, (trie_set_go n full suffix v).1.item.key = some k → k = q) ∧
    itemsOk (trie_set_go n full suffix v).1.child q = true := by
  induction suffix generalizing n q with
  | nil =>
      cases n with
      | nil => exact absurd rfl hn
      | mk i c s cc f =>
          rw [List.append_nil] at hfull
          rcases hk : i.key with _ | old
          · have hunf : trie_set_go (.mk i c s cc f) full [] v
                = (.mk ⟨some full, v⟩ c s cc f, 0, true, none) := by
              rw [trie_set_go, hk]
            rw [hunf]
            refine ⟨?_, hok⟩
            intro k hkk
            have : some full = some k := hkk
            injection this with h1
            rw [← h1, hfull]
          · have hunf : trie_set_go (.mk i c s cc f) full [] v
                = (.mk ⟨some full, v⟩ c s cc f, 0, false, some (old.length, i.value)) := by
              rw [trie_set_go, hk]
            rw [hunf]
            refine ⟨?_, hok⟩
            intro k hkk
            have : some full = some k := hkk
            injection this with h1
            rw [← h1, hfull]
  | cons t rest ih =>
      rcases hfd : trienode_get_child n t with _ | ⟨i1, c1, s1, cc1, f1⟩
      · cases n with
        | nil => exact absurd rfl hn
        | mk i c s cc f =>
            have hunf : trie_set_go (.mk i c s cc f) full (t :: rest) v
                = (.mk i (trie_set_go (.mk ⟨none, 0⟩ .nil c t 0) full rest v).1 s cc f,
                   (trie_set_go (.mk ⟨none, 0⟩ .nil c t 0) full rest v).2.1 + 1,
                   (trie_set_go (.mk ⟨none, 0⟩ .nil c t 0) full rest v).2.2) := by
              rw [trie_set_go, hfd]
              all_goals rfl
            rw [hunf]
            have hfull' : full = (q ++ [t]) ++ rest := by
              rw [hfull, List.append_assoc]
              rfl
            have hIH := ih (.mk ⟨none, 0⟩ .nil c t 0) (q ++ [t]) (by intro h; cases h) hfull'
              (by intro k hk; cases hk) rfl
            have hRne := set_go_ne_nil (.mk ⟨none, 0⟩ .nil c t 0) full rest v
              (by intro h; cases h)
            constructor
            · exact hspell
            · show itemsOk (trie_set_go (.mk ⟨none, 0⟩ .nil c t 0) full rest v).1 q = true
              rw [itemsOk_decomp _ hRne, set_go_sibling, set_go_ch]
              exact ⟨hIH.1, hIH.2, hok⟩
      · cases n with
        | nil => exact absurd rfl hn
        | mk i c s cc f =>
            have hfd' : chainFind c t = .mk i1 c1 s1 cc1 f1 := hfd
            have hne : chainFind c t ≠ .nil := by rw [hfd']; intro h; cases h
            have hcc1 : cc1 = t := chainFind_ch c t hfd'
            have hunf : trie_set_go (.mk i c s cc f) full (t :: rest) v
                = (.mk i (chainSubst c t (trie_set_go (.mk i1 c1 s1 cc1 f1) full rest v).1) s cc f,
                   (trie_set_go (.mk i1 c1 s1 cc1 f1) full rest v).2.1,
                   (trie_set_go (.mk i1 c1 s1 cc1 f1) full rest v).2.2) := by
              rw [trie_set_go, hfd]
              all_goals rfl
            rw [hunf]
            have hfull' : full = (q ++ [t]) ++ rest := by
              rw [hfull, List.append_assoc]
              rfl
            have hfound := chainFind_itemsOk c q t hok (by rw [← hcc1] at hfd' ⊢; exact hfd')
            have hIH := ih (.mk i1 c1 s1 cc1 f1) (q ++ [t]) (by intro h; cases h) hfull'
              (by
                intro k hk
                have := hfound.1 k hk
                exact this)
              hfound.2
            constructor
            · exact hspell
            · show itemsOk (chainSubst c t (trie_set_go (.mk i1 c1 s1 cc1 f1) full rest v).1) q
                = true
              refine itemsOk_chainSubst c t _ q hok hne ?_ ?_
                (set_go_ne_nil _ _ _ _ (by intro h; cases h)) hIH.1 hIH.2
              · rw [set_go_ch]
                exact hcc1
              · rw [set_go_sibling, hfd']

/-- The set walk never creates dead (childless, itemless) nodes. -/
theorem set_go_noDead (suffix : Key) (n : TrieNode) (full : Key) (v : Value)
    (hn : n ≠ .nil) (hnd : noDead n.child = true) :
    noDead (trie_set_go n full suffix v).1.child = true ∧
    ((trie_set_go n full suffix v).1.item.key ≠ none ∨
      (trie_set_go n full suffix v).1.child ≠ .nil) := by
  induction suffix generalizing n with
  | nil =>
      cases n with
      | nil => exact absurd rfl hn
      | mk i c s cc f =>
          rcases hk : i.key with _ | old
          · have hunf : trie_set_go (.mk i c s cc f) full [] v
                = (.mk ⟨some full, v⟩ c s cc f, 0, true, none) := by
              rw [trie_set_go, hk]
            rw [hunf]
            exact ⟨hnd, Or.inl (by intro h; cases h)⟩
          · have hunf : trie_set_go (.mk i c s cc f) full [] v
                = (.mk ⟨some full, v⟩ c s cc f, 0, false, some (old.length, i.value)) := by
              rw [trie_set_go, hk]
            rw [hunf]
            exact ⟨hnd, Or.inl (by intro h; cases h)⟩
  | cons t rest ih =>
      rcases hfd : trienode_get_child n t with _ | ⟨i1, c1, s1, cc1, f1⟩
      · cases n with
        | nil => exact absurd rfl hn
        | mk i c s cc f =>
            have hunf : trie_set_go (.mk i c s cc f) full (t :: rest) v
                = (.mk i (trie_set_go (.mk ⟨none, 0⟩ .nil c t 0) full rest v).1 s cc f,
                   (trie_set_go (.mk ⟨none, 0⟩ .nil c t 0) full rest v).2.1 + 1,
                   (trie_set_go (.mk ⟨none, 0⟩ .nil c t 0) full rest v).2.2) := by
              rw [trie_set_go, hfd]
              all_goals rfl
            rw [hunf]
            have hRne := set_go_ne_nil (.mk ⟨none, 0⟩ .nil c t 0) full rest v
              (by intro h; cases h)
            have hIH := ih (.mk ⟨none, 0⟩ .nil c t 0) (by intro h; cases h) rfl
            constructor
            · show noDead (trie_set_go (.mk ⟨none, 0⟩ .nil c t 0) full rest v).1 = true
              rw [noDead_decomp _ hRne, set_go_sibling]
              exact ⟨hIH.2, hIH.1, hnd⟩
            · exact Or.inr hRne
      · cases n with
        | nil => exact absurd rfl hn
        | mk i c s cc f =>
            have hfd' : chainFind c t = .mk i1 c1 s1 cc1 f1 := hfd
            have hne : chainFind c t ≠ .nil := by rw [hfd']; intro h; cases h
            have hunf : trie_set_go (.mk i c s cc f) full (t :: rest) v
                = (.mk i (chainSubst c t (trie_set_go (.mk i1 c1 s1 cc1 f1) full rest v).1) s cc f,
                   (trie_set_go (.mk i1 c1 s1 cc1 f1) full rest v).2.1,
                   (trie_set_go (.mk i1 c1 s1 cc1 f1) full rest v).2.2) := by
              rw [trie_set_go, hfd]
              all_goals rfl
            rw [hunf]
            have hndf : noDead (TrieNode.mk i1 c1 s1 cc1 f1) = true := by
              rw [← hfd']
              exact noDead_chainFind c t hnd
            rw [noDead_decomp _ (by intro h; cases h)] at hndf
            have hIH := ih (.mk i1 c1 s1 cc1 f1) (by intro h; cases h) hndf.2.1
            constructor
            · show noDead (chainSubst c t (trie_set_go (.mk i1 c1 s1 cc1 f1) full rest v).1)
                = true
              exact noDead_chainSubst c t _ hnd hne (by rw [set_go_sibling, hfd'])
                (set_go_ne_nil _ _ _ _ (by intro h; cases h)) hIH.2 hIH.1
            · refine Or.inr (chainSubst_ne_nil c t _ ?_ ?_)
              · intro h0
                rw [h0] at hne
                exact hne rfl
              · exact set_go_ne_nil _ _ _ _ (by intro h; cases h)

/- ------------------------------------------------------------------ -/
/- Structural invariants are preserved by the del walk (claim C5)      -/
/- ------------------------------------------------------------------ -/

theorem chainFind_chainRemove_ne (c : TrieNode) (t x : TRIECHAR) (hx : x ≠ t) :
    (chainFind (chainRemove c t) x).item = (chainFind c x).item ∧
    (chainFind (chainRemove c t) x).child = (chainFind c x).child := by
  induction c with
  | nil => exact ⟨rfl, rfl⟩
  | mk i c1 s cc f ihc ihs =>
      by_cases hcc : cc = t
      · rw [chainRemove, if_pos hcc]
        rw [chainFind, if_neg (show ¬(cc = x) from fun h => hx (h.symm.trans hcc))]
        exact ⟨rfl, rfl⟩
      · rw [chainRemove, if_neg hcc]
        by_cases hxx : cc = x
        · rw [chainFind, if_pos hxx, chainFind, if_pos hxx]
          exact ⟨rfl, rfl⟩
        · rw [chainFind, if_neg hxx, chainFind, if_neg hxx]
          exact ihs

theorem chainRemove_find_self (c : TrieNode) (t : TRIECHAR)
    (hg : goodChain c = true) : chainFind (chainRemove c t) t = .nil := by
  induction c with
  | nil => rfl
  | mk i c1 s cc f ihc ihs =>
      rw [goodChain, Bool.and_eq_true, Bool.and_eq_true, Bool.not_eq_true'] at hg
      obtain ⟨⟨hgc, hgs⟩, hhas⟩ := hg
      by_cases hcc : cc = t
      · rw [chainRemove, if_pos hcc]
        rw [hcc] at hhas
        exact chainHas_false_find s t hhas
      · rw [chainRemove, if_neg hcc, chainFind, if_neg hcc]
        exact ihs hgs

theorem chainRemove_countKeys (c : TrieNode) (t : TRIECHAR)
    (hne : chainFind c t ≠ .nil) :
    countKeys (chainRemove c t) + countNode (chainFind c t) = countKeys c := by
  induction c with
  | nil => exact absurd rfl hne
  | mk i c1 s cc f ihc ihs =>
      by_cases hcc : cc = t
      · rw [chainRemove, if_pos hcc, chainFind, if_pos hcc]
        rw [countKeys_decomp (.mk i c1 s cc f) (by intro h; cases h)]
        rw [show (TrieNode.mk i c1 s cc f).sibling = s from rfl]
        omega
      · rw [chainRemove, if_neg hcc, chainFind, if_neg hcc]
        rw [chainFind, if_neg hcc] at hne
        rw [countKeys, countKeys]
        have := ihs hne
        omega

theorem chainRemove_listSize (c : TrieNode) (t : TRIECHAR)
    (hne : chainFind c t ≠ .nil) :
    listSize (chainRemove c t) + 1 + listSize (chainFind c t).child = listSize c := by
  induction c with
  | nil => exact absurd rfl hne
  | mk i c1 s cc f ihc ihs =>
      by_cases hcc : cc = t
      · rw [chainRemove, if_pos hcc, chainFind, if_pos hcc]
        rw [show (TrieNode.mk i c1 s cc f).child = c1 from rfl, listSize]
        omega
      · rw [chainRemove, if_neg hcc, chainFind, if_neg hcc]
        rw [chainFind, if_neg hcc] at hne
        rw [listSize, listSize]
        have := ihs hne
        omega

theorem chainHas_chainRemove_false (c : TrieNode) (t x : TRIECHAR)
    (h : chainHas c x = false) : chainHas (chainRemove c t) x = false := by
  induction c with
  | nil => rfl
  | mk i c1 s cc f ihc ihs =>
      rw [chainHas, Bool.or_eq_false_iff] at h
      by_cases hcc : cc = t
      · rw [chainRemove, if_pos hcc]
        exact h.2
      · rw [chainRemove, if_neg hcc, chainHas, Bool.or_eq_false_iff]
        exact ⟨h.1, ihs h.2⟩

theorem goodChain_chainRemove (c : TrieNode) (t : TRIECHAR)
    (hg : goodChain c = true) : goodChain (chainRemove c t) = true := by
  induction c with
  | nil => rfl
  | mk i c1 s cc f ihc ihs =>
      rw [goodChain, Bool.and_eq_true, Bool.and_eq_true, Bool.not_eq_true'] at hg
      obtain ⟨⟨hgc, hgs⟩, hhas⟩ := hg
      by_cases hcc : cc = t
      · rw [chainRemove, if_pos hcc]
        exact hgs
      · rw [chainRemove, if_neg hcc, goodChain, Bool.and_eq_true, Bool.and_eq_true,
          Bool.not_eq_true']
        exact ⟨⟨hgc, ihs hgs⟩, chainHas_chainRemove_false s t cc hhas⟩

theorem itemsOk_chainRemove (c : TrieNode) (t : TRIECHAR) (q : Key)
    (hok : itemsOk c q = true) : itemsOk (chainRemove c t) q = true := by
  induction c with
  | nil => rfl
  | mk i c1 s cc f ihc ihs =>
      rw [itemsOk, Bool.and_assoc, Bool.and_eq_true, Bool.and_eq_true] at hok
      obtain ⟨hown, hc1, hs⟩ := hok
      by_cases hcc : cc = t
      · rw [chainRemove, if_pos hcc]
        exact hs
      · rw [chainRemove, if_neg hcc, itemsOk, Bool.and_assoc, Bool.and_eq_true,
          Bool.and_eq_true]
        exact ⟨hown, hc1, ihs hs⟩

theorem noDead_chainRemove (c : TrieNode) (t : TRIECHAR)
    (hnd : noDead c = true) : noDead (chainRemove c t) = true := by
  induction c with
  | nil => rfl
  | mk i c1 s cc f ihc ihs =>
      rw [noDead, Bool.and_assoc, Bool.and_eq_true, Bool.and_eq_true] at hnd
      obtain ⟨hown, hc1, hs⟩ := hnd
      by_cases hcc : cc = t
      · rw [chainRemove, if_pos hcc]
        exact hs
      · rw [chainRemove, if_neg hcc, noDead, Bool.and_assoc, Bool.and_eq_true,
          Bool.and_eq_true]
        exact ⟨hown, hc1, ihs hs⟩

theorem countNode_mk_congr (i : TrieItem) (c₁ c₂ s₁ s₂ : TrieNode)
    (cc₁ cc₂ : TRIECHAR) (f₁ f₂ : Nat) :
    countNode (.mk i c₁ s₁ cc₁ f₁) + countKeys c₂
      = countNode (.mk i c₂ s₂ cc₂ f₂) + countKeys c₁ := by
  simp only [countNode, TrieNode.item, TrieNode.child]
  omega

theorem itemAfterFree_key (i : TrieItem) (d : Bool) :
    (itemAfterFree i d).1.key = none := by
  unfold itemAfterFree
  split <;> rfl

/-- The walk of `trie_del_item`: a successful delete frees exactly the
target's item, prunes `rc` nodes, preserves all structural invariants,
and leaves every other path's item key unchanged. -/
theorem del_go_main (d : Bool) (k : Key) :
    ∀ (n : TrieNode) (q : Key) (n' : TrieNode) (rc olen : Nat) (calls : List Value),
      trie_del_go n k d = some (n', rc, olen, calls) →
      goodChain n.child = true → itemsOk n.child q = true → noDead n.child = true →
      n' ≠ .nil ∧ n'.ch = n.ch ∧ n'.sibling = n.sibling ∧
      n'.item.key = (if k = [] then none else n.item.key) ∧
      goodChain n'.child = true ∧ itemsOk n'.child q = true ∧ noDead n'.child = true ∧
      countNode n' + 1 = countNode n ∧
      listSize n'.child + rc = listSize n.child ∧
      (∀ p, p ≠ k → (trie_get_node n' p).item.key = (trie_get_node n p).item.key) ∧
      (trie_get_node n' k).item.key = none := by
  induction k with
  | nil =>
      intro n q n' rc olen calls h hg hok hnd
      cases n with
      | nil => cases h
      | mk i c s cc f =>
          rcases hk : i.key with _ | old
          · have hunf : trie_del_go (.mk i c s cc f) [] d = none := by
              rw [trie_del_go, hk]
            rw [hunf] at h
            cases h
          · have hunf : trie_del_go (.mk i c s cc f) [] d
                = some (.mk (itemAfterFree i d).1 c s cc f, 0, old.length,
                        (itemAfterFree i d).2) := by
              rw [trie_del_go, hk]
            rw [hunf] at h
            simp only [Option.some.injEq, Prod.mk.injEq] at h
            obtain ⟨hn', hrc, holen, hcalls⟩ := h
            subst hn'
            subst hrc
            refine ⟨(by intro h0; cases h0), rfl, rfl, ?_, hg, hok, hnd, ?_, ?_, ?_, ?_⟩
            · rw [if_pos rfl]
              exact itemAfterFree_key i d
            · simp only [countNode, TrieNode.item, TrieNode.child, itemAfterFree_key, hk]
              omega
            · show listSize c + 0 = listSize c
              omega
            · intro p hp
              cases p with
              | nil => exact absurd rfl hp
              | cons x ptail => rfl
            · exact itemAfterFree_key i d
  | cons t rest ih =>
      intro n q n' rc olen calls h hg hok hnd
      rcases hfd : trienode_get_child n t with _ | ⟨i1, c1, s1, cc1, f1⟩
      · have hunf : trie_del_go n (t :: rest) d = none := by
          cases n with
          | nil => rfl
          | mk i c s cc f =>
              rw [trie_del_go, hfd]
              all_goals intro h0
              all_goals cases h0
        rw [hunf] at h
        cases h
      · cases n with
        | nil =>
            have : trienode_get_child .nil t = .nil := rfl
            rw [this] at hfd
            cases hfd
        | mk i c s cc f =>
            have hfd' : chainFind c t = .mk i1 c1 s1 cc1 f1 := hfd
            have hcc1 : t = cc1 := (chainFind_ch c t hfd').symm
            subst hcc1
            have hne : chainFind c t ≠ .nil := by rw [hfd']; intro h0; cases h0
            have hgfound : goodChain c1 = true := goodChain_chainFind c t hg hfd'
            have hfound := chainFind_itemsOk c q t hok hfd'
            have hndfound : noDead (TrieNode.mk i1 c1 s1 t f1) = true := by
              rw [← hfd']
              exact noDead_chainFind c t hnd
            rw [noDead_decomp _ (by intro h0; cases h0)] at hndfound
            rcases hrec : trie_del_go (.mk i1 c1 s1 t f1) rest d
              with _ | ⟨found', rc0, olen0, calls0⟩
            · have hunf : trie_del_go (.mk i c s cc f) (t :: rest) d = none := by
                rw [trie_del_go, hfd]
                show (match trie_del_go (TrieNode.mk i1 c1 s1 t f1) rest d with
                      | none => none
                      | some (found', rc2, olen2, calls2) =>
                          if found'.child = TrieNode.nil ∧ found'.item.key = none then
                            some (TrieNode.mk i (chainRemove c t) s cc f, rc2 + 1, olen2,
                                  calls2 ++ (itemAfterFree found'.item d).2)
                          else some (TrieNode.mk i (chainSubst c t found') s cc f, rc2, olen2,
                                     calls2)) = none
                rw [hrec]
                all_goals intro h0
                all_goals cases h0
              rw [hunf] at h
              cases h
            · obtain ⟨hfne, hfch, hfsib, hfkey, hfgood, hfok, hfnd, hfcount, hfsize,
                hfframe, hfat⟩ := ih (.mk i1 c1 s1 t f1) (q ++ [t]) found' rc0 olen0 calls0
                hrec hgfound hfound.2 hndfound.2.1
            -- found' found versus the original child node
              have hfch' : found'.ch = t := hfch
              have hfsib' : found'.sibling = s1 := hfsib
              by_cases hguard : found'.child = .nil ∧ found'.item.key = none
              · have hunf : trie_del_go (.mk i c s cc f) (t :: rest) d
                    = some (.mk i (chainRemove c t) s cc f, rc0 + 1, olen0,
                            calls0 ++ (itemAfterFree found'.item d).2) := by
                  rw [trie_del_go, hfd]
                  show (match trie_del_go (TrieNode.mk i1 c1 s1 t f1) rest d with
                      | none => none
                      | some (found', rc2, olen2, calls2) =>
                          if found'.child = TrieNode.nil ∧ found'.item.key = none then
                            some (TrieNode.mk i (chainRemove c t) s cc f, rc2 + 1, olen2,
                                  calls2 ++ (itemAfterFree found'.item d).2)
                          else some (TrieNode.mk i (chainSubst c t found') s cc f, rc2, olen2,
                                     calls2)) = _
                  rw [hrec]
                  show (if found'.child = TrieNode.nil ∧ found'.item.key = none then
                          some (TrieNode.mk i (chainRemove c t) s cc f, rc0 + 1, olen0,
                                calls0 ++ (itemAfterFree found'.item d).2)
                        else some (TrieNode.mk i (chainSubst c t found') s cc f, rc0, olen0,
                                   calls0)) = _
                  rw [if_pos hguard]
                  all_goals intro h0
                  all_goals cases h0
                rw [hunf] at h
                simp only [Option.some.injEq, Prod.mk.injEq] at h
                obtain ⟨hn', hrc, holen, hcalls⟩ := h
                subst hn'
                subst hrc
                have hcnf : countNode found' = 0 := by
                  simp [countNode, hguard.1, hguard.2, countKeys]
                have hremc := chainRemove_countKeys c t hne
                rw [hfd'] at hremc
                have hrems := chainRemove_listSize c t hne
                rw [hfd'] at hrems
                have hdecf := countKeys_decomp (.mk i1 c1 s1 t f1) (by intro h0; cases h0)
                refine ⟨(by intro h0; cases h0), rfl, rfl,
                  (by
                    rw [if_neg (show ¬(t :: rest = []) from by intro h0; cases h0)]
                    rfl),
                  goodChain_chainRemove c t hg, itemsOk_chainRemove c t q hok,
                  noDead_chainRemove c t hnd, ?_, ?_, ?_, ?_⟩
                · have hcong := countNode_mk_congr i (chainRemove c t) c s s cc cc f f
                  have hcn1 : countNode (TrieNode.mk i1 c1 s1 t f1) = 1 := by omega
                  omega
                · show listSize (chainRemove c t) + (rc0 + 1) = listSize c
                  have hrems2 : listSize (chainRemove c t) + 1 + listSize c1 = listSize c :=
                    hrems
                  have hfsize2 : listSize found'.child + rc0 = listSize c1 := hfsize
                  have hfsz : listSize found'.child = 0 := by simp [hguard.1, listSize]
                  omega
                · intro p hp
                  cases p with
                  | nil => rfl
                  | cons x ptail =>
                      show (trie_get_node (chainFind (chainRemove c t) x) ptail).item.key
                        = (trie_get_node (chainFind c x) ptail).item.key
                      by_cases hx : x = t
                      · subst hx
                        rw [chainRemove_find_self c x hg, trie_get_node_nil, hfd']
                        have hptail : ptail ≠ rest := by
                          intro h0
                          rw [h0] at hp
                          exact hp rfl
                        rw [← hfframe ptail hptail]
                        cases ptail with
                        | nil =>
                            show (none : Option Key) = found'.item.key
                            rw [hguard.2]
                        | cons y ys =>
                            show (none : Option Key)
                              = (trie_get_node (chainFind found'.child y) ys).item.key
                            rw [hguard.1]
                            show (none : Option Key)
                              = (trie_get_node (chainFind .nil y) ys).item.key
                            rw [show chainFind .nil y = .nil from rfl, trie_get_node_nil]
                            rfl
                      · obtain ⟨hi, hc⟩ := chainFind_chainRemove_ne c t x hx
                        rw [get_congr_item_child _ _ hi hc ptail]
                · show (trie_get_node (chainFind (chainRemove c t) t) rest).item.key = none
                  rw [chainRemove_find_self c t hg, trie_get_node_nil]
                  rfl
              · have hunf : trie_del_go (.mk i c s cc f) (t :: rest) d
                    = some (.mk i (chainSubst c t found') s cc f, rc0, olen0, calls0) := by
                  rw [trie_del_go, hfd]
                  show (match trie_del_go (TrieNode.mk i1 c1 s1 t f1) rest d with
                      | none => none
                      | some (found', rc2, olen2, calls2) =>
                          if found'.child = TrieNode.nil ∧ found'.item.key = none then
                            some (TrieNode.mk i (chainRemove c t) s cc f, rc2 + 1, olen2,
                                  calls2 ++ (itemAfterFree found'.item d).2)
                          else some (TrieNode.mk i (chainSubst c t found') s cc f, rc2, olen2,
                                     calls2)) = _
                  rw [hrec]
                  show (if found'.child = TrieNode.nil ∧ found'.item.key = none then
                          some (TrieNode.mk i (chainRemove c t) s cc f, rc0 + 1, olen0,
                                calls0 ++ (itemAfterFree found'.item d).2)
                        else some (TrieNode.mk i (chainSubst c t found') s cc f, rc0, olen0,
                                   calls0)) = _
                  rw [if_neg hguard]
                  all_goals intro h0
                  all_goals cases h0
                rw [hunf] at h
                simp only [Option.some.injEq, Prod.mk.injEq] at h
                obtain ⟨hn', hrc, holen, hcalls⟩ := h
                subst hn'
                subst hrc
                have hfsib'' : found'.sibling = (chainFind c t).sibling := by
                  rw [hfd']
                  exact hfsib'
                have hrown : found'.item.key ≠ none ∨ found'.child ≠ .nil := by
                  rw [not_and_or] at hguard
                  rcases hguard with h0 | h0
                  · exact Or.inr h0
                  · exact Or.inl h0
                have hrspell : ∀ k', found'.item.key = some k' → k' = q ++ [t] := by
                  intro k' hk'
                  rw [hfkey] at hk'
                  by_cases hrest : rest = []
                  · rw [if_pos hrest] at hk'
                    cases hk'
                  · rw [if_neg hrest] at hk'
                    exact hfound.1 k' hk'
                have hsubc := chainSubst_countKeys c t found' hne
                rw [hfd'] at hsubc
                have hsubs := chainSubst_listSize c t found' hne
                rw [hfd'] at hsubs
                have hdecf' := countKeys_decomp found' hfne
                have hdecf := countKeys_decomp (.mk i1 c1 s1 t f1) (by intro h0; cases h0)
                have hdezf' := listSize_decomp found' hfne
                have hdezf := listSize_decomp (.mk i1 c1 s1 t f1) (by intro h0; cases h0)
                rw [hfsib'] at hdecf' hdezf'
                refine ⟨(by intro h0; cases h0), rfl, rfl,
                  (by
                    rw [if_neg (show ¬(t :: rest = []) from by intro h0; cases h0)]
                    rfl),
                  goodChain_chainSubst c t found' hg hne hfch' hfsib'' hfne hfgood,
                  itemsOk_chainSubst c t found' q hok hne hfch' hfsib'' hfne hrspell hfok,
                  noDead_chainSubst c t found' hnd hne hfsib'' hfne hrown hfnd, ?_, ?_, ?_, ?_⟩
                · have hcong := countNode_mk_congr i (chainSubst c t found') c s s cc cc f f
                  have hd1 : countKeys (TrieNode.mk i1 c1 s1 t f1)
                      = countNode (TrieNode.mk i1 c1 s1 t f1) + countKeys s1 := hdecf
                  omega
                · show listSize (chainSubst c t found') + rc0 = listSize c
                  have hs1 : listSize (TrieNode.mk i1 c1 s1 t f1)
                      = 1 + listSize c1 + listSize s1 := hdezf
                  have hfsize2 : listSize found'.child + rc0 = listSize c1 := hfsize
                  omega
                · intro p hp
                  cases p with
                  | nil => rfl
                  | cons x ptail =>
                      show (trie_get_node (chainFind (chainSubst c t found') x) ptail).item.key
                        = (trie_get_node (chainFind c x) ptail).item.key
                      by_cases hx : x = t
                      · subst hx
                        rw [chainFind_chainSubst c x found' hfch' hne, hfd']
                        have hptail : ptail ≠ rest := by
                          intro h0
                          rw [h0] at hp
                          exact hp rfl
                        exact hfframe ptail hptail
                      · obtain ⟨hi, hc, -⟩ :=
                          chainFind_chainSubst_ne c t found' x hfne hfch' hfsib'' hx
                        rw [get_congr_item_child _ _ hi hc ptail]
                · show (trie_get_node (chainFind (chainSubst c t found') t) rest).item.key = none
                  rw [chainFind_chainSubst c t found' hfch' hne]
                  exact hfat

/- ------------------------------------------------------------------ -/
/- The store invariant and its preservation (claim C5)                 -/
/- ------------------------------------------------------------------ -/

/-- Invariant of every store the API can produce: structural
well-formedness plus the two counters agreeing with the tree. -/
def StoreInv (root : TrieRoot) : Prop :=
  goodRootNode root.node ∧ noDead root.node.child = true ∧
  root.num_items = countNode root.node ∧
  root.num_nodes = listSize root.node.child

theorem StoreInv_new : StoreInv trie_new := by
  refine ⟨by decide, by decide, ?_, ?_⟩ <;> rfl

/-- `trie_set_item` preserves the invariant and adds exactly `k` to the
stored key set. -/
theorem StoreInv_set (root : TrieRoot) (k : Key) (v : Value) (d : Bool)
    (h : StoreInv root) :
    StoreInv (trie_set_item root k v d).1 ∧
    (∀ p, trie_has_key (trie_set_item root k v d).1 p = true ↔
      (p = k ∨ trie_has_key root p = true)) := by
  obtain ⟨hg, hnd, hitems, hnodes⟩ := h
  have hne : root.node ≠ .nil := hg.1
  have hspell : ∀ k', root.node.item.key = some k' → k' = [] := by
    intro k' hk'
    rcases hg.2.2.2.2 with h0 | h0
    · rw [h0] at hk'; cases hk'
    · rw [h0] at hk'; injection hk' with h1; exact h1.symm
  have hokk := set_go_itemsOk k root.node k [] v hne (List.nil_append k).symm hspell
    hg.2.2.2.1
  have hndk := set_go_noDead k root.node k v hne hnd
  constructor
  · refine ⟨⟨?_, ?_, ?_, ?_, ?_⟩, ?_, ?_, ?_⟩
    · rw [trie_set_item_node]
      exact set_go_ne_nil root.node k k v hne
    · rw [trie_set_item_node, set_go_sibling]
      exact hg.2.1
    · rw [trie_set_item_node]
      exact set_go_goodChain k root.node k v hne hg.2.2.1
    · rw [trie_set_item_node]
      exact hokk.2
    · rw [trie_set_item_node]
      cases k with
      | nil =>
          right
          have := get_set_go [] root.node [] v hne
          rw [show trie_get_node (trie_set_go root.node [] [] v).1 []
            = (trie_set_go root.node [] [] v).1 from rfl] at this
          rw [this]
      | cons x rest =>
          have hfr := set_go_item_frame (x :: rest) root.node (x :: rest) v hne []
            (by intro h0; cases h0)
          rw [show trie_get_node (trie_set_go root.node (x :: rest) (x :: rest) v).1 []
            = (trie_set_go root.node (x :: rest) (x :: rest) v).1 from rfl,
            show trie_get_node root.node [] = root.node from rfl] at hfr
          rw [hfr]
          exact hg.2.2.2.2
    · rw [trie_set_item_node]
      exact hndk.1
    · rw [trie_set_item_num_items_raw, trie_set_item_node]
      rw [set_go_countNode k root.node k v hne, ← hitems]
      rcases (trie_set_go root.node k k v).2.2.1 <;> simp
    · rw [trie_set_item_num_nodes, trie_set_item_node]
      have hsz := set_go_listSize k root.node k v hne
      have hd1 := listSize_decomp (trie_set_go root.node k k v).1
        (set_go_ne_nil root.node k k v hne)
      have hd2 := listSize_decomp root.node hne
      rw [set_go_sibling] at hd1
      omega
  · intro p
    rw [trie_has_key_iff, trie_has_key_iff, trie_set_item_node]
    by_cases hp : p = k
    · subst hp
      rw [show (trie_get_node (trie_set_go root.node p p v).1 p).item
        = ⟨some p, v⟩ from get_set_go p root.node p v hne]
      simp
    · rw [set_go_item_frame k root.node k v hne p hp]
      simp [hp]

/-- `trie_del_item` preserves the invariant and removes exactly `k` from
the stored key set. -/
theorem StoreInv_del (root : TrieRoot) (k : Key) (d : Bool)
    (h : StoreInv root) :
    StoreInv (trie_del_item root k d).1 ∧
    (∀ p, trie_has_key (trie_del_item root k d).1 p = true ↔
      (p ≠ k ∧ trie_has_key root p = true)) := by
  obtain ⟨hg, hnd, hitems, hnodes⟩ := h
  have hne : root.node ≠ .nil := hg.1
  rcases hdel : trie_del_go root.node k d with _ | ⟨node', removed, olen, calls⟩
  · have habs := (del_go_none_iff k root.node d).mp hdel
    have hroot : (trie_del_item root k d).1 = root := by
      unfold trie_del_item
      rw [hdel]
    rw [hroot]
    refine ⟨⟨hg, hnd, hitems, hnodes⟩, ?_⟩
    intro p
    by_cases hp : p = k
    · subst hp
      rw [trie_has_key_iff]
      simp [habs]
    · simp [hp]
  · obtain ⟨hne', hch, hsib, hkey, hgood, hok, hnd', hcount, hsize, hframe, hat⟩ :=
      del_go_main d k root.node [] node' removed olen calls hdel hg.2.2.1 hg.2.2.2.1 hnd
    have hnode : (trie_del_item root k d).1.node = node' := by
      unfold trie_del_item
      rw [hdel]
    have hni : (trie_del_item root k d).1.num_items = root.num_items - 1 := by
      unfold trie_del_item
      rw [hdel]
    have hnn : (trie_del_item root k d).1.num_nodes = root.num_nodes - removed := by
      unfold trie_del_item
      rw [hdel]
    constructor
    · refine ⟨⟨?_, ?_, ?_, ?_, ?_⟩, ?_, ?_, ?_⟩
      · rw [hnode]; exact hne'
      · rw [hnode, hsib]; exact hg.2.1
      · rw [hnode]; exact hgood
      · rw [hnode]; exact hok
      · rw [hnode]
        by_cases hk0 : k = []
        · rw [if_pos hk0] at hkey
          exact Or.inl hkey
        · rw [if_neg hk0] at hkey
          rw [hkey]
          exact hg.2.2.2.2
      · rw [hnode]; exact hnd'
      · rw [hni, hnode, hitems]
        omega
      · rw [hnn, hnode, hnodes]
        omega
    · intro p
      rw [trie_has_key_iff, trie_has_key_iff, hnode]
      by_cases hp : p = k
      · subst hp
        simp [hat]
      · rw [hframe p hp]
        simp [hp]

/- ------------------------------------------------------------------ -/
/- Node paths and key prefixes (claim C5, the edge count)              -/
/- ------------------------------------------------------------------ -/

/-- The root paths of all nodes of a sibling chain and their
descendants (the parent's path is `p`). -/
def pathsChain (p : Key) : TrieNode → List Key
  | .nil => []
  | .mk _ c s cc _ => (p ++ [cc]) :: (pathsChain (p ++ [cc]) c ++ pathsChain p s)

theorem pathsChain_length (c : TrieNode) (p : Key) :
    (pathsChain p c).length = listSize c := by
  induction c generalizing p with
  | nil => rfl
  | mk i c1 s cc f ihc ihs =>
      rw [pathsChain, listSize, List.length_cons, List.length_append, ihc, ihs]
      omega

theorem pathsChain_shape (c : TrieNode) (p q : Key) (hq : q ∈ pathsChain p c) :
    ∃ x rest, q = p ++ x :: rest ∧ chainHas c x = true := by
  induction c generalizing p with
  | nil => cases hq
  | mk i c1 s cc f ihc ihs =>
      rw [pathsChain, List.mem_cons, List.mem_append] at hq
      rcases hq with hq | hq | hq
      · exact ⟨cc, [], hq, by simp [chainHas]⟩
      · obtain ⟨x, rest, hqe, -⟩ := ihc (p ++ [cc]) hq
        exact ⟨cc, x :: rest, by rw [hqe, List.append_assoc]; rfl, by simp [chainHas]⟩
      · obtain ⟨x, rest, hqe, hhas⟩ := ihs p hq
        exact ⟨x, rest, hqe, by simp [chainHas, hhas]⟩

theorem pathsChain_nodup (c : TrieNode) (p : Key) (hg : goodChain c = true) :
    (pathsChain p c).Nodup := by
  induction c generalizing p with
  | nil => exact List.nodup_nil
  | mk i c1 s cc f ihc ihs =>
      rw [goodChain, Bool.and_eq_true, Bool.and_eq_true, Bool.not_eq_true'] at hg
      obtain ⟨⟨hgc, hgs⟩, hhas⟩ := hg
      rw [pathsChain, List.nodup_cons]
      constructor
      · intro hmem
        rw [List.mem_append] at hmem
        rcases hmem with hq | hq
        · obtain ⟨x, rest, hqe, -⟩ := pathsChain_shape c1 (p ++ [cc]) _ hq
          have hlen := congrArg List.length hqe
          simp only [List.length_append, List.length_cons, List.length_nil] at hlen
          omega
        · obtain ⟨y, rest', hqe', hhas'⟩ := pathsChain_shape s p _ hq
          have hcy : cc = y := append_cons_head hqe'
          rw [hcy, hhas'] at hhas
          cases hhas
      · refine List.Nodup.append (ihc _ hgc) (ihs _ hgs) ?_
        intro q hqc hqs
        obtain ⟨x, rest, hqe, -⟩ := pathsChain_shape c1 (p ++ [cc]) q hqc
        obtain ⟨y, rest', hqe', hhas'⟩ := pathsChain_shape s p q hqs
        have heq : p ++ cc :: x :: rest = p ++ y :: rest' := by
          rw [← hqe', hqe, List.append_assoc]
          rfl
        have hcy : cc = y := append_cons_head heq
        rw [hcy, hhas'] at hhas
        cases hhas

/-- Membership in the node-path list is exactly resolvability. -/
theorem pathsChain_mem (c : TrieNode) (p q : Key) (hg : goodChain c = true) :
    q ∈ pathsChain p c ↔ ∃ x rest, q = p ++ x :: rest ∧
      trie_get_node (chainFind c x) rest ≠ .nil := by
  induction c generalizing p with
  | nil =>
      constructor
      · intro h; cases h
      · rintro ⟨x, rest, -, hne⟩
        rw [show chainFind .nil x = .nil from rfl, trie_get_node_nil] at hne
        exact absurd rfl hne
  | mk i c1 s cc f ihc ihs =>
      rw [goodChain, Bool.and_eq_true, Bool.and_eq_true, Bool.not_eq_true'] at hg
      obtain ⟨⟨hgc, hgs⟩, hhas⟩ := hg
      have hfindcc : chainFind (.mk i c1 s cc f) cc = .mk i c1 s cc f := by
        rw [chainFind, if_pos rfl]
      rw [pathsChain, List.mem_cons, List.mem_append]
      constructor
      · rintro (hq | hq | hq)
        · refine ⟨cc, [], hq, ?_⟩
          rw [hfindcc]
          intro h0
          cases h0
        · obtain ⟨x, rest, hqe, hne⟩ := (ihc (p ++ [cc]) hgc).mp hq
          refine ⟨cc, x :: rest, by rw [hqe, List.append_assoc]; rfl, ?_⟩
          rw [hfindcc]
          exact hne
        · obtain ⟨x, rest, hqe, hne⟩ := (ihs p hgs).mp hq
          refine ⟨x, rest, hqe, ?_⟩
          have hxne : x ≠ cc := by
            intro hx
            have hfne : chainFind s x ≠ .nil := by
              intro h0
              rw [h0, trie_get_node_nil] at hne
              exact hne rfl
            have hh := chainFind_ne_nil_chainHas s x hfne
            rw [hx] at hh
            rw [hh] at hhas
            cases hhas
          rw [show chainFind (.mk i c1 s cc f) x = chainFind s x from by
            rw [chainFind, if_neg (fun h0 => hxne h0.symm)]]
          exact hne
      · rintro ⟨x, rest, hqe, hne⟩
        by_cases hx : cc = x
        · subst hx
          rw [hfindcc] at hne
          cases rest with
          | nil => exact Or.inl hqe
          | cons y ys =>
              right; left
              apply (ihc (p ++ [cc]) hgc).mpr
              refine ⟨y, ys, by rw [hqe]; simp, ?_⟩
              rw [show trie_get_node (TrieNode.mk i c1 s cc f) (y :: ys)
                = trie_get_node (chainFind c1 y) ys from rfl] at hne
              exact hne
        · right; right
          apply (ihs p hgs).mpr
          rw [show chainFind (.mk i c1 s cc f) x = chainFind s x from by
            rw [chainFind, if_neg hx]] at hne
          exact ⟨x, rest, hqe, hne⟩

/-- In a dead-branch-free tree, below every node lies an item. -/
theorem noDead_ext (n : TrieNode) (hne : n ≠ .nil) (hnd : noDead n = true) :
    ∃ ext, (trie_get_node n ext).item.key ≠ none := by
  induction n with
  | nil => exact absurd rfl hne
  | mk i c s cc f ihc ihs =>
      rw [noDead_decomp _ (by intro h0; cases h0)] at hnd
      obtain ⟨hown, hc, hs⟩ := hnd
      rcases hk : i.key with _ | k0
      · have hcne : c ≠ .nil := by
          rcases hown with h0 | h0
          · exact absurd hk h0
          · exact h0
        obtain ⟨ext, hext⟩ := ihc hcne hc
        cases c with
        | nil => exact absurd rfl hcne
        | mk i2 c2 s2 cc2 f2 =>
            refine ⟨cc2 :: ext, ?_⟩
            have hstep : trie_get_node (TrieNode.mk i (.mk i2 c2 s2 cc2 f2) s cc f)
                (cc2 :: ext) = trie_get_node (TrieNode.mk i2 c2 s2 cc2 f2) ext := by
              rw [show trie_get_node (TrieNode.mk i (.mk i2 c2 s2 cc2 f2) s cc f) (cc2 :: ext)
                = trie_get_node (chainFind (TrieNode.mk i2 c2 s2 cc2 f2) cc2) ext from rfl]
              rw [chainFind, if_pos rfl]
            rw [hstep]
            exact hext
      · refine ⟨[], ?_⟩
        rw [show (trie_get_node (TrieNode.mk i c s cc f) []).item = i from rfl, hk]
        intro h0
        cases h0

theorem noDead_get (p : Key) (n : TrieNode) (hnd : noDead n = true) :
    noDead (trie_get_node n p) = true := by
  induction p generalizing n with
  | nil => exact hnd
  | cons x rest ih =>
      cases n with
      | nil =>
          rw [show trie_get_node .nil (x :: rest) = trie_get_node .nil rest from by
            rw [show trie_get_node TrieNode.nil (x :: rest)
              = trie_get_node (chainFind TrieNode.nil.child x) rest from rfl]
            rfl]
          exact ih .nil rfl
      | mk i c s cc f =>
          rw [noDead_decomp _ (by intro h0; cases h0)] at hnd
          show noDead (trie_get_node (chainFind c x) rest) = true
          exact ih _ (noDead_chainFind c x hnd.2.1)

theorem get_node_prefix_ne_nil (g : TrieNode) (a b : Key)
    (h : trie_get_node g (a ++ b) ≠ .nil) : trie_get_node g a ≠ .nil := by
  intro h0
  rw [get_node_append, h0, trie_get_node_nil] at h
  exact h rfl

/-- Every node path extends to a stored key (dead-branch freedom). -/
theorem paths_extend_key (g : TrieNode) (q : Key)
    (hgch : goodChain g.child = true) (hnd : noDead g.child = true)
    (hq : q ∈ pathsChain [] g.child) :
    ∃ k, k ∈ keysNode g ∧ q <+: k := by
  obtain ⟨x, rest, hqe, hne⟩ := (pathsChain_mem g.child [] q hgch).mp hq
  rw [List.nil_append] at hqe
  have hndm : noDead (trie_get_node (chainFind g.child x) rest) = true :=
    noDead_get rest _ (noDead_chainFind g.child x hnd)
  obtain ⟨ext, hext⟩ := noDead_ext _ hne hndm
  refine ⟨q ++ ext, ?_, List.prefix_append q ext⟩
  rw [keysNode_mem _ _ hgch, hqe]
  rw [show trie_get_node g ((x :: rest) ++ ext)
    = trie_get_node (trie_get_node g (x :: rest)) ext from get_node_append _ _ _]
  rw [show trie_get_node g (x :: rest) = trie_get_node (chainFind g.child x) rest from rfl]
  exact hext

/-- Every nonempty prefix of a stored key is a node path. -/
theorem key_prefix_path (g : TrieNode) (k q : Key)
    (hgch : goodChain g.child = true)
    (hk : k ∈ keysNode g) (hpre : q <+: k) (hq0 : q ≠ []) :
    q ∈ pathsChain [] g.child := by
  have hkne : trie_get_node g k ≠ .nil := by
    intro h0
    have := (keysNode_mem g k hgch).mp hk
    rw [h0] at this
    exact this rfl
  obtain ⟨b, hb⟩ := hpre
  have hqne : trie_get_node g q ≠ .nil := by
    apply get_node_prefix_ne_nil g q b
    rw [hb]
    exact hkne
  cases q with
  | nil => exact absurd rfl hq0
  | cons x rest =>
      apply (pathsChain_mem g.child [] _ hgch).mpr
      exact ⟨x, rest, rfl, hqne⟩

/-- The nonempty prefixes of a key (the edges of its root path). -/
def nePrefixes (k : Key) : List Key :=
  (List.range k.length).map (fun i => k.take (i + 1))

theorem nePrefixes_mem (k q : Key) : q ∈ nePrefixes k ↔ q ≠ [] ∧ q <+: k := by
  rw [nePrefixes, List.mem_map]
  constructor
  · rintro ⟨i, hi, rfl⟩
    rw [List.mem_range] at hi
    constructor
    · intro h0
      have hlen := congrArg List.length h0
      rw [List.length_take] at hlen
      simp only [List.length_nil] at hlen
      omega
    · exact List.take_prefix _ _
  · rintro ⟨hq0, hpre⟩
    have hlen : q.length ≤ k.length := hpre.length_le
    have hpos : 0 < q.length := List.length_pos.mpr hq0
    refine ⟨q.length - 1, by rw [List.mem_range]; omega, ?_⟩
    have : k.take q.length = q := List.prefix_iff_eq_take.mp hpre |>.symm
    rw [show q.length - 1 + 1 = q.length from by omega, this]

/-- Structural node count = number of edges in the union of the stored
keys' root paths. -/
theorem listSize_eq_edges (g : TrieNode) (hg : goodRootNode g)
    (hnd : noDead g.child = true) :
    listSize g.child
      = ((keysNode g).toFinset.biUnion (fun k => (nePrefixes k).toFinset)).card := by
  have hgch : goodChain g.child = true := hg.2.2.1
  have hset : (pathsChain [] g.child).toFinset
      = (keysNode g).toFinset.biUnion (fun k => (nePrefixes k).toFinset) := by
    apply Finset.ext
    intro q
    rw [List.mem_toFinset, Finset.mem_biUnion]
    constructor
    · intro hq
      obtain ⟨k, hk, hpre⟩ := paths_extend_key g q hgch hnd hq
      refine ⟨k, List.mem_toFinset.mpr hk, List.mem_toFinset.mpr ?_⟩
      rw [nePrefixes_mem]
      refine ⟨?_, hpre⟩
      obtain ⟨x, rest, hqe, -⟩ := pathsChain_shape g.child [] q hq
      rw [hqe]
      intro h0
      cases h0
    · rintro ⟨k, hk, hq⟩
      rw [List.mem_toFinset] at hk hq
      rw [nePrefixes_mem] at hq
      exact key_prefix_path g k q hgch hk hq.2 hq.1
  rw [← hset, List.toFinset_card_of_nodup (pathsChain_nodup g.child [] hgch),
    pathsChain_length]

/-- Structural item count = number of distinct stored keys. -/
theorem countNode_eq_card (g : TrieNode) (hg : goodRootNode g) :
    countNode g = (keysNode g).toFinset.card := by
  rw [List.toFinset_card_of_nodup (keysNode_nodup g hg), keysNode_length]

theorem itemsChain_length (c : TrieNode) : (itemsChain c).length = countKeys c := by
  induction c with
  | nil => rfl
  | mk i c1 s cc f ihc ihs =>
      rw [itemsChain, countKeys, List.length_append, List.length_append, ihc, ihs]
      rcases i.key with _ | k <;> simp

theorem itemsNode_length (g : TrieNode) : (itemsNode g).length = countNode g := by
  rw [itemsNode, countNode, List.length_append, itemsChain_length]
  rcases g.item.key with _ | k <;> simp

/- ------------------------------------------------------------------ -/
/- Operation sequences (claim C5)                                      -/
/- ------------------------------------------------------------------ -/

/-- A mutating API call. -/
inductive Op where
  | set (k : Key) (v : Value) (d : Bool)
  | del (k : Key) (d : Bool)

/-- Apply one call to a store (ignoring the reported values). -/
def applyOp (root : TrieRoot) : Op → TrieRoot
  | .set k v d => (trie_set_item root k v d).1
  | .del k d => (trie_del_item root k d).1

/-- The store after a sequence of calls starting from `trie_new`. -/
def applyOps (ops : List Op) : TrieRoot := ops.foldl applyOp trie_new

/-- The specification-side key set: keys set and not subsequently
deleted. -/
def stepKeys (S : Finset Key) : Op → Finset Key
  | .set k _ _ => insert k S
  | .del k _ => S.erase k

def liveKeys (ops : List Op) : Finset Key := ops.foldl stepKeys ∅

theorem applyOps_inv_go (ops : List Op) :
    ∀ (root : TrieRoot) (S : Finset Key), StoreInv root →
      (∀ p, trie_has_key root p = true ↔ p ∈ S) →
      StoreInv (ops.foldl applyOp root) ∧
      (∀ p, trie_has_key (ops.foldl applyOp root) p = true ↔ p ∈ ops.foldl stepKeys S) := by
  induction ops with
  | nil => exact fun root S hinv hmem => ⟨hinv, hmem⟩
  | cons op ops ih =>
      intro root S hinv hmem
      cases op with
      | set k v d =>
          obtain ⟨hinv', hmem'⟩ := StoreInv_set root k v d hinv
          refine ih _ (insert k S) hinv' ?_
          intro p
          rw [show applyOp root (Op.set k v d) = (trie_set_item root k v d).1 from rfl]
          rw [hmem' p, hmem p, Finset.mem_insert]
      | del k d =>
          obtain ⟨hinv', hmem'⟩ := StoreInv_del root k d hinv
          refine ih _ (S.erase k) hinv' ?_
          intro p
          rw [show applyOp root (Op.del k d) = (trie_del_item root k d).1 from rfl]
          rw [hmem' p, hmem p, Finset.mem_erase]

theorem trie_new_has_key (p : Key) : trie_has_key trie_new p = false := by
  rw [trie_has_key]
  cases p with
  | nil => rfl
  | cons x rest =>
      rw [show trie_get_node trie_new.node (x :: rest)
        = trie_get_node (chainFind TrieNode.nil x) rest from rfl]
      rw [show chainFind TrieNode.nil x = TrieNode.nil from rfl, trie_get_node_nil]
      rfl

/-- C5: after any sequence of set/del operations starting from a new
store, `num_items` equals the number of distinct keys set and not
subsequently deleted, and `num_nodes` equals the number of edges in the
union of the root-to-key paths of the remaining keys; equivalently,
`num_items` counts the item-bearing nodes and `num_nodes` the non-root
nodes reachable from the root. -/
theorem C5_counters (ops : List Op) :
    (applyOps ops).num_items = (liveKeys ops).card ∧
    (applyOps ops).num_nodes
      = ((liveKeys ops).biUnion (fun k => (nePrefixes k).toFinset)).card ∧
    (applyOps ops).num_items = (itemsNode (applyOps ops).node).length ∧
    (applyOps ops).num_nodes = listSize (applyOps ops).node.child := by
  have hinit : ∀ p, trie_has_key trie_new p = true ↔ p ∈ (∅ : Finset Key) := by
    intro p
    rw [trie_new_has_key]
    simp
  obtain ⟨hinv, hmem⟩ := applyOps_inv_go ops trie_new ∅ StoreInv_new hinit
  obtain ⟨hg, hnd, hitems, hnodes⟩ := hinv
  rw [show applyOps ops = ops.foldl applyOp trie_new from rfl]
  have hS : (keysNode (ops.foldl applyOp trie_new).node).toFinset = liveKeys ops := by
    apply Finset.ext
    intro p
    rw [List.mem_toFinset]
    rw [keysNode_mem _ _ hg.2.2.1, ← trie_has_key_iff]
    rw [show liveKeys ops = ops.foldl stepKeys ∅ from rfl]
    exact hmem p
  refine ⟨?_, ?_, ?_, ?_⟩
  · rw [hitems, countNode_eq_card _ hg, hS]
  · rw [hnodes, listSize_eq_edges _ hg hnd, hS]
  · rw [hitems, itemsNode_length]
  · exact hnodes

/- ------------------------------------------------------------------ -/
/- Hamming distance (claims C2 and C1)                                 -/
/- ------------------------------------------------------------------ -/

/-- Number of positions at which two equal-length strings differ. -/
def hamming : Key → Key → Nat
  | x :: xs, y :: ys => (if x = y then 0 else 1) + hamming xs ys
  | _, _ => 0

@[simp] theorem hamming_self (a : Key) : hamming a a = 0 := by
  induction a with
  | nil => rfl
  | cons x xs ih => rw [hamming, if_pos rfl, ih]

@[simp] theorem hamming_nil_left (b : Key) : hamming [] b = 0 := rfl

theorem hamming_snoc (a b : Key) (x y : TRIECHAR) (h : a.length = b.length) :
    hamming (a ++ [x]) (b ++ [y]) = hamming a b + (if x = y then 0 else 1) := by
  induction a generalizing b with
  | nil =>
      cases b with
      | nil => simp [hamming]
      | cons z zs => cases h
  | cons z zs ih =>
      cases b with
      | nil => cases h
      | cons w ws =>
          rw [List.length_cons, List.length_cons] at h
          rw [List.cons_append, List.cons_append, hamming, hamming,
            ih ws (by omega)]
          omega

theorem hamming_take_le (a b : Key) (d : Nat) :
    hamming (a.take d) (b.take d) ≤ hamming a b := by
  induction a generalizing b d with
  | nil => simp [hamming]
  | cons x xs ih =>
      cases d with
      | zero => simp [hamming]
      | succ d' =>
          cases b with
          | nil => simp [hamming]
          | cons y ys =>
              rw [List.take_succ_cons, List.take_succ_cons, hamming, hamming]
              have := ih ys d'
              omega

theorem take_getD_snoc (l : Key) (d : Nat) (h : d < l.length) :
    l.take (d + 1) = l.take d ++ [l.getD d 0] := by
  induction l generalizing d with
  | nil => cases h
  | cons x xs ih =>
      cases d with
      | zero => rfl
      | succ d' =>
          rw [List.length_cons] at h
          rw [List.take_succ_cons, List.take_succ_cons, ih d' (by omega)]
          rfl

theorem hamming_ne_of_pos (a b : Key) (h : 0 < hamming a b) : a ≠ b := by
  intro h0
  rw [h0, hamming_self] at h
  omega

/- ------------------------------------------------------------------ -/
/- Reference semantics of the neighbors DFS (claim C2)                 -/
/- ------------------------------------------------------------------ -/

/-- What the neighbors DFS emits for a sibling chain whose parent sits
at depth `depth` with `hd` accumulated mismatches. -/
def nbrRefChain (qit : TrieItem) (qk : Key) (maxhd L : Nat) :
    TrieNode → Nat → Nat → List TrieSearchResult
  | .nil, _, _ => []
  | .mk i c s cc _, hd, depth =>
      nbrRefChain qit qk maxhd L s hd depth ++
        (if cc = qk.getD depth 0 then
           if depth + 1 = L then
             (match i.key with
              | some _ => if hd = 0 then [] else [⟨qit, i, hd⟩]
              | none => [])
           else nbrRefChain qit qk maxhd L c hd (depth + 1)
         else if hd < maxhd then
           if depth + 1 = L then
             (match i.key with
              | some _ => [⟨qit, i, hd + 1⟩]
              | none => [])
           else nbrRefChain qit qk maxhd L c (hd + 1) (depth + 1)
         else [])

/-- What the neighbors DFS emits for one pending frame. -/
def frameRefN (g : TrieNode) (maxhd L : Nat) (f : Frame) : List TrieSearchResult :=
  if f.depth = L then
    (match (trie_get_node g f.node).item.key with
     | some _ =>
         if f.hd = 0 then []
         else [⟨(trie_get_node g f.query).item, (trie_get_node g f.node).item, f.hd⟩]
     | none => [])
  else
    nbrRefChain (trie_get_node g f.query).item
      ((trie_get_node g f.query).item.key.getD []) maxhd L
      (trie_get_node g f.node).child f.hd f.depth

def joinFramesN (g : TrieNode) (maxhd L : Nat) (s : List Frame) : List TrieSearchResult :=
  (s.map (frameRefN g maxhd L)).flatten

@[simp] theorem joinFramesN_nil (g : TrieNode) (maxhd L : Nat) :
    joinFramesN g maxhd L [] = [] := rfl

theorem joinFramesN_cons (g : TrieNode) (maxhd L : Nat) (f : Frame) (s : List Frame) :
    joinFramesN g maxhd L (f :: s) = frameRefN g maxhd L f ++ joinFramesN g maxhd L s := by
  simp [joinFramesN]

theorem joinFramesN_append (g : TrieNode) (maxhd L : Nat) (a b : List Frame) :
    joinFramesN g maxhd L (a ++ b) = joinFramesN g maxhd L a ++ joinFramesN g maxhd L b := by
  simp [joinFramesN]

/-- Expanding a node's children under the neighbor rule replaces it by
frames whose combined reference output is the chain's. -/
theorem joinFramesN_chainFramesN (g : TrieNode) (maxhd L : Nat) (base query : Key)
    (hd depth : Nat) (csub : TrieNode) (hgood : goodChain csub = true)
    (hagree : ∀ x, chainHas csub x = true →
      chainFind (trie_get_node g base).child x = chainFind csub x) :
    joinFramesN g maxhd L
      (chainFramesN csub base query ((trie_get_node g query).item.key.getD [])
        hd depth maxhd).reverse
      = nbrRefChain (trie_get_node g query).item
          ((trie_get_node g query).item.key.getD []) maxhd L csub hd depth := by
  induction csub with
  | nil => rfl
  | mk i c1 s cc f ihc ihs =>
      rw [goodChain, Bool.and_eq_true, Bool.and_eq_true, Bool.not_eq_true'] at hgood
      obtain ⟨⟨hgc, hgs⟩, hhas⟩ := hgood
      have hagree_s : ∀ x, chainHas s x = true →
          chainFind (trie_get_node g base).child x = chainFind s x := by
        intro x hx
        have hxcc : ¬(cc = x) := by
          intro h
          rw [← h] at hx
          rw [hx] at hhas
          cases hhas
        have h1 := hagree x (by rw [chainHas]; simp [hx])
        rw [h1, chainFind, if_neg hxcc]
      have hderef : trie_get_node g (base ++ [cc]) = .mk i c1 s cc f := by
        rw [get_node_append]
        rw [show trie_get_node (trie_get_node g base) [cc]
          = chainFind (trie_get_node g base).child cc from rfl]
        rw [hagree cc (by rw [chainHas]; simp), chainFind, if_pos rfl]
      rw [nbrRefChain, ← ihs hgs hagree_s]
      rw [chainFramesN]
      by_cases hcc : cc = ((trie_get_node g query).item.key.getD []).getD depth 0
      · rw [if_pos hcc, List.reverse_cons, joinFramesN_append]
        congr 1
        rw [show joinFramesN g maxhd L [⟨base ++ [cc], query, hd, depth + 1⟩]
          = frameRefN g maxhd L ⟨base ++ [cc], query, hd, depth + 1⟩ ++ [] from rfl,
          List.append_nil]
        rw [frameRefN]
        rw [show (Frame.mk (base ++ [cc]) query hd (depth + 1)).depth = depth + 1 from rfl,
          show (Frame.mk (base ++ [cc]) query hd (depth + 1)).node = base ++ [cc] from rfl,
          show (Frame.mk (base ++ [cc]) query hd (depth + 1)).query = query from rfl,
          show (Frame.mk (base ++ [cc]) query hd (depth + 1)).hd = hd from rfl,
          hderef, if_pos hcc]
        by_cases hL : depth + 1 = L
        · rw [if_pos hL, if_pos hL]
          simp only [TrieNode.item]
        · rw [if_neg hL, if_neg hL]
          rfl
      · rw [if_neg hcc]
        by_cases hlt : hd < maxhd
        · rw [if_pos hlt, List.reverse_cons, joinFramesN_append]
          congr 1
          rw [show joinFramesN g maxhd L [⟨base ++ [cc], query, hd + 1, depth + 1⟩]
            = frameRefN g maxhd L ⟨base ++ [cc], query, hd + 1, depth + 1⟩ ++ [] from rfl,
            List.append_nil]
          rw [frameRefN]
          rw [show (Frame.mk (base ++ [cc]) query (hd + 1) (depth + 1)).depth
              = depth + 1 from rfl,
            show (Frame.mk (base ++ [cc]) query (hd + 1) (depth + 1)).node
              = base ++ [cc] from rfl,
            show (Frame.mk (base ++ [cc]) query (hd + 1) (depth + 1)).query = query from rfl,
            show (Frame.mk (base ++ [cc]) query (hd + 1) (depth + 1)).hd = hd + 1 from rfl,
            hderef, if_neg hcc, if_pos hlt]
          by_cases hL : depth + 1 = L
          · rw [if_pos hL, if_pos hL]
            simp only [TrieNode.item]
            rcases hk : i.key with _ | k0
            · rfl
            · rw [if_neg (by omega : ¬(hd + 1 = 0))]
          · rw [if_neg hL, if_neg hL]
            rfl
        · rw [if_neg hlt, if_neg hcc, if_neg hlt, List.append_nil]

/-- When the neighbors DFS step emits nothing, it has emptied the
stack. -/
theorem neighbors_next_none_stack (g : TrieNode) (maxhd L : Nat) (stack : List Frame)
    (h : (trieiter_neighbors_next g maxhd L stack).1 = none) :
    (trieiter_neighbors_next g maxhd L stack).2 = [] := by
  induction stack using trieiter_neighbors_next.induct g maxhd L with
  | case1 => simp [trieiter_neighbors_next]
  | case2 f rest hdep n hskip ih =>
      have hskip' : (trie_get_node g f.node).item.key = none ∨ f.hd = 0 := hskip
      have hunf : trieiter_neighbors_next g maxhd L (f :: rest)
          = trieiter_neighbors_next g maxhd L rest := by
        conv_lhs => rw [trieiter_neighbors_next]
        rw [if_pos hdep, if_pos hskip']
      rw [hunf] at h ⊢
      exact ih h
  | case3 f rest hdep n hemit =>
      have hemit' : ¬((trie_get_node g f.node).item.key = none ∨ f.hd = 0) := hemit
      have hunf : trieiter_neighbors_next g maxhd L (f :: rest)
          = (some ⟨(trie_get_node g f.query).item, (trie_get_node g f.node).item, f.hd⟩,
             rest) := by
        conv_lhs => rw [trieiter_neighbors_next]
        rw [if_pos hdep, if_neg hemit']
      rw [hunf] at h
      cases h
  | case4 f rest hdep n qk ih =>
      have hunf : trieiter_neighbors_next g maxhd L (f :: rest)
          = trieiter_neighbors_next g maxhd L
              ((chainFramesN (trie_get_node g f.node).child f.node f.query
                ((trie_get_node g f.query).item.key.getD []) f.hd f.depth maxhd).reverse
                ++ rest) := by
        conv_lhs => rw [trieiter_neighbors_next]
        rw [if_neg hdep]
      rw [hunf] at h ⊢
      exact ih h

/-- One neighbors DFS step peels the head of the stack's reference
output. -/
theorem neighbors_next_join (g : TrieNode) (maxhd L : Nat)
    (hg : goodChain g.child = true) (stack : List Frame) :
    joinFramesN g maxhd L stack =
      (match (trieiter_neighbors_next g maxhd L stack).1 with
       | some r => [r] | none => []) ++
      joinFramesN g maxhd L (trieiter_neighbors_next g maxhd L stack).2 := by
  induction stack using trieiter_neighbors_next.induct g maxhd L with
  | case1 => simp [trieiter_neighbors_next]
  | case2 f rest hdep n hskip ih =>
      have hskip' : (trie_get_node g f.node).item.key = none ∨ f.hd = 0 := hskip
      have hunf : trieiter_neighbors_next g maxhd L (f :: rest)
          = trieiter_neighbors_next g maxhd L rest := by
        conv_lhs => rw [trieiter_neighbors_next]
        rw [if_pos hdep, if_pos hskip']
      rw [hunf, joinFramesN_cons, ← ih]
      have hfr : frameRefN g maxhd L f = [] := by
        rw [frameRefN, if_pos hdep]
        rcases hskip' with h0 | h0
        · rw [h0]
        · rcases hk : (trie_get_node g f.node).item.key with _ | k0
          · rfl
          · rw [if_pos h0]
      rw [hfr, List.nil_append]
  | case3 f rest hdep n hemit =>
      have hemit' : ¬((trie_get_node g f.node).item.key = none ∨ f.hd = 0) := hemit
      rw [not_or] at hemit'
      have hunf : trieiter_neighbors_next g maxhd L (f :: rest)
          = (some ⟨(trie_get_node g f.query).item, (trie_get_node g f.node).item, f.hd⟩,
             rest) := by
        conv_lhs => rw [trieiter_neighbors_next]
        rw [if_pos hdep, if_neg (by rw [not_or]; exact hemit')]
      rw [hunf, joinFramesN_cons]
      have hfr : frameRefN g maxhd L f
          = [⟨(trie_get_node g f.query).item, (trie_get_node g f.node).item, f.hd⟩] := by
        rw [frameRefN, if_pos hdep]
        rcases hk : (trie_get_node g f.node).item.key with _ | k0
        · exact absurd hk hemit'.1
        · rw [if_neg hemit'.2]
      rw [hfr]
  | case4 f rest hdep n qk ih =>
      have hB := joinFramesN_chainFramesN g maxhd L f.node f.query f.hd f.depth
        (trie_get_node g f.node).child (goodChain_get_node f.node g hg) (fun x _ => rfl)
      have hunf : trieiter_neighbors_next g maxhd L (f :: rest)
          = trieiter_neighbors_next g maxhd L
              ((chainFramesN (trie_get_node g f.node).child f.node f.query
                ((trie_get_node g f.query).item.key.getD []) f.hd f.depth maxhd).reverse
                ++ rest) := by
        conv_lhs => rw [trieiter_neighbors_next]
        rw [if_neg hdep]
      rw [hunf, ← ih, joinFramesN_cons, joinFramesN_append, hB]
      rw [frameRefN, if_neg hdep]

/-- A clean, in-sync neighbors iterator exhausts to exactly the
reference output of its stack. -/
theorem neighbors_exhaust_join (root : TrieRoot) (hg : goodChain root.node.child = true) :
    ∀ (N : Nat) (it : TrieIter), stackMeasure root.node it.stack ≤ N →
      it.kind = .neighbors → it.is_dirty = false → it.trie_state_id = root.state_id →
      (trieiter_exhaust root it).1
        = joinFramesN root.node it.maxhd it.target_depth it.stack := by
  intro N
  induction N using Nat.strong_induction_on with
  | _ N ihN =>
      intro it hm hkind hdirty hsid
      have hnext : trieiter_next root it
          = ((trieiter_neighbors_next root.node it.maxhd it.target_depth it.stack).1, root,
             { it with stack :=
                (trieiter_neighbors_next root.node it.maxhd it.target_depth it.stack).2 }) := by
        rw [trieiter_next, if_neg (by simp [hsid]), if_neg (by simp [hdirty]), hkind]
      rcases hr1 : (trieiter_neighbors_next root.node it.maxhd it.target_depth it.stack).1
        with _ | res
      · rw [hr1] at hnext
        rw [trieiter_exhaust_none root it root _ hnext]
        have hj := neighbors_next_join root.node it.maxhd it.target_depth hg it.stack
        rw [hr1, neighbors_next_none_stack root.node it.maxhd it.target_depth it.stack hr1]
          at hj
        simpa using hj.symm
      · rw [hr1] at hnext
        rw [trieiter_exhaust_some root it res root
          { it with stack :=
            (trieiter_neighbors_next root.node it.maxhd it.target_depth it.stack).2 } hnext]
        have hlt : stackMeasure root.node
            (trieiter_neighbors_next root.node it.maxhd it.target_depth it.stack).2
            < stackMeasure root.node it.stack := by
          apply trieiter_neighbors_next_lt root.node it.maxhd it.target_depth it.stack res
          rw [← hr1]
        have hrec := ihN (stackMeasure root.node
            (trieiter_neighbors_next root.node it.maxhd it.target_depth it.stack).2)
          (lt_of_lt_of_le hlt hm)
          { it with stack :=
            (trieiter_neighbors_next root.node it.maxhd it.target_depth it.stack).2 }
          le_rfl hkind hdirty hsid
        rw [hrec]
        have hj := neighbors_next_join root.node it.maxhd it.target_depth hg it.stack
        rw [hr1] at hj
        simpa using hj.symm

/-- The neighbors DFS on a chain emits exactly the stored keys of full
length within Hamming distance `maxhd`, each with its true distance. -/
theorem nbrRefChain_spec (qit : TrieItem) (qk : Key) (maxhd L : Nat) :
    ∀ (c : TrieNode) (p : Key) (hd depth : Nat),
      goodChain c = true → itemsOk c p = true →
      p.length = depth → depth < L → qk.length = L →
      hd = hamming (qk.take depth) p → hd ≤ maxhd →
      (∀ r ∈ nbrRefChain qit qk maxhd L c hd depth,
          r.query = qit ∧ ∃ t, r.target.key = some t ∧ t ∈ keysChain p c ∧ t.length = L ∧
            r.hd = hamming qk t ∧ 0 < r.hd ∧ r.hd ≤ maxhd) ∧
      ((nbrRefChain qit qk maxhd L c hd depth).map (fun r => r.target.key)).Nodup ∧
      (∀ t, t ∈ keysChain p c → t.length = L → 0 < hamming qk t → hamming qk t ≤ maxhd →
          some t ∈ (nbrRefChain qit qk maxhd L c hd depth).map (fun r => r.target.key)) := by
  intro c
  induction c with
  | nil =>
      intro p hd depth hg hok hlen hdep hqk hhd hmax
      refine ⟨?_, List.nodup_nil, ?_⟩
      · intro r hr; cases hr
      · intro t ht; cases ht
  | mk i c1 s cc f ihc ihs =>
      intro p hd depth hg hok hlen hdep hqk hhd hmax
      rw [goodChain, Bool.and_eq_true, Bool.and_eq_true, Bool.not_eq_true'] at hg
      obtain ⟨⟨hgc, hgs⟩, hhas⟩ := hg
      rw [itemsOk, Bool.and_assoc, Bool.and_eq_true, Bool.and_eq_true] at hok
      obtain ⟨hown, hokc, hoks⟩ := hok
      have hdlt : depth < qk.length := by omega
      have htake : (qk.take depth).length = p.length := by
        rw [List.length_take]
        omega
      have hamH : hamming (qk.take (depth + 1)) (p ++ [cc])
          = hd + (if cc = qk.getD depth 0 then 0 else 1) := by
        rw [take_getD_snoc qk depth hdlt, hamming_snoc _ _ _ _ htake, ← hhd]
        by_cases hcc : cc = qk.getD depth 0
        · rw [if_pos hcc, if_pos hcc.symm]
        · rw [if_neg hcc, if_neg (fun h0 => hcc h0.symm)]
      have htakeL : qk.take L = qk := by
        rw [← hqk, List.take_length]
      have hspell : ∀ k0, i.key = some k0 → k0 = p ++ [cc] := by
        intro k0 hk0
        rw [hk0] at hown
        simpa using hown
      -- the branch part of the reference output
      obtain ⟨ihsA, ihsB, ihsC⟩ := ihs p hd depth hgs hoks hlen hdep hqk hhd hmax
      have hBspec :
          (∀ r ∈ (if cc = qk.getD depth 0 then
               if depth + 1 = L then
                 (match i.key with
                  | some _ => if hd = 0 then [] else [(⟨qit, i, hd⟩ : TrieSearchResult)]
                  | none => [])
               else nbrRefChain qit qk maxhd L c1 hd (depth + 1)
             else if hd < maxhd then
               if depth + 1 = L then
                 (match i.key with
                  | some _ => [(⟨qit, i, hd + 1⟩ : TrieSearchResult)]
                  | none => [])
               else nbrRefChain qit qk maxhd L c1 (hd + 1) (depth + 1)
             else []),
            r.query = qit ∧ ∃ t, r.target.key = some t ∧
              (t = p ++ [cc] ∧ i.key = some t ∨ t ∈ keysChain (p ++ [cc]) c1) ∧
              t.length = L ∧ r.hd = hamming qk t ∧ 0 < r.hd ∧ r.hd ≤ maxhd) := by
        by_cases hcc : cc = qk.getD depth 0
        · rw [if_pos hcc]
          by_cases hL : depth + 1 = L
          · rw [if_pos hL]
            rcases hk : i.key with _ | k0
            · intro r hr; cases hr
            · by_cases hz : hd = 0
              · rw [if_pos hz]
                intro r hr; cases hr
              · rw [if_neg hz]
                intro r hr
                have hre : r = ⟨qit, i, hd⟩ := by simpa using hr
                subst hre
                have hk0 : k0 = p ++ [cc] := hspell k0 hk
                refine ⟨rfl, p ++ [cc], by rw [show (⟨qit, i, hd⟩ :
                    TrieSearchResult).target = i from rfl, hk, hk0], Or.inl ⟨rfl, by
                    rw [hk0]⟩, ?_, ?_, (by show 0 < hd; omega), hmax⟩
                · rw [List.length_append, hlen]
                  simpa using hL
                · show hd = hamming qk (p ++ [cc])
                  rw [← htakeL, ← hL, hamH, if_pos hcc]
                  try omega
          · rw [if_neg hL]
            intro r hr
            obtain ⟨hq, t, ht1, ht2, ht3, ht4, ht5, ht6⟩ :=
              (ihc (p ++ [cc]) hd (depth + 1) hgc hokc
                (by rw [List.length_append, hlen]; rfl)
                (by omega) hqk (by rw [hamH, if_pos hcc]; try omega) hmax).1 r hr
            exact ⟨hq, t, ht1, Or.inr ht2, ht3, ht4, ht5, ht6⟩
        · rw [if_neg hcc]
          by_cases hlt : hd < maxhd
          · rw [if_pos hlt]
            by_cases hL : depth + 1 = L
            · rw [if_pos hL]
              rcases hk : i.key with _ | k0
              · intro r hr; cases hr
              · intro r hr
                have hre : r = ⟨qit, i, hd + 1⟩ := by simpa using hr
                subst hre
                have hk0 : k0 = p ++ [cc] := hspell k0 hk
                refine ⟨rfl, p ++ [cc], by rw [show (⟨qit, i, hd + 1⟩ :
                    TrieSearchResult).target = i from rfl, hk, hk0], Or.inl ⟨rfl, by
                    rw [hk0]⟩, ?_, ?_, (by show 0 < hd + 1; omega),
                    (by show hd + 1 ≤ maxhd; omega)⟩
                · rw [List.length_append, hlen]
                  simpa using hL
                · show hd + 1 = hamming qk (p ++ [cc])
                  rw [← htakeL, ← hL, hamH, if_neg hcc]
                  try omega
            · rw [if_neg hL]
              intro r hr
              obtain ⟨hq, t, ht1, ht2, ht3, ht4, ht5, ht6⟩ :=
                (ihc (p ++ [cc]) (hd + 1) (depth + 1) hgc hokc
                  (by rw [List.length_append, hlen]; rfl)
                  (by omega) hqk (by rw [hamH, if_neg hcc]; try omega) (by omega)).1 r hr
              exact ⟨hq, t, ht1, Or.inr ht2, ht3, ht4, ht5, ht6⟩
          · rw [if_neg hlt]
            intro r hr; cases hr
      refine ⟨?_, ?_, ?_⟩
      · -- soundness
        intro r hr
        rw [nbrRefChain, List.mem_append] at hr
        rcases hr with hr | hr
        · obtain ⟨hq, t, ht1, ht2, ht3, ht4, ht5, ht6⟩ := ihsA r hr
          refine ⟨hq, t, ht1, ?_, ht3, ht4, ht5, ht6⟩
          rw [keysChain, List.append_assoc, List.mem_append, List.mem_append]
          exact Or.inr (Or.inr ht2)
        · obtain ⟨hq, t, ht1, ht2, ht3, ht4, ht5, ht6⟩ := hBspec r hr
          refine ⟨hq, t, ht1, ?_, ht3, ht4, ht5, ht6⟩
          rw [keysChain, List.append_assoc, List.mem_append, List.mem_append]
          rcases ht2 with ⟨h0, hik⟩ | h0
          · left
            rw [hik]
            simp [h0]
          · exact Or.inr (Or.inl h0)
      · -- each key once
        rw [nbrRefChain, List.map_append]
        refine List.Nodup.append ihsB ?_ ?_
        · by_cases hcc : cc = qk.getD depth 0
          · rw [if_pos hcc]
            by_cases hL : depth + 1 = L
            · rw [if_pos hL]
              rcases hk : i.key with _ | k0
              · exact List.nodup_nil
              · by_cases hz : hd = 0
                · rw [if_pos hz]
                  exact List.nodup_nil
                · rw [if_neg hz]
                  exact List.nodup_singleton _
            · rw [if_neg hL]
              exact (ihc (p ++ [cc]) hd (depth + 1) hgc hokc
                (by rw [List.length_append, hlen]; rfl) (by omega) hqk
                (by rw [hamH, if_pos hcc]; try omega) hmax).2.1
          · rw [if_neg hcc]
            by_cases hlt : hd < maxhd
            · rw [if_pos hlt]
              by_cases hL : depth + 1 = L
              · rw [if_pos hL]
                rcases hk : i.key with _ | k0
                · exact List.nodup_nil
                · exact List.nodup_singleton _
              · rw [if_neg hL]
                exact (ihc (p ++ [cc]) (hd + 1) (depth + 1) hgc hokc
                  (by rw [List.length_append, hlen]; rfl) (by omega) hqk
                  (by rw [hamH, if_neg hcc]; try omega) (by omega)).2.1
            · rw [if_neg hlt]
              exact List.nodup_nil
        · intro a ha hb
          rw [List.mem_map] at ha hb
          obtain ⟨r1, hr1, hk1⟩ := ha
          obtain ⟨r2, hr2, hk2⟩ := hb
          obtain ⟨-, t1, ht1, hmem1, -⟩ := ihsA r1 hr1
          obtain ⟨-, t2, ht2, hmem2, -⟩ := hBspec r2 hr2
          rw [ht1] at hk1
          rw [ht2] at hk2
          have htt : t1 = t2 := Option.some_injective _ (hk1.trans hk2.symm)
          obtain ⟨y, rest1, he1, hhas1⟩ := keysChain_shape s p t1 hmem1
          have hstart : ∃ tail, t2 = p ++ cc :: tail := by
            rcases hmem2 with ⟨h0, -⟩ | h0
            · exact ⟨[], h0⟩
            · obtain ⟨x, rest2, he2, -⟩ := keysChain_shape c1 (p ++ [cc]) t2 h0
              exact ⟨x :: rest2, by rw [he2, List.append_assoc]; rfl⟩
          obtain ⟨tail, he2⟩ := hstart
          have hycc : y = cc := append_cons_head (he1.symm.trans (htt.trans he2))
          rw [hycc] at hhas1
          rw [hhas1] at hhas
          cases hhas
      · -- completeness
        intro t ht htL hpos hle
        rw [keysChain, List.append_assoc, List.mem_append, List.mem_append] at ht
        rw [nbrRefChain, List.map_append, List.mem_append]
        rcases ht with hto | htc | hts
        · rcases hk : i.key with _ | k0 <;> rw [hk] at hto
          · cases hto
          · have hteq : t = p ++ [cc] := by simpa using hto
            have hL : depth + 1 = L := by
              rw [hteq, List.length_append, hlen] at htL
              simpa using htL
            have hham : hamming qk t = hd + (if cc = qk.getD depth 0 then 0 else 1) := by
              have h0 := hamH
              rw [hL, htakeL] at h0
              rw [hteq]
              exact h0
            right
            by_cases hcc : cc = qk.getD depth 0
            · rw [if_pos hcc] at hham
              rw [if_pos hcc, if_pos hL]
              have hz : ¬hd = 0 := by omega
              simp [hz, hk, hspell k0 hk, hteq]
            · rw [if_neg hcc] at hham
              have hlt : hd < maxhd := by omega
              rw [if_neg hcc, if_pos hlt, if_pos hL]
              simp [hk, hspell k0 hk, hteq]
        · obtain ⟨x, rest2, he2, -⟩ := keysChain_shape c1 (p ++ [cc]) t htc
          have hL : ¬depth + 1 = L := by
            have hlen2 := congrArg List.length he2
            rw [htL] at hlen2
            simp only [List.length_append, List.length_cons, List.length_nil] at hlen2
            omega
          right
          have htake1 : t.take (depth + 1) = p ++ [cc] := by
            rw [he2]
            rw [show depth + 1 = (p ++ [cc]).length from by
              rw [List.length_append, hlen]; rfl]
            exact List.take_left _ _
          by_cases hcc : cc = qk.getD depth 0
          · rw [if_pos hcc, if_neg hL]
            exact (ihc (p ++ [cc]) hd (depth + 1) hgc hokc
              (by rw [List.length_append, hlen]; rfl) (by omega) hqk
              (by rw [hamH, if_pos hcc]; try omega) hmax).2.2 t htc htL hpos hle
          · have hpre : hd + 1 ≤ hamming qk t := by
              have hmono := hamming_take_le qk t (depth + 1)
              rw [htake1, hamH, if_neg hcc] at hmono
              omega
            have hlt : hd < maxhd := by omega
            rw [if_neg hcc, if_pos hlt, if_neg hL]
            exact (ihc (p ++ [cc]) (hd + 1) (depth + 1) hgc hokc
              (by rw [List.length_append, hlen]; rfl) (by omega) hqk
              (by rw [hamH, if_neg hcc]; try omega) (by omega)).2.2 t htc htL hpos hle
        · left
          exact ihsC t hts htL hpos hle

theorem trieiter_neighbors_inv_full (root : TrieRoot) (k : Key) (maxhd : Nat) (id : Nat)
    (it : TrieIter) (root₁ : TrieRoot)
    (h : trieiter_neighbors root k maxhd id = some (it, root₁)) :
    ∃ qk, (trie_get_node root.node k).item.key = some qk ∧ 1 ≤ maxhd ∧
      it = ⟨id, .neighbors, maxhd, qk.length, qk.length, false, root.state_id, 0,
            [⟨[], k, 0, 0⟩], []⟩ ∧ root₁ = root := by
  unfold trieiter_neighbors at h
  split at h
  · cases h
  · next hmax =>
      rcases hqk : (trie_get_node root.node k).item.key with _ | qk
      · rw [hqk] at h
        cases h
      · rw [hqk] at h
        simp only [trieiter_new, if_neg (by decide : ¬ (false = true)), Option.some.injEq,
          Prod.mk.injEq] at h
        obtain ⟨h1, h2⟩ := h
        exact ⟨qk, rfl, by omega, h1.symm, h2.symm⟩

/-- C2: on a well-formed store, exhausting a neighbors iterator created
on the query path `k` emits exactly the stored keys `t ≠ k` of the same
length within Hamming distance `maxhd` of `k`, each exactly once, with
`hd` the true Hamming distance and the query item attached; `k` itself
is never emitted. -/
theorem C2_neighbors_exhaust (root : TrieRoot) (k : Key) (maxhd id : Nat)
    (it : TrieIter) (root₁ : TrieRoot)
    (hg : goodRootNode root.node)
    (hnew : trieiter_neighbors root k maxhd id = some (it, root₁)) :
    (∀ r ∈ (trieiter_exhaust root₁ it).1,
        r.query = (trie_get_node root.node k).item ∧
        ∃ t, r.target.key = some t ∧ trie_has_key root t = true ∧ t.length = k.length ∧
          t ≠ k ∧ r.hd = hamming k t ∧ 0 < r.hd ∧ r.hd ≤ maxhd) ∧
    ((trieiter_exhaust root₁ it).1.map (fun r => r.target.key)).Nodup ∧
    (∀ t, trie_has_key root t = true → t.length = k.length → 0 < hamming k t →
        hamming k t ≤ maxhd →
        some t ∈ (trieiter_exhaust root₁ it).1.map (fun r => r.target.key)) := by
  obtain ⟨qk, hqk, hmax1, hit, hroot₁⟩ := trieiter_neighbors_inv_full root k maxhd id
    it root₁ hnew
  rw [hroot₁]
  have hkk : k = qk := (goodRoot_spells root.node hg k qk hqk).symm
  subst hkk
  have hgch : goodChain root.node.child = true := hg.2.2.1
  have hkind : it.kind = .neighbors := by rw [hit]
  have hdirty : it.is_dirty = false := by rw [hit]
  have hsid : it.trie_state_id = root.state_id := by rw [hit]
  have hstack : it.stack = [⟨[], k, 0, 0⟩] := by rw [hit]
  have hmaxf : it.maxhd = maxhd := by rw [hit]
  have htd : it.target_depth = k.length := by rw [hit]
  have hex := neighbors_exhaust_join root hgch (stackMeasure root.node it.stack) it le_rfl
    hkind hdirty hsid
  rw [hstack, hmaxf, htd] at hex
  have hj : joinFramesN root.node maxhd k.length [⟨[], k, 0, 0⟩]
      = frameRefN root.node maxhd k.length ⟨[], k, 0, 0⟩ := by
    rw [joinFramesN_cons, joinFramesN_nil, List.append_nil]
  rw [hj] at hex
  by_cases hk0 : k = []
  · subst hk0
    have hfr : frameRefN root.node maxhd ([] : Key).length ⟨[], [], 0, 0⟩ = [] := by
      rw [frameRefN]
      rw [if_pos (show (Frame.mk ([] : Key) [] 0 0).depth = ([] : Key).length from rfl)]
      rw [show (trie_get_node root.node (Frame.mk ([] : Key) [] 0 0).node).item.key
        = some [] from hqk]
      rfl
    rw [hfr] at hex
    rw [hex]
    refine ⟨?_, List.nodup_nil, ?_⟩
    · intro r hr; cases hr
    · intro t ht htL hpos hle
      have ht0 : t = [] := List.length_eq_zero.mp htL
      rw [ht0] at hpos
      rw [hamming_self] at hpos
      omega
  · have hL0 : 0 < k.length := List.length_pos.mpr hk0
    have hfr : frameRefN root.node maxhd k.length ⟨[], k, 0, 0⟩
        = nbrRefChain (trie_get_node root.node k).item k maxhd k.length
            root.node.child 0 0 := by
      rw [frameRefN]
      rw [if_neg (show ¬((Frame.mk ([] : Key) k 0 0).depth = k.length) from by
        show ¬(0 = k.length)
        omega)]
      rw [show (Frame.mk ([] : Key) k 0 0).query = k from rfl,
        show (Frame.mk ([] : Key) k 0 0).node = ([] : Key) from rfl,
        show trie_get_node root.node ([] : Key) = root.node from rfl, hqk]
      rfl
    rw [hfr] at hex
    rw [hex]
    obtain ⟨hA, hB, hC⟩ := nbrRefChain_spec (trie_get_node root.node k).item k maxhd
      k.length root.node.child [] 0 0 hgch hg.2.2.2.1 rfl hL0 rfl rfl (Nat.zero_le _)
    refine ⟨?_, hB, ?_⟩
    · intro r hr
      obtain ⟨hq, t, ht1, ht2, ht3, ht4, ht5, ht6⟩ := hA r hr
      refine ⟨hq, t, ht1, ?_, ht3, ?_, ht4, ht5, ht6⟩
      · rw [trie_has_key_iff]
        apply (keysNode_mem root.node t hgch).mp
        rw [keysNode, List.mem_append]
        exact Or.inr ht2
      · intro h0
        rw [h0, hamming_self] at ht4
        omega
    · intro t ht htL hpos hle
      have htmem : t ∈ keysChain [] root.node.child := by
        have h1 := (keysNode_mem root.node t hgch).mpr ((trie_has_key_iff root t).mp ht)
        rw [keysNode, List.mem_append] at h1
        rcases h1 with h1 | h1
        · rcases hko : root.node.item.key with _ | k1 <;> rw [hko] at h1
          · cases h1
          · have ht0 : t = [] := by simpa using h1
            rw [ht0] at htL
            simp at htL
            omega
        · exact h1
      exact hC t htmem htL hpos hle

theorem C2_neighbors_exhaust_witness :
    (∀ r ∈ (trieiter_exhaust (trie_set_item (trie_set_item trie_new [97, 98] 1 false).1 [97, 99] 2 false).1 (⟨7, .neighbors, 2, 2, 2, false, 2, 0, [⟨[], [97, 98], 0, 0⟩], []⟩ : TrieIter)).1,
        r.query = (trie_get_node (trie_set_item (trie_set_item trie_new [97, 98] 1 false).1 [97, 99] 2 false).1.node [97, 98]).item ∧
        ∃ t, r.target.key = some t ∧ trie_has_key (trie_set_item (trie_set_item trie_new [97, 98] 1 false).1 [97, 99] 2 false).1 t = true ∧ t.length = ([97, 98] : Key).length ∧
          t ≠ [97, 98] ∧ r.hd = hamming [97, 98] t ∧ 0 < r.hd ∧ r.hd ≤ 2) ∧
    ((trieiter_exhaust (trie_set_item (trie_set_item trie_new [97, 98] 1 false).1 [97, 99] 2 false).1 (⟨7, .neighbors, 2, 2, 2, false, 2, 0, [⟨[], [97, 98], 0, 0⟩], []⟩ : TrieIter)).1.map (fun r => r.target.key)).Nodup ∧
    (∀ t, trie_has_key (trie_set_item (trie_set_item trie_new [97, 98] 1 false).1 [97, 99] 2 false).1 t = true → t.length = ([97, 98] : Key).length → 0 < hamming [97, 98] t →
        hamming [97, 98] t ≤ 2 →
        some t ∈ (trieiter_exhaust (trie_set_item (trie_set_item trie_new [97, 98] 1 false).1 [97, 99] 2 false).1 (⟨7, .neighbors, 2, 2, 2, false, 2, 0, [⟨[], [97, 98], 0, 0⟩], []⟩ : TrieIter)).1.map (fun r => r.target.key)) :=
  C2_neighbors_exhaust (trie_set_item (trie_set_item trie_new [97, 98] 1 false).1 [97, 99] 2 false).1 [97, 98] 2 7 (⟨7, .neighbors, 2, 2, 2, false, 2, 0, [⟨[], [97, 98], 0, 0⟩], []⟩ : TrieIter) (trie_set_item (trie_set_item trie_new [97, 98] 1 false).1 [97, 99] 2 false).1 (by decide) (by rfl)

/- ------------------------------------------------------------------ -/
/- EXPLORED marks: pointwise effect of trie_mark (claims C1, C8)       -/
/- ------------------------------------------------------------------ -/

/-- The node a root path designates carries the `EXPLORED` bit. -/
def marked (g : TrieNode) (p : Key) : Prop :=
  (trie_get_node g p).flags &&& 1 = 1

/-- Path extension (the ancestor relation on the nodes pointers model). -/
def isPre (p q : Key) : Prop := ∃ r, p ++ r = q

theorem isPre_refl (p : Key) : isPre p p := ⟨[], by simp⟩

theorem isPre_append (p r : Key) : isPre p (p ++ r) := ⟨r, rfl⟩

theorem isPre_nil (q : Key) : isPre [] q := ⟨q, rfl⟩

theorem isPre_cons_iff (x y : TRIECHAR) (a b : Key) :
    isPre (x :: a) (y :: b) ↔ x = y ∧ isPre a b := by
  constructor
  · rintro ⟨r, hr⟩
    rw [List.cons_append] at hr
    cases hr
    exact ⟨rfl, r, rfl⟩
  · rintro ⟨rfl, r, hr⟩
    exact ⟨r, by rw [List.cons_append, hr]⟩

theorem isPre_length (p q : Key) (h : isPre p q) : p.length ≤ q.length := by
  obtain ⟨r, hr⟩ := h
  rw [← hr]
  simp

theorem isPre_of_length_eq (p q : Key) (h : isPre p q) (hl : p.length = q.length) :
    p = q := by
  obtain ⟨r, hr⟩ := h
  have hlen := congrArg List.length hr
  rw [List.length_append] at hlen
  have hr0 : r = [] := List.length_eq_zero.mp (by omega)
  rw [hr0, List.append_nil] at hr
  exact hr

theorem isPre_trans (a b c : Key) (h1 : isPre a b) (h2 : isPre b c) : isPre a c := by
  obtain ⟨r1, hr1⟩ := h1
  obtain ⟨r2, hr2⟩ := h2
  exact ⟨r1 ++ r2, by rw [← List.append_assoc, hr1, hr2]⟩

/-- Two paths where neither extends the other split after a common stem. -/
theorem isPre_diverge (p q : Key) (hpq : ¬ isPre p q) (hqp : ¬ isPre q p) :
    ∃ d x y p1 q1, p = d ++ x :: p1 ∧ q = d ++ y :: q1 ∧ x ≠ y := by
  induction p generalizing q with
  | nil => exact absurd (isPre_nil q) hpq
  | cons x p1 ih =>
      cases q with
      | nil => exact absurd (isPre_nil (x :: p1)) hqp
      | cons y q1 =>
          by_cases hxy : x = y
          · subst hxy
            have h1 : ¬ isPre p1 q1 := fun h => hpq ((isPre_cons_iff _ _ _ _).mpr ⟨rfl, h⟩)
            have h2 : ¬ isPre q1 p1 := fun h => hqp ((isPre_cons_iff _ _ _ _).mpr ⟨rfl, h⟩)
            obtain ⟨d, a, b, pa, qb, hp, hq, hab⟩ := ih q1 h1 h2
            exact ⟨x :: d, a, b, pa, qb, by rw [hp]; rfl, by rw [hq]; rfl, hab⟩
          · exact ⟨[], x, y, p1, q1, rfl, rfl, hxy⟩

theorem trie_mark_ch (n : TrieNode) (r : Key) : (trie_mark n r).ch = n.ch := by
  cases n with
  | nil => cases r <;> rfl
  | mk i c s cc f =>
      cases r with
      | nil => rfl
      | cons t p =>
          rw [trie_mark]
          rcases chainFind c t with _ | _ <;> rfl

theorem trie_mark_sibling (n : TrieNode) (r : Key) : (trie_mark n r).sibling = n.sibling := by
  cases n with
  | nil => cases r <;> rfl
  | mk i c s cc f =>
      cases r with
      | nil => rfl
      | cons t p =>
          rw [trie_mark]
          rcases chainFind c t with _ | _ <;> rfl

theorem trie_mark_item (n : TrieNode) (r : Key) : (trie_mark n r).item = n.item := by
  cases n with
  | nil => cases r <;> rfl
  | mk i c s cc f =>
      cases r with
      | nil => rfl
      | cons t p =>
          rw [trie_mark]
          rcases chainFind c t with _ | _ <;> rfl

theorem trie_mark_ne_nil (n : TrieNode) (r : Key) (h : n ≠ .nil) : trie_mark n r ≠ .nil := by
  cases n with
  | nil => exact absurd rfl h
  | mk i c s cc f =>
      cases r with
      | nil => intro hx; cases hx
      | cons t p =>
          rw [trie_mark]
          rcases chainFind c t with _ | _ <;> (intro hx; cases hx)

theorem chainFind_chainSubst_flags (c : TrieNode) (t : TRIECHAR) (R : TrieNode)
    (x : TRIECHAR) (hRne : R ≠ .nil) (hRch : R.ch = t)
    (hRsib : R.sibling = (chainFind c t).sibling) (hx : x ≠ t) :
    (chainFind (chainSubst c t R) x).flags = (chainFind c x).flags := by
  induction c with
  | nil => rfl
  | mk i1 c1 s1 cc1 f1 ihc ihs =>
      rcases hR : R with _ | ⟨i2, c2, s2, cc2, f2⟩
      · exact absurd hR hRne
      · subst hR
        have hcc2 : cc2 = t := hRch
        by_cases heq : cc1 = t
        · rw [chainSubst, if_pos heq]
          rw [chainFind, if_pos heq] at hRsib
          have hs2 : s2 = s1 := hRsib
          rw [chainFind,
            if_neg (show ¬(cc2 = x) from fun hxx => hx (hxx.symm.trans hcc2)),
            chainFind, if_neg (show ¬(cc1 = x) from fun hxx => hx (hxx.symm.trans heq)),
            hs2]
        · rw [chainSubst, if_neg heq]
          rw [chainFind, if_neg heq] at hRsib
          by_cases hxx : cc1 = x
          · rw [chainFind, if_pos hxx, chainFind, if_pos hxx]
            rfl
          · rw [chainFind, if_neg hxx, chainFind, if_neg hxx]
            exact ihs hRsib

/-- Pointwise effect of `trie_mark`: items everywhere, flags away from the
marked path, and whole subtrees hanging off paths that do not lead into
the marked path are untouched. -/
theorem mark_get_triple (p0 : Key) : ∀ (p : Key) (g : TrieNode),
    (trie_get_node (trie_mark g p0) p).item = (trie_get_node g p).item ∧
    (p ≠ p0 → (trie_get_node (trie_mark g p0) p).flags = (trie_get_node g p).flags) ∧
    (¬ isPre p p0 → (trie_get_node (trie_mark g p0) p).child = (trie_get_node g p).child) := by
  induction p0 with
  | nil =>
      intro p g
      cases g with
      | nil => rw [show trie_mark TrieNode.nil [] = TrieNode.nil from rfl]; exact ⟨rfl, fun _ => rfl, fun _ => rfl⟩
      | mk i c s cc f =>
          cases p with
          | nil =>
              refine ⟨rfl, fun h => absurd rfl h, fun h => absurd (isPre_refl []) h⟩
          | cons x r =>
              have hfull : trie_get_node (trie_mark (TrieNode.mk i c s cc f) []) (x :: r)
                  = trie_get_node (TrieNode.mk i c s cc f) (x :: r) := rfl
              rw [hfull]
              exact ⟨rfl, fun _ => rfl, fun _ => rfl⟩
  | cons t p0' ih =>
      intro p g
      cases g with
      | nil =>
          rw [show trie_mark TrieNode.nil (t :: p0') = TrieNode.nil from rfl]
          exact ⟨rfl, fun _ => rfl, fun _ => rfl⟩
      | mk i c s cc f =>
          rcases hfd : chainFind c t with _ | ⟨i1, c1, s1, cc1, f1⟩
          · have hnoop : trie_mark (TrieNode.mk i c s cc f) (t :: p0')
                = TrieNode.mk i c s cc f := by
              rw [trie_mark, hfd]
            rw [hnoop]
            exact ⟨rfl, fun _ => rfl, fun _ => rfl⟩
          · have hcc1 : cc1 = t := chainFind_ch c t hfd
            subst hcc1
            have hm : trie_mark (TrieNode.mk i c s cc f) (cc1 :: p0')
                = TrieNode.mk i
                    (chainSubst c cc1 (trie_mark (TrieNode.mk i1 c1 s1 cc1 f1) p0'))
                    s cc f := by
              rw [trie_mark, hfd]
            set M := trie_mark (TrieNode.mk i1 c1 s1 cc1 f1) p0' with hM
            have hMne : M ≠ .nil := trie_mark_ne_nil _ _ (by intro hx; cases hx)
            have hMch : M.ch = cc1 := trie_mark_ch _ _
            have hMsib : M.sibling = (chainFind c cc1).sibling := by
              rw [hfd]
              exact trie_mark_sibling _ _
            rw [hm]
            cases p with
            | nil =>
                refine ⟨rfl, fun _ => rfl, fun h => absurd ( isPre_nil _) h⟩
            | cons x p' =>
                have hL : trie_get_node
                    (TrieNode.mk i (chainSubst c cc1 M) s cc f) (x :: p')
                    = trie_get_node (chainFind (chainSubst c cc1 M) x) p' := rfl
                have hR : trie_get_node (TrieNode.mk i c s cc f) (x :: p')
                    = trie_get_node (chainFind c x) p' := rfl
                rw [hL, hR]
                by_cases hx : x = cc1
                · subst hx
                  rw [chainFind_chainSubst c x M hMch (by rw [hfd]; intro hh; cases hh)]
                  rw [hfd]
                  obtain ⟨h1, h2, h3⟩ := ih p' (TrieNode.mk i1 c1 s1 x f1)
                  refine ⟨h1, fun hne => h2 ?_, fun hpre => h3 ?_⟩
                  · intro h0; exact hne (by rw [h0])
                  · intro h0
                    exact hpre ((isPre_cons_iff x x p' p0').mpr ⟨rfl, h0⟩)
                · obtain ⟨hit, hch, _⟩ :=
                    chainFind_chainSubst_ne c cc1 M x hMne hMch hMsib hx
                  have hfl := chainFind_chainSubst_flags c cc1 M x hMne hMch hMsib hx
                  cases p' with
                  | nil => exact ⟨hit, fun _ => hfl, fun _ => hch⟩
                  | cons y r =>
                      have hdeep : trie_get_node (chainFind (chainSubst c cc1 M) x) (y :: r)
                          = trie_get_node (chainFind c x) (y :: r) := by
                        rw [show trie_get_node (chainFind (chainSubst c cc1 M) x) (y :: r)
                            = trie_get_node
                                (chainFind (chainFind (chainSubst c cc1 M) x).child y) r
                            from rfl,
                          show trie_get_node (chainFind c x) (y :: r)
                            = trie_get_node (chainFind (chainFind c x).child y) r from rfl,
                          hch]
                      rw [hdeep]
                      exact ⟨rfl, fun _ => rfl, fun _ => rfl⟩

theorem or_one_and_one (f : Nat) : (f ||| 1) &&& 1 = 1 := by
  rw [Nat.and_distrib_right f 1 1, Nat.and_one_is_mod]
  rcases Nat.mod_two_eq_zero_or_one f with h | h <;> rw [h] <;> decide

/-- Marking pushes through lookups of a prefix of the marked path. -/
theorem mark_get_node_append (p : Key) : ∀ (q : Key) (g : TrieNode),
    trie_get_node (trie_mark g (p ++ q)) p = trie_mark (trie_get_node g p) q := by
  induction p with
  | nil => intro q g; rfl
  | cons x p' ih =>
      intro q g
      cases g with
      | nil =>
          rw [show trie_mark TrieNode.nil ((x :: p') ++ q) = TrieNode.nil from rfl]
          rw [trie_get_node_nil]
          cases q <;> rfl
      | mk i c s cc f =>
          rcases hfd : chainFind c x with _ | ⟨i1, c1, s1, cc1, f1⟩
          · have hnoop : trie_mark (TrieNode.mk i c s cc f) (x :: (p' ++ q))
                = TrieNode.mk i c s cc f := by
              rw [trie_mark, hfd]
            rw [show (x :: p') ++ q = x :: (p' ++ q) from rfl, hnoop]
            rw [show trie_get_node (TrieNode.mk i c s cc f) (x :: p')
              = trie_get_node (chainFind c x) p' from rfl, hfd, trie_get_node_nil]
            cases q <;> rfl
          · have hcc1 : cc1 = x := chainFind_ch c x hfd
            subst hcc1
            set M := trie_mark (TrieNode.mk i1 c1 s1 cc1 f1) (p' ++ q) with hM
            have hm : trie_mark (TrieNode.mk i c s cc f) (cc1 :: (p' ++ q))
                = TrieNode.mk i (chainSubst c cc1 M) s cc f := by
              rw [trie_mark, hfd]
            rw [show (cc1 :: p') ++ q = cc1 :: (p' ++ q) from rfl, hm]
            rw [show trie_get_node (TrieNode.mk i (chainSubst c cc1 M) s cc f) (cc1 :: p')
              = trie_get_node (chainFind (chainSubst c cc1 M) cc1) p' from rfl]
            rw [chainFind_chainSubst c cc1 M (trie_mark_ch _ _)
              (by rw [hfd]; intro hh; cases hh)]
            rw [show trie_get_node (TrieNode.mk i c s cc f) (cc1 :: p')
              = trie_get_node (chainFind c cc1) p' from rfl, hfd]
            exact ih q (TrieNode.mk i1 c1 s1 cc1 f1)

theorem mark_item_eq (g : TrieNode) (p0 p : Key) :
    (trie_get_node (trie_mark g p0) p).item = (trie_get_node g p).item :=
  (mark_get_triple p0 p g).1

theorem mark_flags_eq (g : TrieNode) (p0 p : Key) (h : p ≠ p0) :
    (trie_get_node (trie_mark g p0) p).flags = (trie_get_node g p).flags :=
  (mark_get_triple p0 p g).2.1 h

theorem mark_child_eq (g : TrieNode) (p0 p : Key) (h : ¬ isPre p p0) :
    (trie_get_node (trie_mark g p0) p).child = (trie_get_node g p).child :=
  (mark_get_triple p0 p g).2.2 h

theorem marked_ne_nil (g : TrieNode) (p : Key) (h : marked g p) :
    trie_get_node g p ≠ .nil := by
  intro h0
  rw [marked, h0] at h
  exact absurd h (by decide)

theorem marked_mark_self (g : TrieNode) (p0 : Key) (h : trie_get_node g p0 ≠ .nil) :
    marked (trie_mark g p0) p0 := by
  rw [marked]
  have hmas := mark_get_node_append p0 [] g
  rw [List.append_nil] at hmas
  rw [hmas]
  rcases hn : trie_get_node g p0 with _ | ⟨i, c, s, cc, f⟩
  · exact absurd hn h
  · rw [show trie_mark (TrieNode.mk i c s cc f) [] = TrieNode.mk i c s cc (f ||| 1) from rfl]
    exact or_one_and_one f

theorem marked_mark_mono (g : TrieNode) (p0 p : Key) (h : marked g p) :
    marked (trie_mark g p0) p := by
  by_cases hpp : p = p0
  · subst hpp
    exact marked_mark_self g p (marked_ne_nil g p h)
  · rw [marked, mark_flags_eq g p0 p hpp]
    exact h

theorem marked_mark_or (g : TrieNode) (p0 p : Key) (h : marked (trie_mark g p0) p) :
    marked g p ∨ p = p0 := by
  by_cases hpp : p = p0
  · exact Or.inr hpp
  · rw [marked, mark_flags_eq g p0 p hpp] at h
    exact Or.inl h

/-- Two trees that differ at most in their `flags` fields. -/
def sameShape : TrieNode → TrieNode → Prop
  | .nil, .nil => True
  | .mk i c s _ _, .nil => i = i ∧ False
  | .nil, .mk _ _ _ _ _ => False
  | .mk i c s cc _, .mk i' c' s' cc' _ =>
      i = i' ∧ cc = cc' ∧ sameShape c c' ∧ sameShape s s'

theorem sameShape_refl (n : TrieNode) : sameShape n n := by
  induction n with
  | nil => exact trivial
  | mk i c s cc f ihc ihs => exact ⟨rfl, rfl, ihc, ihs⟩

theorem sameShape_trans (a b c : TrieNode) (h1 : sameShape a b) (h2 : sameShape b c) :
    sameShape a c := by
  induction a generalizing b c with
  | nil =>
      cases b with
      | nil => exact h2
      | mk _ _ _ _ _ => exact absurd h1 (by intro h; exact h)
  | mk i1 c1 s1 cc1 f1 ihc ihs =>
      cases b with
      | nil => exact absurd h1 (fun h => h.2)
      | mk i2 c2 s2 cc2 f2 =>
          cases c with
          | nil => exact absurd h2 (fun h => h.2)
          | mk i3 c3 s3 cc3 f3 =>
              obtain ⟨hi12, hc12, hsc12, hss12⟩ := h1
              obtain ⟨hi23, hc23, hsc23, hss23⟩ := h2
              exact ⟨hi12.trans hi23, hc12.trans hc23, ihc c2 c3 hsc12 hsc23,
                ihs s2 s3 hss12 hss23⟩

theorem sameShape_item (n n' : TrieNode) (h : sameShape n n') : n.item = n'.item := by
  cases n with
  | nil =>
      cases n' with
      | nil => rfl
      | mk _ _ _ _ _ => exact absurd h (by intro hx; exact hx)
  | mk i c s cc f =>
      cases n' with
      | nil => exact absurd h (fun hx => hx.2)
      | mk i' c' s' cc' f' => exact h.1

theorem sameShape_child (n n' : TrieNode) (h : sameShape n n') :
    sameShape n.child n'.child := by
  cases n with
  | nil =>
      cases n' with
      | nil => exact trivial
      | mk _ _ _ _ _ => exact absurd h (by intro hx; exact hx)
  | mk i c s cc f =>
      cases n' with
      | nil => exact absurd h (fun hx => hx.2)
      | mk i' c' s' cc' f' => exact h.2.2.1

theorem sameShape_chainFind (c c' : TrieNode) (x : TRIECHAR) (h : sameShape c c') :
    sameShape (chainFind c x) (chainFind c' x) := by
  induction c generalizing c' with
  | nil =>
      cases c' with
      | nil => exact trivial
      | mk _ _ _ _ _ => exact absurd h (by intro hx; exact hx)
  | mk i cch s cc f ihc ihs =>
      cases c' with
      | nil => exact absurd h (fun hx => hx.2)
      | mk i' cch' s' cc' f' =>
          obtain ⟨hi, hcc, hc, hs⟩ := h
          subst hcc
          by_cases hx : cc = x
          · rw [chainFind, if_pos hx, chainFind, if_pos hx]
            exact ⟨hi, rfl, hc, hs⟩
          · rw [chainFind, if_neg hx, chainFind, if_neg hx]
            exact ihs s' hs

theorem sameShape_get_node (g g' : TrieNode) (h : sameShape g g') (p : Key) :
    sameShape (trie_get_node g p) (trie_get_node g' p) := by
  induction p generalizing g g' with
  | nil => exact h
  | cons x r ih =>
      rw [show trie_get_node g (x :: r) = trie_get_node (chainFind g.child x) r from rfl,
        show trie_get_node g' (x :: r) = trie_get_node (chainFind g'.child x) r from rfl]
      exact ih _ _ (sameShape_chainFind _ _ x (sameShape_child _ _ h))

theorem sameShape_chainHas (c c' : TrieNode) (h : sameShape c c') (x : TRIECHAR) :
    chainHas c x = chainHas c' x := by
  induction c generalizing c' with
  | nil =>
      cases c' with
      | nil => rfl
      | mk _ _ _ _ _ => exact absurd h (by intro hx; exact hx)
  | mk i cch s cc f ihc ihs =>
      cases c' with
      | nil => exact absurd h (fun hx => hx.2)
      | mk i' cch' s' cc' f' =>
          obtain ⟨hi, hcc, hc, hs⟩ := h
          subst hcc
          rw [chainHas, chainHas, ihs s' hs]

theorem sameShape_goodChain (c c' : TrieNode) (h : sameShape c c') :
    goodChain c = goodChain c' := by
  induction c generalizing c' with
  | nil =>
      cases c' with
      | nil => rfl
      | mk _ _ _ _ _ => exact absurd h (by intro hx; exact hx)
  | mk i cch s cc f ihc ihs =>
      cases c' with
      | nil => exact absurd h (fun hx => hx.2)
      | mk i' cch' s' cc' f' =>
          obtain ⟨hi, hcc, hc, hs⟩ := h
          subst hcc
          rw [goodChain, goodChain, ihc cch' hc, ihs s' hs, sameShape_chainHas s s' hs]

theorem sameShape_itemsOk (c c' : TrieNode) (h : sameShape c c') (p : Key) :
    itemsOk c p = itemsOk c' p := by
  induction c generalizing c' p with
  | nil =>
      cases c' with
      | nil => rfl
      | mk _ _ _ _ _ => exact absurd h (by intro hx; exact hx)
  | mk i cch s cc f ihc ihs =>
      cases c' with
      | nil => exact absurd h (fun hx => hx.2)
      | mk i' cch' s' cc' f' =>
          obtain ⟨hi, hcc, hc, hs⟩ := h
          subst hcc
          subst hi
          rw [itemsOk, itemsOk, ihc cch' hc, ihs s' hs]

theorem sameShape_chainSubst (c : TrieNode) (t : TRIECHAR) (M : TrieNode)
    (h : sameShape (chainFind c t) M) : sameShape c (chainSubst c t M) := by
  induction c with
  | nil => exact trivial
  | mk i cch s cc f ihc ihs =>
      by_cases hx : cc = t
      · rw [chainSubst, if_pos hx]
        rw [chainFind, if_pos hx] at h
        exact h
      · rw [chainSubst, if_neg hx]
        rw [chainFind, if_neg hx] at h
        exact ⟨rfl, rfl, sameShape_refl cch, ihs h⟩

theorem sameShape_mark (g : TrieNode) (p : Key) : sameShape g (trie_mark g p) := by
  induction g, p using trie_mark.induct with
  | case1 t =>
      have h : trie_mark TrieNode.nil t = TrieNode.nil := by cases t <;> rfl
      rw [h]
      exact trivial
  | case2 i c s cc f => exact ⟨rfl, rfl, sameShape_refl c, sameShape_refl s⟩
  | case3 i c s cc f t p hfd =>
      rw [trie_mark, hfd]
      exact sameShape_refl _
  | case4 i c s cc f t p hfd ih =>
      rcases hfd2 : chainFind c t with _ | ⟨i1, c1, s1, cc1, f1⟩
      · exact absurd hfd2 (fun h => hfd h)
      · have hunf : trie_mark (TrieNode.mk i c s cc f) (t :: p)
            = TrieNode.mk i (chainSubst c t (trie_mark (chainFind c t) p)) s cc f := by
          rw [trie_mark, hfd2]
        rw [hunf]
        exact ⟨rfl, rfl, sameShape_chainSubst c t _ ih, sameShape_refl s⟩

theorem flagsClear_chainFind (c : TrieNode) (x : TRIECHAR)
    (h : flagsClear c = true) : flagsClear (chainFind c x) = true := by
  induction c with
  | nil => exact rfl
  | mk i cch s cc f ihc ihs =>
      rw [flagsClear, Bool.and_eq_true, Bool.and_eq_true] at h
      obtain ⟨⟨hf, hc⟩, hs⟩ := h
      by_cases hx : cc = x
      · rw [chainFind, if_pos hx, flagsClear, hf, hc, hs]
        rfl
      · rw [chainFind, if_neg hx]
        exact ihs hs

theorem flagsClear_get_flags (g : TrieNode) (p : Key)
    (h : flagsClear g = true) : (trie_get_node g p).flags = 0 := by
  induction p generalizing g with
  | nil =>
      cases g with
      | nil => rfl
      | mk i c s cc f =>
          rw [flagsClear, Bool.and_eq_true, Bool.and_eq_true] at h
          have := h.1.1
          simpa using this
  | cons x r ih =>
      cases g with
      | nil => rw [trie_get_node_nil]; rfl
      | mk i c s cc f =>
          rw [flagsClear, Bool.and_eq_true, Bool.and_eq_true] at h
          rw [show trie_get_node (TrieNode.mk i c s cc f) (x :: r)
            = trie_get_node (chainFind c x) r from rfl]
          exact ih _ (flagsClear_chainFind c x h.1.2)

theorem not_marked_of_flagsClear (g : TrieNode) (p : Key)
    (h : flagsClear g = true) : ¬ marked g p := by
  rw [marked, flagsClear_get_flags g p h]
  decide

theorem trie_reset_of_flagsClear (n : TrieNode) (h : flagsClear n = true) :
    trie_reset n = n := by
  induction n with
  | nil => rfl
  | mk i c s cc f ihc ihs =>
      rw [flagsClear, Bool.and_eq_true, Bool.and_eq_true] at h
      obtain ⟨⟨hf, hc⟩, hs⟩ := h
      rw [trie_reset, ihc hc, ihs hs]
      have hf0 : f = 0 := by simpa using hf
      rw [hf0]

/- ------------------------------------------------------------------ -/
/- Reference semantics of the hammingpairs DFS (claims C1, C8)         -/
/- ------------------------------------------------------------------ -/

/-- Every node on the walk from a sibling chain down a path is free of
the `EXPLORED` bit (the pushes of the hammingpairs DFS test exactly
these flags). -/
def pathUnmarked (c : TrieNode) : Key → Bool
  | [] => true
  | x :: rest =>
      match chainFind c x with
      | .nil => true
      | .mk _ ch _ _ fl => if fl &&& 1 = 1 then false else pathUnmarked ch rest

/-- What the hammingpairs DFS emits for a sibling chain whose parent
sits at depth `depth` with `hd` accumulated mismatches: the neighbor
rule, except that `EXPLORED` children are skipped and the emission does
not test `hd = 0`. -/
def hpRefChain (qit : TrieItem) (qk : Key) (maxhd L : Nat) :
    TrieNode → Nat → Nat → List TrieSearchResult
  | .nil, _, _ => []
  | .mk i c s cc fl, hd, depth =>
      hpRefChain qit qk maxhd L s hd depth ++
        (if fl &&& 1 = 1 then []
         else if cc = qk.getD depth 0 then
           (if depth + 1 = L then
             (match i.key with
              | some _ => [⟨qit, i, hd⟩]
              | none => [])
           else hpRefChain qit qk maxhd L c hd (depth + 1))
         else if hd < maxhd then
           (if depth + 1 = L then
             (match i.key with
              | some _ => [⟨qit, i, hd + 1⟩]
              | none => [])
           else hpRefChain qit qk maxhd L c (hd + 1) (depth + 1))
         else [])

/-- What the hammingpairs DFS emits for one pending frame. -/
def frameRefH (g : TrieNode) (maxhd L : Nat) (f : Frame) : List TrieSearchResult :=
  if f.depth = L then
    (match (trie_get_node g f.node).item.key with
     | some _ => [⟨(trie_get_node g f.query).item, (trie_get_node g f.node).item, f.hd⟩]
     | none => [])
  else
    hpRefChain (trie_get_node g f.query).item
      ((trie_get_node g f.query).item.key.getD []) maxhd L
      (trie_get_node g f.node).child f.hd f.depth

def joinFramesH (g : TrieNode) (maxhd L : Nat) (s : List Frame) : List TrieSearchResult :=
  (s.map (frameRefH g maxhd L)).flatten

@[simp] theorem joinFramesH_nil (g : TrieNode) (maxhd L : Nat) :
    joinFramesH g maxhd L [] = [] := rfl

theorem joinFramesH_cons (g : TrieNode) (maxhd L : Nat) (f : Frame) (s : List Frame) :
    joinFramesH g maxhd L (f :: s) = frameRefH g maxhd L f ++ joinFramesH g maxhd L s := by
  simp [joinFramesH]

theorem joinFramesH_append (g : TrieNode) (maxhd L : Nat) (a b : List Frame) :
    joinFramesH g maxhd L (a ++ b) = joinFramesH g maxhd L a ++ joinFramesH g maxhd L b := by
  simp [joinFramesH]

theorem chainFramesH_le (c : TrieNode) (b q qk : Key) (hd d maxhd : Nat) :
    (chainFramesH c b q qk hd d maxhd).2.2 ≤ (chainFramesH c b q qk hd d maxhd).2.1 := by
  induction c with
  | nil => exact le_rfl
  | mk i ch s cc f ihc ihs =>
      rw [chainFramesH]
      split
      · simpa using ihs
      · split
        · simpa using Nat.le_succ_of_le ihs
        · split
          · simpa using Nat.le_succ_of_le ihs
          · simpa using Nat.le_succ_of_le ihs

/-- If the child loop saw every child explored, every chain member
carries the `EXPLORED` bit. -/
theorem chainFramesH_all_explored (c : TrieNode) (b q qk : Key) (hd d maxhd : Nat)
    (h : (chainFramesH c b q qk hd d maxhd).2.1 = (chainFramesH c b q qk hd d maxhd).2.2) :
    ∀ x, chainHas c x = true → (chainFind c x).flags &&& 1 = 1 := by
  induction c with
  | nil => intro x hx; cases hx
  | mk i ch s cc f ihc ihs =>
      intro x hx
      rw [chainFramesH] at h
      rw [chainHas, Bool.or_eq_true] at hx
      by_cases hfl : f &&& 1 = 1
      · rw [if_pos hfl] at h
        simp only [Prod.fst, Prod.snd] at h
        have hs := ihs (by omega)
        rcases hx with hx | hx
        · have hcx : cc = x := by simpa using hx
          rw [chainFind, if_pos hcx]
          exact hfl
        · by_cases hcx : cc = x
          · rw [chainFind, if_pos hcx]
            exact hfl
          · rw [chainFind, if_neg hcx]
            exact hs x hx
      · rw [if_neg hfl] at h
        have hle := chainFramesH_le s b q qk hd d maxhd
        split at h <;>
          [skip; split at h] <;>
          (simp only [Prod.fst, Prod.snd] at h; omega)

theorem chainFramesH_mem (c : TrieNode) (b q qk : Key) (hd d maxhd : Nat) :
    ∀ f' ∈ (chainFramesH c b q qk hd d maxhd).1,
      ∃ x, f'.node = b ++ [x] ∧ chainHas c x = true ∧ f'.query = q ∧
        f'.depth = d + 1 := by
  induction c with
  | nil => intro f' hf'; cases hf'
  | mk i ch s cc f ihc ihs =>
      intro f' hf'
      rw [chainFramesH] at hf'
      split at hf'
      · obtain ⟨x, h1, h2, h3, h4⟩ := ihs f' hf'
        exact ⟨x, h1, by rw [chainHas, h2]; simp, h3, h4⟩
      · split at hf'
        · rcases List.mem_cons.mp hf' with rfl | hf'
          · exact ⟨cc, rfl, by rw [chainHas]; simp, rfl, rfl⟩
          · obtain ⟨x, h1, h2, h3, h4⟩ := ihs f' hf'
            exact ⟨x, h1, by rw [chainHas, h2]; simp, h3, h4⟩
        · split at hf'
          · rcases List.mem_cons.mp hf' with rfl | hf'
            · exact ⟨cc, rfl, by rw [chainHas]; simp, rfl, rfl⟩
            · obtain ⟨x, h1, h2, h3, h4⟩ := ihs f' hf'
              exact ⟨x, h1, by rw [chainHas, h2]; simp, h3, h4⟩
          · obtain ⟨x, h1, h2, h3, h4⟩ := ihs f' hf'
            exact ⟨x, h1, by rw [chainHas, h2]; simp, h3, h4⟩

theorem chainFramesH_nodes_nodup (c : TrieNode) (b q qk : Key) (hd d maxhd : Nat)
    (hg : goodChain c = true) :
    ((chainFramesH c b q qk hd d maxhd).1.map (fun f' => f'.node)).Nodup := by
  induction c with
  | nil => exact List.nodup_nil
  | mk i ch s cc f ihc ihs =>
      rw [goodChain, Bool.and_eq_true, Bool.and_eq_true, Bool.not_eq_true'] at hg
      obtain ⟨⟨hgc, hgs⟩, hhas⟩ := hg
      have hnotail : (b ++ [cc]) ∉ ((chainFramesH s b q qk hd d maxhd).1.map
          (fun f' => f'.node)) := by
        intro hmem
        rw [List.mem_map] at hmem
        obtain ⟨f', hf', hnode⟩ := hmem
        obtain ⟨x, h1, h2, _, _⟩ := chainFramesH_mem s b q qk hd d maxhd f' hf'
        rw [h1] at hnode
        have hx : x = cc := by simpa using hnode
        rw [hx] at h2
        rw [h2] at hhas
        cases hhas
      rw [chainFramesH]
      split
      · exact ihs hgs
      · split
        · rw [List.map_cons]
          exact List.nodup_cons.mpr ⟨hnotail, ihs hgs⟩
        · split
          · rw [List.map_cons]
            exact List.nodup_cons.mpr ⟨hnotail, ihs hgs⟩
          · exact ihs hgs

/-- Expanding a node's children under the hammingpairs rule replaces it
by frames whose combined reference output is the chain's. -/
theorem joinFramesH_chainFramesH (g : TrieNode) (maxhd L : Nat) (base query : Key)
    (hd depth : Nat) (csub : TrieNode) (hgood : goodChain csub = true)
    (hagree : ∀ x, chainHas csub x = true →
      chainFind (trie_get_node g base).child x = chainFind csub x) :
    joinFramesH g maxhd L
      (chainFramesH csub base query ((trie_get_node g query).item.key.getD [])
        hd depth maxhd).1.reverse
      = hpRefChain (trie_get_node g query).item
          ((trie_get_node g query).item.key.getD []) maxhd L csub hd depth := by
  induction csub with
  | nil => rfl
  | mk i c1 s cc f ihc ihs =>
      rw [goodChain, Bool.and_eq_true, Bool.and_eq_true, Bool.not_eq_true'] at hgood
      obtain ⟨⟨hgc, hgs⟩, hhas⟩ := hgood
      have hagree_s : ∀ x, chainHas s x = true →
          chainFind (trie_get_node g base).child x = chainFind s x := by
        intro x hx
        have hxcc : ¬(cc = x) := by
          intro h
          rw [← h] at hx
          rw [hx] at hhas
          cases hhas
        have h1 := hagree x (by rw [chainHas]; simp [hx])
        rw [h1, chainFind, if_neg hxcc]
      have hderef : trie_get_node g (base ++ [cc]) = .mk i c1 s cc f := by
        rw [get_node_append]
        rw [show trie_get_node (trie_get_node g base) [cc]
          = chainFind (trie_get_node g base).child cc from rfl]
        rw [hagree cc (by rw [chainHas]; simp), chainFind, if_pos rfl]
      rw [hpRefChain, ← ihs hgs hagree_s]
      rw [chainFramesH]
      by_cases hfl : f &&& 1 = 1
      · rw [if_pos hfl, if_pos hfl, List.append_nil]
      · rw [if_neg hfl, if_neg hfl]
        by_cases hcc : cc = ((trie_get_node g query).item.key.getD []).getD depth 0
        · rw [if_pos hcc, if_pos hcc]
          simp only [Prod.fst]
          rw [List.reverse_cons, joinFramesH_append]
          congr 1
          rw [show joinFramesH g maxhd L [⟨base ++ [cc], query, hd, depth + 1⟩]
            = frameRefH g maxhd L ⟨base ++ [cc], query, hd, depth + 1⟩ ++ [] from rfl,
            List.append_nil]
          rw [frameRefH]
          rw [show (Frame.mk (base ++ [cc]) query hd (depth + 1)).depth = depth + 1 from rfl,
            show (Frame.mk (base ++ [cc]) query hd (depth + 1)).node = base ++ [cc] from rfl,
            show (Frame.mk (base ++ [cc]) query hd (depth + 1)).query = query from rfl,
            show (Frame.mk (base ++ [cc]) query hd (depth + 1)).hd = hd from rfl,
            hderef]
          by_cases hL : depth + 1 = L
          · rw [if_pos hL, if_pos hL]
            simp only [TrieNode.item]
          · rw [if_neg hL, if_neg hL]
            rfl
        · rw [if_neg hcc, if_neg hcc]
          by_cases hlt : hd < maxhd
          · rw [if_pos hlt, if_pos hlt]
            simp only [Prod.fst]
            rw [List.reverse_cons, joinFramesH_append]
            congr 1
            rw [show joinFramesH g maxhd L [⟨base ++ [cc], query, hd + 1, depth + 1⟩]
              = frameRefH g maxhd L ⟨base ++ [cc], query, hd + 1, depth + 1⟩ ++ [] from rfl,
              List.append_nil]
            rw [frameRefH]
            rw [show (Frame.mk (base ++ [cc]) query (hd + 1) (depth + 1)).depth
                = depth + 1 from rfl,
              show (Frame.mk (base ++ [cc]) query (hd + 1) (depth + 1)).node
                = base ++ [cc] from rfl,
              show (Frame.mk (base ++ [cc]) query (hd + 1) (depth + 1)).query
                = query from rfl,
              show (Frame.mk (base ++ [cc]) query (hd + 1) (depth + 1)).hd
                = hd + 1 from rfl,
              hderef]
            by_cases hL : depth + 1 = L
            · rw [if_pos hL, if_pos hL]
              simp only [TrieNode.item]
            · rw [if_neg hL, if_neg hL]
              rfl
          · rw [if_neg hlt, if_neg hlt, List.append_nil]

theorem pathUnmarked_cons (c : TrieNode) (x : TRIECHAR) (rest : Key) :
    pathUnmarked c (x :: rest)
      = (match chainFind c x with
         | .nil => true
         | .mk _ ch _ _ fl => if fl &&& 1 = 1 then false else pathUnmarked ch rest) := by
  rw [pathUnmarked]

/-- The hammingpairs DFS on a chain emits exactly the stored keys of
full length within Hamming distance `maxhd` whose entire access path is
free of `EXPLORED` bits, each once, with its true distance. -/
theorem hpRefChain_spec (qit : TrieItem) (qk : Key) (maxhd L : Nat) :
    ∀ (c : TrieNode) (p : Key) (hd depth : Nat),
      goodChain c = true → itemsOk c p = true →
      p.length = depth → depth < L → qk.length = L →
      hd = hamming (qk.take depth) p → hd ≤ maxhd →
      (∀ r ∈ hpRefChain qit qk maxhd L c hd depth,
          r.query = qit ∧ ∃ x rest t, r.target.key = some t ∧ t = p ++ x :: rest ∧
            (trie_get_node (chainFind c x) rest).item.key = some t ∧
            ¬((trie_get_node (chainFind c x) rest).flags &&& 1 = 1) ∧
            t.length = L ∧ r.hd = hamming qk t ∧ r.hd ≤ maxhd) ∧
      ((hpRefChain qit qk maxhd L c hd depth).map (fun r => r.target.key)).Nodup ∧
      (∀ x rest t, t = p ++ x :: rest →
          (trie_get_node (chainFind c x) rest).item.key = some t →
          pathUnmarked c (x :: rest) = true →
          t.length = L → hamming qk t ≤ maxhd →
          some t ∈ (hpRefChain qit qk maxhd L c hd depth).map (fun r => r.target.key)) := by
  intro c
  induction c with
  | nil =>
      intro p hd depth hg hok hlen hdep hqk hhd hmax
      refine ⟨?_, List.nodup_nil, ?_⟩
      · intro r hr; cases hr
      · intro x rest t ht hkey hum htL hle
        rw [show chainFind TrieNode.nil x = TrieNode.nil from rfl,
          trie_get_node_nil] at hkey
        cases hkey
  | mk i c1 s cc f ihc ihs =>
      intro p hd depth hg hok hlen hdep hqk hhd hmax
      rw [goodChain, Bool.and_eq_true, Bool.and_eq_true, Bool.not_eq_true'] at hg
      obtain ⟨⟨hgc, hgs⟩, hhas⟩ := hg
      rw [itemsOk, Bool.and_assoc, Bool.and_eq_true, Bool.and_eq_true] at hok
      obtain ⟨hown, hokc, hoks⟩ := hok
      have hdlt : depth < qk.length := by omega
      have htake : (qk.take depth).length = p.length := by
        rw [List.length_take]
        omega
      have hamH : hamming (qk.take (depth + 1)) (p ++ [cc])
          = hd + (if cc = qk.getD depth 0 then 0 else 1) := by
        rw [take_getD_snoc qk depth hdlt, hamming_snoc _ _ _ _ htake, ← hhd]
        by_cases hcc : cc = qk.getD depth 0
        · rw [if_pos hcc, if_pos hcc.symm]
        · rw [if_neg hcc, if_neg (fun h0 => hcc h0.symm)]
      have htakeL : qk.take L = qk := by
        rw [← hqk, List.take_length]
      have hspell : ∀ k0, i.key = some k0 → k0 = p ++ [cc] := by
        intro k0 hk0
        rw [hk0] at hown
        simpa using hown
      have hfindcc : chainFind (TrieNode.mk i c1 s cc f) cc = TrieNode.mk i c1 s cc f := by
        rw [chainFind, if_pos rfl]
      have hfind_ne : ∀ x, ¬(cc = x) →
          chainFind (TrieNode.mk i c1 s cc f) x = chainFind s x := by
        intro x hx
        rw [chainFind, if_neg hx]
      obtain ⟨ihsA, ihsB, ihsC⟩ := ihs p hd depth hgs hoks hlen hdep hqk hhd hmax
      -- lift the sibling conclusions from `s` to the full chain
      have hliftS : ∀ x rest t, (trie_get_node (chainFind s x) rest).item.key = some t →
          chainFind (TrieNode.mk i c1 s cc f) x = chainFind s x := by
        intro x rest t hkey
        have hne : chainFind s x ≠ TrieNode.nil := by
          intro h0
          rw [h0, trie_get_node_nil] at hkey
          cases hkey
        have hhx : chainHas s x = true := chainFind_ne_nil_chainHas s x hne
        refine hfind_ne x ?_
        intro h0
        rw [h0] at hhas
        rw [hhx] at hhas
        cases hhas
      have hBspec : ∀ hfl : ¬(f &&& 1 = 1),
          (∀ r ∈ (if cc = qk.getD depth 0 then
               (if depth + 1 = L then
                 (match i.key with
                  | some _ => [(⟨qit, i, hd⟩ : TrieSearchResult)]
                  | none => [])
               else hpRefChain qit qk maxhd L c1 hd (depth + 1))
             else if hd < maxhd then
               (if depth + 1 = L then
                 (match i.key with
                  | some _ => [(⟨qit, i, hd + 1⟩ : TrieSearchResult)]
                  | none => [])
               else hpRefChain qit qk maxhd L c1 (hd + 1) (depth + 1))
             else []),
            r.query = qit ∧ ∃ rest t, r.target.key = some t ∧ t = p ++ cc :: rest ∧
              (trie_get_node (TrieNode.mk i c1 s cc f) rest).item.key = some t ∧
              ¬((trie_get_node (TrieNode.mk i c1 s cc f) rest).flags &&& 1 = 1) ∧
              t.length = L ∧ r.hd = hamming qk t ∧ r.hd ≤ maxhd) := by
        intro hfl
        by_cases hcc : cc = qk.getD depth 0
        · rw [if_pos hcc]
          by_cases hL : depth + 1 = L
          · rw [if_pos hL]
            rcases hk : i.key with _ | k0
            · intro r hr; cases hr
            · intro r hr
              have hre : r = ⟨qit, i, hd⟩ := by simpa using hr
              subst hre
              have hk0 : k0 = p ++ [cc] := hspell k0 hk
              refine ⟨rfl, [], p ++ [cc], ?_, rfl, ?_, ?_, ?_, ?_, hmax⟩
              · rw [show (⟨qit, i, hd⟩ : TrieSearchResult).target = i from rfl, hk, hk0]
              · rw [show trie_get_node (TrieNode.mk i c1 s cc f) [] =
                  TrieNode.mk i c1 s cc f from rfl, show (TrieNode.mk i c1 s cc f).item
                  = i from rfl, hk, hk0]
              · rw [show trie_get_node (TrieNode.mk i c1 s cc f) [] =
                  TrieNode.mk i c1 s cc f from rfl]
                exact hfl
              · rw [List.length_append, hlen]
                simpa using hL
              · show hd = hamming qk (p ++ [cc])
                rw [← htakeL, ← hL, hamH, if_pos hcc]
                try omega
          · rw [if_neg hL]
            intro r hr
            obtain ⟨hq, x, rest, t, ht1, ht2, ht3, ht4, ht5, ht6, ht7⟩ :=
              (ihc (p ++ [cc]) hd (depth + 1) hgc hokc
                (by rw [List.length_append, hlen]; rfl)
                (by omega) hqk (by rw [hamH, if_pos hcc]; try omega) hmax).1 r hr
            refine ⟨hq, x :: rest, t, ht1, by rw [ht2, List.append_assoc]; rfl,
              ht3, ht4, ht5, ht6, ht7⟩
        · rw [if_neg hcc]
          by_cases hlt : hd < maxhd
          · rw [if_pos hlt]
            by_cases hL : depth + 1 = L
            · rw [if_pos hL]
              rcases hk : i.key with _ | k0
              · intro r hr; cases hr
              · intro r hr
                have hre : r = ⟨qit, i, hd + 1⟩ := by simpa using hr
                subst hre
                have hk0 : k0 = p ++ [cc] := hspell k0 hk
                refine ⟨rfl, [], p ++ [cc], ?_, rfl, ?_, ?_, ?_, ?_,
                  (by show hd + 1 ≤ maxhd; omega)⟩
                · rw [show (⟨qit, i, hd + 1⟩ : TrieSearchResult).target = i from rfl,
                    hk, hk0]
                · rw [show trie_get_node (TrieNode.mk i c1 s cc f) [] =
                    TrieNode.mk i c1 s cc f from rfl, show (TrieNode.mk i c1 s cc f).item
                    = i from rfl, hk, hk0]
                · rw [show trie_get_node (TrieNode.mk i c1 s cc f) [] =
                    TrieNode.mk i c1 s cc f from rfl]
                  exact hfl
                · rw [List.length_append, hlen]
                  simpa using hL
                · show hd + 1 = hamming qk (p ++ [cc])
                  rw [← htakeL, ← hL, hamH, if_neg hcc]
                  try omega
            · rw [if_neg hL]
              intro r hr
              obtain ⟨hq, x, rest, t, ht1, ht2, ht3, ht4, ht5, ht6, ht7⟩ :=
                (ihc (p ++ [cc]) (hd + 1) (depth + 1) hgc hokc
                  (by rw [List.length_append, hlen]; rfl)
                  (by omega) hqk (by rw [hamH, if_neg hcc]; try omega) (by omega)).1 r hr
              refine ⟨hq, x :: rest, t, ht1, by rw [ht2, List.append_assoc]; rfl,
                ht3, ht4, ht5, ht6, ht7⟩
          · rw [if_neg hlt]
            intro r hr; cases hr
      refine ⟨?_, ?_, ?_⟩
      · -- soundness
        intro r hr
        rw [hpRefChain, List.mem_append] at hr
        rcases hr with hr | hr
        · obtain ⟨hq, x, rest, t, ht1, ht2, ht3, ht4, ht5, ht6, ht7⟩ := ihsA r hr
          refine ⟨hq, x, rest, t, ht1, ht2, ?_, ?_, ht5, ht6, ht7⟩
          · rw [hliftS x rest t ht3]
            exact ht3
          · rw [hliftS x rest t ht3]
            exact ht4
        · by_cases hfl : f &&& 1 = 1
          · rw [if_pos hfl] at hr
            cases hr
          · rw [if_neg hfl] at hr
            obtain ⟨hq, rest, t, ht1, ht2, ht3, ht4, ht5, ht6, ht7⟩ := hBspec hfl r hr
            refine ⟨hq, cc, rest, t, ht1, ht2, ?_, ?_, ht5, ht6, ht7⟩
            · rw [hfindcc]
              exact ht3
            · rw [hfindcc]
              exact ht4
      · -- each key once
        rw [hpRefChain, List.map_append]
        refine List.Nodup.append ihsB ?_ ?_
        · by_cases hfl : f &&& 1 = 1
          · rw [if_pos hfl]
            exact List.nodup_nil
          · rw [if_neg hfl]
            by_cases hcc : cc = qk.getD depth 0
            · rw [if_pos hcc]
              by_cases hL : depth + 1 = L
              · rw [if_pos hL]
                rcases hk : i.key with _ | k0
                · exact List.nodup_nil
                · exact List.nodup_singleton _
              · rw [if_neg hL]
                exact (ihc (p ++ [cc]) hd (depth + 1) hgc hokc
                  (by rw [List.length_append, hlen]; rfl) (by omega) hqk
                  (by rw [hamH, if_pos hcc]; try omega) hmax).2.1
            · rw [if_neg hcc]
              by_cases hlt : hd < maxhd
              · rw [if_pos hlt]
                by_cases hL : depth + 1 = L
                · rw [if_pos hL]
                  rcases hk : i.key with _ | k0
                  · exact List.nodup_nil
                  · exact List.nodup_singleton _
                · rw [if_neg hL]
                  exact (ihc (p ++ [cc]) (hd + 1) (depth + 1) hgc hokc
                    (by rw [List.length_append, hlen]; rfl) (by omega) hqk
                    (by rw [hamH, if_neg hcc]; try omega) (by omega)).2.1
              · rw [if_neg hlt]
                exact List.nodup_nil
        · intro a ha hb
          rw [List.mem_map] at ha hb
          obtain ⟨r1, hr1, hk1⟩ := ha
          obtain ⟨r2, hr2, hk2⟩ := hb
          obtain ⟨-, x1, rest1, t1, ht11, ht12, ht13, -⟩ := ihsA r1 hr1
          by_cases hfl : f &&& 1 = 1
          · rw [if_pos hfl] at hr2
            cases hr2
          · rw [if_neg hfl] at hr2
            obtain ⟨-, rest2, t2, ht21, ht22, -⟩ := hBspec hfl r2 hr2
            rw [ht11] at hk1
            rw [ht21] at hk2
            have htt : t1 = t2 := Option.some_injective _ (hk1.trans hk2.symm)
            have hx1cc : x1 = cc := append_cons_head (ht12.symm.trans (htt.trans ht22))
            have hne1 : chainFind s x1 ≠ TrieNode.nil := by
              intro h0
              rw [h0, trie_get_node_nil] at ht13
              cases ht13
            have hhx : chainHas s x1 = true := chainFind_ne_nil_chainHas s x1 hne1
            rw [hx1cc] at hhx
            rw [hhx] at hhas
            cases hhas
      · -- completeness
        intro x rest t ht hkey hum htL hle
        rw [hpRefChain, List.map_append, List.mem_append]
        by_cases hxcc : cc = x
        · right
          subst hxcc
          rw [hfindcc] at hkey
          rw [pathUnmarked_cons, hfindcc] at hum
          have hum' : (if f &&& 1 = 1 then false else pathUnmarked c1 rest) = true := hum
          by_cases hfl : f &&& 1 = 1
          · rw [if_pos hfl] at hum'
            cases hum'
          · rw [if_neg hfl] at hum'
            rw [if_neg hfl]
            cases rest with
            | nil =>
                have hteq : t = p ++ [cc] := ht
                have hkey' : i.key = some t := hkey
                have hL : depth + 1 = L := by
                  rw [hteq, List.length_append, hlen] at htL
                  simpa using htL
                have hham : hamming qk t
                    = hd + (if cc = qk.getD depth 0 then 0 else 1) := by
                  have h0 := hamH
                  rw [hL, htakeL] at h0
                  rw [hteq]
                  exact h0
                by_cases hcc : cc = qk.getD depth 0
                · rw [if_pos hcc, if_pos hL]
                  simp [hkey']
                · rw [if_neg hcc] at hham
                  have hlt : hd < maxhd := by omega
                  rw [if_neg hcc, if_pos hlt, if_pos hL]
                  simp [hkey']
            | cons x2 rest2 =>
                have hL : ¬depth + 1 = L := by
                  have hlen2 := congrArg List.length ht
                  rw [htL] at hlen2
                  simp only [List.length_append, List.length_cons] at hlen2
                  omega
                have ht' : t = (p ++ [cc]) ++ x2 :: rest2 := by
                  rw [ht, List.append_assoc]
                  rfl
                have hkey' : (trie_get_node (chainFind c1 x2) rest2).item.key = some t :=
                  hkey
                have hum2 : pathUnmarked c1 (x2 :: rest2) = true := hum'
                have htake1 : t.take (depth + 1) = p ++ [cc] := by
                  rw [ht']
                  rw [show depth + 1 = (p ++ [cc]).length from by
                    rw [List.length_append, hlen]; rfl]
                  exact List.take_left _ _
                by_cases hcc : cc = qk.getD depth 0
                · rw [if_pos hcc, if_neg hL]
                  exact (ihc (p ++ [cc]) hd (depth + 1) hgc hokc
                    (by rw [List.length_append, hlen]; rfl) (by omega) hqk
                    (by rw [hamH, if_pos hcc]; try omega) hmax).2.2 x2 rest2 t ht'
                    hkey' hum2 htL hle
                · have hpre : hd + 1 ≤ hamming qk t := by
                    have hmono := hamming_take_le qk t (depth + 1)
                    rw [htake1, hamH, if_neg hcc] at hmono
                    omega
                  have hlt : hd < maxhd := by omega
                  rw [if_neg hcc, if_pos hlt, if_neg hL]
                  exact (ihc (p ++ [cc]) (hd + 1) (depth + 1) hgc hokc
                    (by rw [List.length_append, hlen]; rfl) (by omega) hqk
                    (by rw [hamH, if_neg hcc]; try omega) (by omega)).2.2 x2 rest2 t ht'
                    hkey' hum2 htL hle
        · left
          rw [hfind_ne x hxcc] at hkey
          have hum2 : pathUnmarked s (x :: rest) = true := by
            rw [pathUnmarked_cons] at hum ⊢
            rw [chainFind, if_neg hxcc] at hum
            exact hum
          exact ihsC x rest t ht hkey hum2 htL hle

/-- A mark at a node that no pending frame's subtree contains does not
change that frame's reference output. -/
theorem frameRefH_mark (g : TrieNode) (p0 : Key) (maxhd L : Nat) (f : Frame)
    (h : ¬ isPre f.node p0) :
    frameRefH (trie_mark g p0) maxhd L f = frameRefH g maxhd L f := by
  rw [frameRefH, frameRefH, mark_item_eq g p0 f.node, mark_item_eq g p0 f.query,
    mark_child_eq g p0 f.node h]

theorem joinFramesH_mark (g : TrieNode) (p0 : Key) (maxhd L : Nat) (s : List Frame)
    (h : ∀ f' ∈ s, ¬ isPre f'.node p0) :
    joinFramesH (trie_mark g p0) maxhd L s = joinFramesH g maxhd L s := by
  induction s with
  | nil => rfl
  | cons f rest ih =>
      rw [joinFramesH_cons, joinFramesH_cons,
        frameRefH_mark g p0 maxhd L f (h f (List.mem_cons_self f rest)),
        ih (fun f' hf' => h f' (List.mem_cons_of_mem f hf'))]

/-- One hammingpairs run: drain the traversal stack, collecting the
emitted results and the marks the run leaves behind. -/
def hpRun (maxhd L : Nat) (g : TrieNode) (stack : List Frame) :
    List TrieSearchResult × TrieNode :=
  match stack with
  | [] => ([], g)
  | f :: rest =>
      if f.depth = L then
        match (trie_get_node g f.node).item.key with
        | none => hpRun maxhd L (trie_mark g f.node) rest
        | some _ =>
            let e := hpRun maxhd L g rest
            (⟨(trie_get_node g f.query).item, (trie_get_node g f.node).item, f.hd⟩ :: e.1,
             e.2)
      else
        let r := chainFramesH (trie_get_node g f.node).child f.node f.query
          ((trie_get_node g f.query).item.key.getD []) f.hd f.depth maxhd
        hpRun maxhd L (if r.2.1 = r.2.2 then trie_mark g f.node else g)
          (r.1.reverse ++ rest)
termination_by stackMeasure g stack
decreasing_by
  · rw [stackMeasure_mark]
    exact stackMeasure_tail_lt g f rest
  · exact stackMeasure_tail_lt g f rest
  · have hgoal := hammingpairs_expand_lt g f rest maxhd
    split
    · rw [stackMeasure_mark]
      exact hgoal
    · exact hgoal

/-- Exhausting the raw hammingpairs step function. -/
def hpExhaust (maxhd L : Nat) (g : TrieNode) (stack : List Frame) (ts : List Key) :
    List TrieSearchResult × TrieNode :=
  match h : trieiter_hammingpairs_next maxhd L g stack ts with
  | (none, g', _, _) => ([], g')
  | (some r, g', s', ts') =>
      let e := hpExhaust maxhd L g' s' ts'
      (r :: e.1, e.2)
termination_by (ts.length, stackMeasure g stack)
decreasing_by
  rcases trieiter_hammingpairs_next_lt maxhd L g stack ts r g' s' ts' h with h1 | ⟨h1, h2⟩
  · exact Prod.Lex.left _ _ h1
  · have h1' : ts'.length = ts.length := h1
    rw [h1']
    exact Prod.Lex.right _ h2

theorem hpExhaust_none (maxhd L : Nat) (g : TrieNode) (stack : List Frame) (ts : List Key)
    (g' : TrieNode) (s' : List Frame) (ts' : List Key)
    (h : trieiter_hammingpairs_next maxhd L g stack ts = (none, g', s', ts')) :
    hpExhaust maxhd L g stack ts = ([], g') := by
  rw [hpExhaust]
  split
  · next g2 s2 t2 heq =>
      rw [h] at heq
      injection heq with h1 h2
      injection h2 with h2a h2b
      rw [h2a]
  · next r2 g2 s2 t2 heq =>
      rw [h] at heq
      injection heq with h1 h2
      cases h1

theorem hpExhaust_some (maxhd L : Nat) (g : TrieNode) (stack : List Frame) (ts : List Key)
    (r : TrieSearchResult) (g' : TrieNode) (s' : List Frame) (ts' : List Key)
    (h : trieiter_hammingpairs_next maxhd L g stack ts = (some r, g', s', ts')) :
    hpExhaust maxhd L g stack ts
      = (r :: (hpExhaust maxhd L g' s' ts').1, (hpExhaust maxhd L g' s' ts').2) := by
  rw [hpExhaust]
  split
  · next g2 s2 t2 heq =>
      rw [h] at heq
      injection heq with h1 h2
      cases h1
  · next r2 g2 s2 t2 heq =>
      rw [h] at heq
      injection heq with h1 h2
      injection h2 with h2a h2b
      injection h2b with h2c h2d
      injection h1 with h1a
      rw [h1a, h2a, h2c, h2d]

theorem hpExhaust_congr (maxhd L : Nat) (g g1 : TrieNode) (stack s1 : List Frame)
    (ts t1 : List Key)
    (h : trieiter_hammingpairs_next maxhd L g stack ts
       = trieiter_hammingpairs_next maxhd L g1 s1 t1) :
    hpExhaust maxhd L g stack ts = hpExhaust maxhd L g1 s1 t1 := by
  rcases hv : trieiter_hammingpairs_next maxhd L g1 s1 t1 with ⟨r, g', s', ts'⟩
  rw [hv] at h
  cases r with
  | none =>
      rw [hpExhaust_none maxhd L g stack ts g' s' ts' h,
        hpExhaust_none maxhd L g1 s1 t1 g' s' ts' hv]
  | some res =>
      rw [hpExhaust_some maxhd L g stack ts res g' s' ts' h,
        hpExhaust_some maxhd L g1 s1 t1 res g' s' ts' hv]

end VTrie